import Mathlib

/-!
Verification of the candidate-resolution and temporal-deduplication engine of
the daily_news crawler (src/news_crawler.py) against its specification.

The Python source is shallowly embedded: strings are `List Char`, Python
`datetime` values are seconds-since-epoch integers (`Int`), `None`-able values
are `Option`, and dictionaries with insertion order are association lists.
External collaborators (network fetch, trafilatura, readability, dateutil's
general parser, the OpenAI summarizer) are passed in as explicit data or
oracle functions, exactly at the call boundary the source uses them.
-/

namespace News

/-- Strings are modelled as lists of characters. -/
abbrev Str := List Char

/-- Coerce a Lean string literal to the model representation. -/
def strL (s : String) : Str := s.data

/-- Whitespace in the sense of Python's `str.strip` / regex `\s`
(Unicode whitespace property, enumerated). -/
def isPyWs (c : Char) : Bool :=
  let n := c.toNat
  n == 9 || n == 10 || n == 11 || n == 12 || n == 13 || n == 32 ||
  (28 ≤ n && n ≤ 31) || n == 0x85 || n == 0xa0 || n == 0x1680 ||
  (0x2000 ≤ n && n ≤ 0x200a) || n == 0x2028 || n == 0x2029 ||
  n == 0x202f || n == 0x205f || n == 0x3000

/-- Python `s.strip()`. -/
def pyStrip (s : Str) : Str :=
  ((s.dropWhile isPyWs).reverse.dropWhile isPyWs).reverse

/-- Lowercasing of a character as used on the ASCII data the crawler
compares (hosts, URL paths, Latin titles); code points above ASCII are
left unchanged, matching `str.lower` on the caseless CJK text involved. -/
def pyLowerChar (c : Char) : Char :=
  if 65 ≤ c.toNat && c.toNat ≤ 90 then Char.ofNat (c.toNat + 32) else c

/-- Python `s.lower()` on the model's character range. -/
def pyLower (s : Str) : Str := s.map pyLowerChar

/-- One pass of `re.sub(r"\s+", " ", s)`: every maximal whitespace run
becomes a single space.  The `Bool` flag records whether the previous
character was part of a whitespace run already emitted. -/
def collapseWsGo : Bool → Str → Str
  | _, [] => []
  | afterWs, c :: rest =>
    if isPyWs c then
      if afterWs then collapseWsGo true rest
      else Char.ofNat 32 :: collapseWsGo true rest
    else c :: collapseWsGo false rest

/-- `re.sub(r"\s+", " ", s)`. -/
def collapseWs (s : Str) : Str := collapseWsGo false s

/-- Lexicographic `<` on Python strings (code-point order). -/
def strLt : Str → Str → Bool
  | [], [] => false
  | [], _ :: _ => true
  | _ :: _, [] => false
  | a :: as, b :: bs => a < b || (a == b && strLt as bs)

/-- `l.startswith(p)` for the model strings. -/
def startsWithStr : Str → Str → Bool
  | _, [] => true
  | [], _ :: _ => false
  | c :: cs, p :: ps => c == p && startsWithStr cs ps

/-- `p in s` (substring containment, Python `in`). -/
def containsSub (s p : Str) : Bool :=
  match s with
  | [] => startsWithStr [] p
  | _ :: rest => startsWithStr s p || containsSub rest p

/-! ## Lookback predicate (src/news_crawler.py lines 40-44, 317-318)

`NOW` and `LOOKBACK_HOURS` are process-global configuration; the threshold is
`NOW - timedelta(hours=LOOKBACK_HOURS)`.  Timestamps are seconds. -/

/-- `THRESHOLD = NOW - dt.timedelta(hours=LOOKBACK_HOURS)`. -/
def THRESHOLD (now lookbackHours : Int) : Int := now - lookbackHours * 3600

/-- `within_lookback(d) = bool(d and d >= THRESHOLD)`; a `datetime` object is
always truthy, so the conjunct `d` is exactly a `None` test. -/
def within_lookback (threshold : Int) (d : Option Int) : Bool :=
  match d with
  | none => false
  | some t => threshold ≤ t

/-! ## Title normalization and deduplication (lines 81-90, 926-948) -/

/-- The quote characters removed by `re.sub(r"[’'\"“”‘’`´]", "", s)`. -/
def isQuoteChar (c : Char) : Bool :=
  let n := c.toNat
  n == 0x2019 || n == 39 || n == 34 || n == 0x201c || n == 0x201d ||
  n == 0x2018 || n == 96 || n == 0xb4

/-- The separator characters turned into spaces by `re.sub(r"[：:｜|・•∙●◦]", " ", s)`. -/
def isColonSep (c : Char) : Bool :=
  let n := c.toNat
  n == 0xff1a || n == 0x3a || n == 0xff5c || n == 0x7c || n == 0x30fb ||
  n == 0x2022 || n == 0x2219 || n == 0x25cf || n == 0x25e6

/-- The bracket characters turned into spaces by
`re.sub(r"[（）()【】\[\]{}<>「」『』]", " ", s)`. -/
def isBracketChar (c : Char) : Bool :=
  let n := c.toNat
  n == 0xff08 || n == 0xff09 || n == 0x28 || n == 0x29 || n == 0x3010 ||
  n == 0x3011 || n == 0x5b || n == 0x5d || n == 0x7b || n == 0x7d ||
  n == 0x3c || n == 0x3e || n == 0x300c || n == 0x300d || n == 0x300e ||
  n == 0x300f

/-- The punctuation run characters of `re.sub(r"[!！?？,，.。/／\\\-—–_]+", " ", s)`.
Replacing each such character by a space and collapsing whitespace afterwards
produces the same string as replacing each maximal run by one space. -/
def isPunctStrip (c : Char) : Bool :=
  let n := c.toNat
  n == 0x21 || n == 0xff01 || n == 0x3f || n == 0xff1f || n == 0x2c ||
  n == 0xff0c || n == 0x2e || n == 0x3002 || n == 0x2f || n == 0xff0f ||
  n == 0x5c || n == 0x2d || n == 0x2014 || n == 0x2013 || n == 0x5f

/-- `normalize_title` (lines 81-90). -/
def normalize_title (t : Str) : Str :=
  let s := pyLower (pyStrip t)
  let s := collapseWs s
  let s := s.filter (fun c => !isQuoteChar c)
  let s := s.map (fun c => if isColonSep c then Char.ofNat 32 else c)
  let s := s.map (fun c => if isBracketChar c then Char.ofNat 32 else c)
  let s := s.map (fun c => if isPunctStrip c then Char.ofNat 32 else c)
  pyStrip (collapseWs s)

/-- The two fields of a row that `dedupe_by_title_keep_latest` inspects.
`time` models `row.get(time_key) or ""`: a missing or empty value is `[]`. -/
structure DRow where
  title : Str
  time : Str
deriving DecidableEq

/-- `pick_newer_by_time` (lines 926-935); `ta >= tb` is Python string
comparison on the ISO timestamp strings. -/
def pick_newer_by_time (a b : DRow) : DRow :=
  if a.time ≠ [] ∧ b.time ≠ [] then (if strLt a.time b.time then b else a)
  else if a.time ≠ [] ∧ b.time = [] then a
  else if b.time ≠ [] ∧ a.time = [] then b
  else a

/-- Insertion-ordered dict update: `best[key] = r` appends a fresh key at the
end and folds a colliding key in place with `pick_newer_by_time`. -/
def updateBest (best : List (Str × DRow)) (key : Str) (r : DRow) :
    List (Str × DRow) :=
  match best with
  | [] => [(key, r)]
  | q :: rest =>
    if q.1 = key then (q.1, pick_newer_by_time q.2 r) :: rest
    else q :: updateBest rest key r

/-- One loop iteration of `dedupe_by_title_keep_latest`: rows whose stripped
title is empty are skipped, others are folded into the dict. -/
def dedupeStep (best : List (Str × DRow)) (r : DRow) : List (Str × DRow) :=
  if pyStrip r.title = [] then best
  else updateBest best (normalize_title (pyStrip r.title)) r

/-- `dedupe_by_title_keep_latest` (lines 937-948): `list(best.values())`. -/
def dedupe_by_title_keep_latest (rows : List DRow) : List DRow :=
  (rows.foldl dedupeStep []).map Prod.snd

/-! ## Content extraction fallback chain (lines 729-781)

The external extractors are supplied as data: `trafiSoup` is the result of
`trafi_extract(str(soup), ...)` when the page was fetched (`none` models both
`None` and an exception), `trafiDl` the result of the `fetch_url`-based retry
used when the fetch failed, `readParas` the `tx`-flattened paragraph texts of
the readability summary, and `artParas` those of the `<article>` (or whole
document) manual fallback. -/

structure ExtractIn where
  fetched : Bool
  trafiSoup : Option Str
  trafiDl : Option Str
  readParas : List Str
  artParas : List Str

/-- Stage 1 (lines 737-744): trafilatura on the fetched HTML; the text is
kept only when at least 200 characters long, and is stripped on store. -/
def stage1Text (inp : ExtractIn) : Str :=
  if inp.fetched then
    match inp.trafiSoup with
    | some t => if 200 ≤ t.length then pyStrip t else []
    | none => []
  else []

/-- Stage 2 (lines 746-754): only when the fetch itself failed (`not r`),
any non-empty trafilatura result from `fetch_url` is stored. -/
def stage2Text (inp : ExtractIn) (prev : Str) : Str :=
  if inp.fetched then prev
  else
    match inp.trafiDl with
    | some t => if t ≠ [] then pyStrip t else prev
    | none => prev

/-- The candidate text of stage 3 (lines 756-768): readability paragraphs of
length ≥ 20 joined by newlines and stripped. -/
def stage3CandText (inp : ExtractIn) : Str :=
  pyStrip (List.intercalate (strL "\n")
    (inp.readParas.filter (fun p => 20 ≤ p.length)))

/-- Stage 3 (lines 756-768): the candidate text is adopted only when strictly
longer than the running text and only when the running text is still under
200 characters. -/
def stage3Text (inp : ExtractIn) (prev : Str) : Str :=
  if inp.fetched ∧ prev.length < 200 then
    if prev.length < (stage3CandText inp).length then stage3CandText inp
    else prev
  else prev

/-- The kept paragraphs of stage 4 (lines 770-781): paragraphs of the
`<article>` element (or whole document) of length ≥ 20. -/
def stage4Paras (inp : ExtractIn) : List Str :=
  inp.artParas.filter (fun p => 20 ≤ p.length)

/-- Stage 4 (lines 770-781): the joined paragraphs are adopted only when the
paragraph list is non-empty and the joined text is strictly longer; also
gated on the running text being under 200 characters. -/
def stage4Text (inp : ExtractIn) (prev : Str) : Str :=
  if inp.fetched ∧ prev.length < 200 then
    if stage4Paras inp ≠ [] then
      if prev.length < (List.intercalate (strL "\n") (stage4Paras inp)).length
      then List.intercalate (strL "\n") (stage4Paras inp)
      else prev
    else prev
  else prev

/-- The running best text after each of the four fallback stages, starting
from the initial `out = {"text": "", ...}`. -/
def extract_text_stages (inp : ExtractIn) : List Str :=
  let t1 := stage1Text inp
  let t2 := stage2Text inp t1
  let t3 := stage3Text inp t2
  let t4 := stage4Text inp t3
  [[], t1, t2, t3, t4]

/-- The final `out["text"]` of `extract_article`. -/
def extract_article_text (inp : ExtractIn) : Str :=
  stage4Text inp (stage3Text inp (stage2Text inp (stage1Text inp)))

/-! ## URL machinery: `urllib.parse` as used by the crawler

`normalize_url` (lines 67-79) is built from `urlparse`, `parse_qsl`,
`urlencode`, `geturl` and a trailing-`?` strip; the model below follows
CPython's `urllib/parse.py`.  The `ValueError`s `urlsplit` can raise for
malformed bracketed hosts are not modelled: on those inputs `normalize_url`
returns its argument unchanged through its `except` arm, which is trivially
idempotent, and the crawler never constructs them. -/

def isAsciiAlpha (c : Char) : Bool :=
  (65 ≤ c.toNat && c.toNat ≤ 90) || (97 ≤ c.toNat && c.toNat ≤ 122)

def isAsciiDigit (c : Char) : Bool := 48 ≤ c.toNat && c.toNat ≤ 57

/-- `scheme_chars`: letters, digits and `+-.`. -/
def isSchemeChar (c : Char) : Bool :=
  isAsciiAlpha c || isAsciiDigit c || c.toNat == 43 || c.toNat == 45 ||
  c.toNat == 46

/-- `_UNSAFE_URL_BYTES_TO_REMOVE`: tab, CR and LF are deleted by `urlsplit`. -/
def removeUnsafe (s : Str) : Str :=
  s.filter (fun c => !(c.toNat == 9 || c.toNat == 13 || c.toNat == 10))

/-- `url.lstrip(_WHATWG_C0_CONTROL_OR_SPACE)` in `urlsplit`. -/
def lstripC0 (s : Str) : Str := s.dropWhile (fun c => c.toNat ≤ 0x20)

/-- `scheme.strip(_WHATWG_C0_CONTROL_OR_SPACE)` applied to the default
scheme argument of `urlsplit`. -/
def stripC0 (s : Str) : Str :=
  ((lstripC0 s).reverse.dropWhile (fun c => c.toNat ≤ 0x20)).reverse

/-- Split at the first occurrence of `c`; the delimiter is dropped. -/
def splitFirst : Str → Char → Option (Str × Str)
  | [], _ => none
  | x :: xs, c =>
    if x = c then some ([], xs)
    else
      match splitFirst xs c with
      | none => none
      | some (a, b) => some (x :: a, b)

/-- Split at the last occurrence of `c`; the delimiter is dropped. -/
def splitLastChar (s : Str) (c : Char) : Option (Str × Str) :=
  match splitFirst s.reverse c with
  | none => none
  | some (ra, rb) => some (rb.reverse, ra.reverse)

/-- `_splitnetloc`: longest prefix free of the delimiters, and the rest
(which keeps the delimiter). -/
def takeUntilAny : Str → List Char → Str × Str
  | [], _ => ([], [])
  | x :: xs, ds =>
    if ds.contains x then ([], x :: xs)
    else
      let (a, b) := takeUntilAny xs ds
      (x :: a, b)

/-- The scheme-detection step of `urlsplit`: the text before the first `:`
becomes the (lowercased) scheme when it starts with an ASCII letter and
consists of scheme characters; otherwise the default applies. -/
def schemeSplit (url : Str) (defaultScheme : Str) : Str × Str :=
  match splitFirst url (Char.ofNat 58) with
  | none => (defaultScheme, url)
  | some (pre, rest) =>
    if !pre.isEmpty && isAsciiAlpha (pre.headD (Char.ofNat 0)) &&
        pre.all isSchemeChar
    then (pyLower pre, rest)
    else (defaultScheme, url)

/-- The scheme test of `urlsplit` as a predicate on a URL string: whether
the text before the first `:` qualifies as a scheme. `schemeSplit`
detects a scheme exactly when this is true. -/
def schemeLikePre (o : Str) : Bool :=
  match splitFirst o (Char.ofNat 58) with
  | none => false
  | some (pre, _) =>
    !pre.isEmpty && isAsciiAlpha (pre.headD (Char.ofNat 0)) &&
      pre.all isSchemeChar

structure SplitRes where
  scheme : Str
  netloc : Str
  path : Str
  query : Str
  fragment : Str
deriving DecidableEq

/-- `urlsplit(url, scheme, allow_fragments=True)` (CPython 3.11). -/
def pyUrlsplit (url0 : Str) (defaultScheme : Str) : SplitRes :=
  let url1 := removeUnsafe (lstripC0 url0)
  let (scheme, rest) := schemeSplit url1 (removeUnsafe (stripC0 defaultScheme))
  let (netloc, rest2) :=
    if startsWithStr rest (strL "//") then
      takeUntilAny (rest.drop 2) [Char.ofNat 47, Char.ofNat 63, Char.ofNat 35]
    else ([], rest)
  let (rest3, fragment) :=
    match splitFirst rest2 (Char.ofNat 35) with
    | some (a, b) => (a, b)
    | none => (rest2, [])
  let (path, query) :=
    match splitFirst rest3 (Char.ofNat 63) with
    | some (a, b) => (a, b)
    | none => (rest3, [])
  ⟨scheme, netloc, path, query, fragment⟩

/-- `uses_params` from `urllib.parse` (CPython 3.11). -/
def uses_params : List Str :=
  [strL "", strL "ftp", strL "hdl", strL "prospero", strL "http",
   strL "imap", strL "https", strL "shttp", strL "rtsp", strL "rtsps",
   strL "rtspu", strL "sip", strL "sips", strL "mms", strL "sftp",
   strL "tel"]

/-- `uses_netloc` from `urllib.parse` (CPython 3.11). -/
def uses_netloc : List Str :=
  [strL "", strL "ftp", strL "http", strL "gopher", strL "nntp",
   strL "telnet", strL "imap", strL "wais", strL "file", strL "mms",
   strL "https", strL "shttp", strL "snews", strL "prospero", strL "rtsp",
   strL "rtsps", strL "rtspu", strL "rsync", strL "svn", strL "svn+ssh",
   strL "sftp", strL "nfs", strL "git", strL "git+ssh", strL "ws",
   strL "wss"]

/-- `uses_relative` from `urllib.parse` (CPython 3.11). -/
def uses_relative : List Str :=
  [strL "", strL "ftp", strL "http", strL "gopher", strL "nntp",
   strL "imap", strL "wais", strL "file", strL "https", strL "shttp",
   strL "mms", strL "prospero", strL "rtsp", strL "rtsps", strL "rtspu",
   strL "sftp", strL "svn", strL "svn+ssh", strL "ws", strL "wss"]

/-- `_splitparams`: split path parameters off the last path segment. -/
def splitparams (url : Str) : Str × Str :=
  match splitLastChar url (Char.ofNat 47) with
  | some (before, lastseg) =>
    match splitFirst lastseg (Char.ofNat 59) with
    | none => (url, [])
    | some (a, b) => (before ++ [Char.ofNat 47] ++ a, b)
  | none =>
    match splitFirst url (Char.ofNat 59) with
    | none => (url, [])
    | some (a, b) => (a, b)

structure ParseRes where
  scheme : Str
  netloc : Str
  path : Str
  params : Str
  query : Str
  fragment : Str
deriving DecidableEq

/-- `urlparse(url, scheme, allow_fragments=True)`. -/
def pyUrlparse (url : Str) (defaultScheme : Str) : ParseRes :=
  let s := pyUrlsplit url defaultScheme
  if uses_params.contains s.scheme ∧ s.path.contains (Char.ofNat 59) then
    let (p, par) := splitparams s.path
    ⟨s.scheme, s.netloc, p, par, s.query, s.fragment⟩
  else ⟨s.scheme, s.netloc, s.path, [], s.query, s.fragment⟩

/-- The path/params round trip of `urlparse` followed by `urlunparse`: the
params are split off the last segment (for a params-using scheme, when a
`;` is present) and joined back when non-empty.  `urlunparse ∘ urlparse`
factors through this function at the `urlsplit` level. -/
def paramsRejoin (scheme pa0 : Str) : Str :=
  if uses_params.contains scheme ∧ pa0.contains (Char.ofNat 59) then
    match splitparams pa0 with
    | (a, b) => if b ≠ [] then a ++ Char.ofNat 59 :: b else a
  else pa0

/-- `urlunsplit` (CPython 3.11): the `//` root is produced when a netloc is
present, or when the scheme is a netloc-using one and the path does not
already begin with `//`. -/
def pyUrlunsplit (scheme netloc path query fragment : Str) : Str :=
  let url :=
    if netloc ≠ [] ∨
        (scheme ≠ [] ∧ uses_netloc.contains scheme ∧
          ¬ startsWithStr path (strL "//")) then
      (strL "//") ++ netloc ++
        (if path ≠ [] ∧ ¬ startsWithStr path (strL "/") then
          Char.ofNat 47 :: path
        else path)
    else path
  let url := if scheme ≠ [] then scheme ++ [Char.ofNat 58] ++ url else url
  let url := if query ≠ [] then url ++ [Char.ofNat 63] ++ query else url
  if fragment ≠ [] then url ++ [Char.ofNat 35] ++ fragment else url

/-- `urlunparse` = re-attach params to the last segment, then `urlunsplit`;
`ParseResult.geturl` is exactly this. -/
def pyUrlunparse (p : ParseRes) : Str :=
  pyUrlunsplit p.scheme p.netloc
    (if p.params ≠ [] then p.path ++ [Char.ofNat 59] ++ p.params else p.path)
    p.query p.fragment

/-- The segment-resolution loop of `urljoin`: `..` pops (ignoring pops from
an empty stack), `.` is skipped, anything else is pushed. -/
def resolveSegs (segments : List Str) : List Str :=
  segments.foldl (fun acc seg =>
    if seg = strL ".." then acc.dropLast
    else if seg = strL "." then acc
    else acc ++ [seg]) []

/-- Python `s.split(c)` (note `"".split(c) == [""]`). -/
def splitAllChar : Str → Char → List Str
  | [], _ => [[]]
  | x :: xs, c =>
    if x = c then [] :: splitAllChar xs c
    else
      match splitAllChar xs c with
      | [] => [[x]]
      | a :: rest => (x :: a) :: rest

/-- `urljoin(base, url)` (CPython 3.11). -/
def urljoin (base url : Str) : Str :=
  if base = [] then url
  else if url = [] then base
  else
    let b := pyUrlparse base []
    let u := pyUrlparse url b.scheme
    if u.scheme ≠ b.scheme ∨ ¬ uses_relative.contains u.scheme then url
    else if uses_netloc.contains u.scheme ∧ u.netloc ≠ [] then
      pyUrlunparse ⟨u.scheme, u.netloc, u.path, u.params, u.query, u.fragment⟩
    else
      let netloc := if uses_netloc.contains u.scheme then b.netloc
        else u.netloc
      if u.path = [] ∧ u.params = [] then
        pyUrlunparse ⟨u.scheme, netloc, b.path, b.params,
          (if u.query = [] then b.query else u.query), u.fragment⟩
      else
        let baseParts0 := splitAllChar b.path (Char.ofNat 47)
        let baseParts := if baseParts0.getLast? = some ([] : Str) then
            baseParts0
          else baseParts0.dropLast
        let segments :=
          if startsWithStr u.path (strL "/") then
            splitAllChar u.path (Char.ofNat 47)
          else
            match baseParts ++ splitAllChar u.path (Char.ofNat 47) with
            | [] => []
            | first :: rest =>
              match rest.getLast? with
              | some last =>
                first :: (rest.dropLast.filter (fun s => s ≠ [])) ++ [last]
              | none => [first]
        let resolved0 := resolveSegs segments
        let resolved :=
          if segments.getLast? = some (strL "..") ∨
              segments.getLast? = some (strL ".") then
            resolved0 ++ [([] : Str)]
          else resolved0
        let joined := List.intercalate [Char.ofNat 47] resolved
        pyUrlunparse ⟨u.scheme, netloc,
          (if joined = [] then [Char.ofNat 47] else joined),
          u.params, u.query, u.fragment⟩

/-! ### Percent-encoding (`quote_plus`, `unquote`, UTF-8) -/

def isHexDigit (c : Char) : Bool :=
  isAsciiDigit c || (65 ≤ c.toNat && c.toNat ≤ 70) ||
  (97 ≤ c.toNat && c.toNat ≤ 102)

def hexVal (c : Char) : Nat :=
  if isAsciiDigit c then c.toNat - 48
  else if c.toNat ≤ 70 then c.toNat - 55
  else c.toNat - 87

/-- UTF-8 encoding of one scalar value. -/
def utf8EncodeChar (c : Char) : List Nat :=
  let n := c.toNat
  if n < 0x80 then [n]
  else if n < 0x800 then [0xC0 + n / 64, 0x80 + n % 64]
  else if n < 0x10000 then
    [0xE0 + n / 4096, 0x80 + (n / 64) % 64, 0x80 + n % 64]
  else
    [0xF0 + n / 262144, 0x80 + (n / 4096) % 64, 0x80 + (n / 64) % 64,
     0x80 + n % 64]

/-- UTF-8 encoding of a string as a byte list. -/
def utf8Encode (s : Str) : List Nat := (s.map utf8EncodeChar).flatten

/-- One step of strict UTF-8 decoding: the decoded character and the number
of input bytes consumed (≥ 1 on non-empty input).  Ill-formed input yields
U+FFFD for its maximal ill-formed subpart, as CPython's
`bytes.decode('utf-8', errors='replace')` does; surrogate and overlong
encodings are rejected. -/
def utf8DecodeStep : List Nat → Char × Nat
  | [] => (Char.ofNat 0xFFFD, 1)
  | b :: rest =>
    if b < 0x80 then (Char.ofNat b, 1)
    else if 0xC2 ≤ b ∧ b ≤ 0xDF then
      match rest with
      | c1 :: _ =>
        if 0x80 ≤ c1 ∧ c1 ≤ 0xBF then
          (Char.ofNat ((b - 0xC0) * 64 + (c1 - 0x80)), 2)
        else (Char.ofNat 0xFFFD, 1)
      | [] => (Char.ofNat 0xFFFD, 1)
    else if 0xE0 ≤ b ∧ b ≤ 0xEF then
      match rest with
      | c1 :: r2 =>
        if (0x80 ≤ c1 ∧ c1 ≤ 0xBF) ∧ (b = 0xE0 → 0xA0 ≤ c1) ∧
            (b = 0xED → c1 ≤ 0x9F) then
          match r2 with
          | c2 :: _ =>
            if 0x80 ≤ c2 ∧ c2 ≤ 0xBF then
              (Char.ofNat ((b - 0xE0) * 4096 + (c1 - 0x80) * 64 + (c2 - 0x80)),
               3)
            else (Char.ofNat 0xFFFD, 2)
          | [] => (Char.ofNat 0xFFFD, 2)
        else (Char.ofNat 0xFFFD, 1)
      | [] => (Char.ofNat 0xFFFD, 1)
    else if 0xF0 ≤ b ∧ b ≤ 0xF4 then
      match rest with
      | c1 :: r2 =>
        if (0x80 ≤ c1 ∧ c1 ≤ 0xBF) ∧ (b = 0xF0 → 0x90 ≤ c1) ∧
            (b = 0xF4 → c1 ≤ 0x8F) then
          match r2 with
          | c2 :: r3 =>
            if 0x80 ≤ c2 ∧ c2 ≤ 0xBF then
              match r3 with
              | c3 :: _ =>
                if 0x80 ≤ c3 ∧ c3 ≤ 0xBF then
                  (Char.ofNat ((b - 0xF0) * 262144 + (c1 - 0x80) * 4096 +
                    (c2 - 0x80) * 64 + (c3 - 0x80)), 4)
                else (Char.ofNat 0xFFFD, 3)
              | [] => (Char.ofNat 0xFFFD, 3)
            else (Char.ofNat 0xFFFD, 2)
          | [] => (Char.ofNat 0xFFFD, 2)
        else (Char.ofNat 0xFFFD, 1)
      | [] => (Char.ofNat 0xFFFD, 1)
    else (Char.ofNat 0xFFFD, 1)

/-- Fuel-driven UTF-8 decoding loop; each step consumes at least one byte,
so fuel equal to the byte count is enough. -/
def utf8DecodeGo (fuel : Nat) (l : List Nat) : Str :=
  match fuel, l with
  | 0, _ => []
  | _, [] => []
  | f + 1, b :: rest =>
    let s := utf8DecodeStep (b :: rest)
    s.1 :: utf8DecodeGo f ((b :: rest).drop s.2)

/-- `bytes.decode('utf-8', errors='replace')`. -/
def utf8DecodeReplace (l : List Nat) : Str := utf8DecodeGo l.length l

/-- Fuel-driven `unquote_to_bytes` on one ASCII chunk: `%XX` with two hex
digits becomes the byte `XX`, anything else stays as its own (ASCII) byte.
Each step consumes at least one character and at most one unit of fuel, so
any fuel at least the remaining length computes the whole chunk. -/
def pctDecodeGo (fuel : Nat) (s : Str) : List Nat :=
  match fuel, s with
  | 0, _ => []
  | _, [] => []
  | f + 1, c :: rest =>
    if c.toNat == 37 then
      match rest with
      | h1 :: h2 :: r3 =>
        if isHexDigit h1 && isHexDigit h2 then
          (hexVal h1 * 16 + hexVal h2) :: pctDecodeGo f r3
        else c.toNat :: pctDecodeGo f rest
      | _ => c.toNat :: pctDecodeGo f rest
    else c.toNat :: pctDecodeGo f rest

def pctDecodeBytes (s : Str) : List Nat := pctDecodeGo s.length s

/-- Maximal prefix of characters satisfying `p`, with the rest. -/
def takeRun (p : Char → Bool) : Str → Str × Str
  | [] => ([], [])
  | c :: rest =>
    if p c then
      let (a, b) := takeRun p rest
      (c :: a, b)
    else ([], c :: rest)

/-- `unquote(s, 'utf-8', 'replace')`: maximal ASCII chunks are
percent-decoded to bytes and UTF-8-decoded; non-ASCII chunks pass through
(CPython's `_asciire` split).  The `'%' not in s` fast path of CPython is
semantically the identity of this computation and is not special-cased. -/
def pyUnquoteGo (fuel : Nat) (s : Str) : Str :=
  match fuel with
  | 0 => []
  | fuel + 1 =>
    match s with
    | [] => []
    | c :: _ =>
      if c.toNat < 128 then
        let (a, r) := takeRun (fun x => x.toNat < 128) s
        utf8DecodeReplace (pctDecodeBytes a) ++ pyUnquoteGo fuel r
      else
        let (a, r) := takeRun (fun x => !(x.toNat < 128)) s
        a ++ pyUnquoteGo fuel r

def pyUnquote (s : Str) : Str := pyUnquoteGo s.length s

/-- `always_safe` of `quote` with `safe=''`: letters, digits and `_.-~`. -/
def isQuoteSafe (c : Char) : Bool :=
  isAsciiAlpha c || isAsciiDigit c || c.toNat == 95 || c.toNat == 46 ||
  c.toNat == 45 || c.toNat == 126

def hexDigitUpper (n : Nat) : Char :=
  if n < 10 then Char.ofNat (48 + n) else Char.ofNat (55 + n)

def pctEncodeByte (b : Nat) : Str :=
  [Char.ofNat 37, hexDigitUpper (b / 16), hexDigitUpper (b % 16)]

/-- `quote_plus(s, safe='')`: safe characters stay, a space becomes `+`,
anything else is percent-encoded from its UTF-8 bytes. -/
def quoteCharPlus (c : Char) : Str :=
  if isQuoteSafe c then [c]
  else if c.toNat == 32 then [Char.ofNat 43]
  else ((utf8EncodeChar c).map pctEncodeByte).flatten

def quote_plus (s : Str) : Str := (s.map quoteCharPlus).flatten

/-! ### `parse_qsl` / `urlencode` and `normalize_url` itself -/

/-- The `name.replace('+', ' ')` step of `parse_qsl`. -/
def replacePlus (s : Str) : Str :=
  s.map (fun c => if c.toNat == 43 then Char.ofNat 32 else c)

/-- Decoding of one field name or value in `parse_qsl`. -/
def qslDecode (s : Str) : Str := pyUnquote (replacePlus s)

/-- `parse_qsl(qs, keep_blank_values=True)` (separator `&`). -/
def parse_qsl (qs : Str) : List (Str × Str) :=
  let fields := if qs = [] then [] else splitAllChar qs (Char.ofNat 38)
  fields.foldr (fun nv acc =>
    if nv = [] then acc
    else
      match splitFirst nv (Char.ofNat 61) with
      | some (n, v) => (qslDecode n, qslDecode v) :: acc
      | none => (qslDecode nv, []) :: acc) []

/-- `urlencode(q, doseq=True)` on string pairs (for which `doseq` takes the
plain `quote_via` path). -/
def urlencode (q : List (Str × Str)) : Str :=
  List.intercalate [Char.ofNat 38]
    (q.map (fun kv => quote_plus kv.1 ++ [Char.ofNat 61] ++ quote_plus kv.2))

/-- The tracking-key predicate of `normalize_url` (lines 71-72):
`k.lower().startswith(("utm_", "ref", "source", "mkt_tok"))`. -/
def isTrackingKey (k : Str) : Bool :=
  startsWithStr (pyLower k) (strL "utm_") ||
  startsWithStr (pyLower k) (strL "ref") ||
  startsWithStr (pyLower k) (strL "source") ||
  startsWithStr (pyLower k) (strL "mkt_tok")

/-- The two successive query-pair filters of `normalize_url` (lines 71-73):
drop tracking-prefixed keys, then drop keys whose lowering is `sk`. -/
def keyFilter (q : List (Str × Str)) : List (Str × Str) :=
  (q.filter (fun kv => !isTrackingKey kv.1)).filter
    (fun kv => !(pyLower kv.1 = strL "sk"))

/-- `re.sub(r"\?+$", "", s)`: remove a maximal trailing run of `?`.
(The before-final-newline variant of `$` cannot trigger: `urlsplit` has
removed every newline.) -/
def stripTrailingQ (s : Str) : Str :=
  (s.reverse.dropWhile (fun c => c.toNat == 63)).reverse

/-- `normalize_url` (lines 67-79), on the non-raising path. -/
def normalize_url (u : Str) : Str :=
  let p := pyUrlparse u []
  let q := keyFilter (parse_qsl p.query)
  stripTrailingQ (pyUrlunparse
    ⟨p.scheme, p.netloc, p.path, p.params, urlencode q, p.fragment⟩)

/-- `norm_host` (lines 61-65). -/
def norm_host (host : Str) : Str :=
  if startsWithStr (pyLower host) (strL "www.") then (pyLower host).drop 4
  else pyLower host

/-! ## A small regex engine

The crawler's patterns use only literals, character classes, `\d`, `\s`,
greedy `* + ? {m,n}`, alternation, one capture group level, `.`, word
boundaries and the `^ $` anchors; this engine implements exactly Python
`re`'s backtracking preference order for those constructs (matches are
produced most-preferred first and `search` takes the leftmost start). -/

inductive RE where
  | eps
  | anyc
  | chr (c : Char)
  | cls (neg : Bool) (ranges : List (Char × Char))
  | dgt
  | wsp
  | wordB
  | seq (a b : RE)
  | alt (a b : RE)
  | rep (a : RE) (lo : Nat) (hi : Option Nat)
  | grp (n : Nat) (a : RE)
  | bol
  | eol

/-- Captures: (group index, start, end), innermost capture first. -/
abbrev Caps := List (Nat × Nat × Nat)

def isWordChar (c : Char) : Bool :=
  isAsciiAlpha c || isAsciiDigit c || c.toNat == 95

def inRanges (c : Char) : List (Char × Char) → Bool
  | [] => false
  | (lo, hi) :: rest => (lo ≤ c && c ≤ hi) || inRanges c rest

/-- All ways a pattern can match starting at position `i`, as end positions
with captures, in backtracking preference order. -/
def reRun : Nat → RE → Str → Nat → Caps → List (Nat × Caps)
  | 0, _, _, _, _ => []
  | f + 1, re, s, i, caps =>
    match re with
    | .eps => [(i, caps)]
    | .anyc =>
      match s[i]? with
      | some x => if x.toNat == 10 then [] else [(i + 1, caps)]
      | none => []
    | .chr c =>
      match s[i]? with
      | some x => if x = c then [(i + 1, caps)] else []
      | none => []
    | .cls neg ranges =>
      match s[i]? with
      | some x => if inRanges x ranges != neg then [(i + 1, caps)] else []
      | none => []
    | .dgt =>
      match s[i]? with
      | some x => if isAsciiDigit x then [(i + 1, caps)] else []
      | none => []
    | .wsp =>
      match s[i]? with
      | some x => if isPyWs x then [(i + 1, caps)] else []
      | none => []
    | .wordB =>
      let before := match i with
        | 0 => false
        | j + 1 => match s[j]? with | some x => isWordChar x | none => false
      let after := match s[i]? with | some x => isWordChar x | none => false
      if before != after then [(i, caps)] else []
    | .seq a b =>
      (reRun f a s i caps).flatMap (fun r => reRun f b s r.1 r.2)
    | .alt a b => reRun f a s i caps ++ reRun f b s i caps
    | .rep a lo hi =>
      if hi = some 0 then [(i, caps)]
      else
        let more := (reRun f a s i caps).flatMap (fun r =>
          if i < r.1 then
            reRun f (.rep a (lo - 1)
              (match hi with | some h => some (h - 1) | none => none)) s r.1 r.2
          else [])
        if lo = 0 then more ++ [(i, caps)] else more
    | .grp n a =>
      (reRun f a s i caps).map (fun r => (r.1, (n, i, r.1) :: r.2))
    | .bol => if i = 0 then [(i, caps)] else []
    | .eol => if i = s.length then [(i, caps)] else []

/-- Syntactic size, used to bound the fuel. -/
def reSize : RE → Nat
  | .seq a b => reSize a + reSize b + 1
  | .alt a b => reSize a + reSize b + 1
  | .rep a _ _ => reSize a + 1
  | .grp _ a => reSize a + 1
  | _ => 1

def reFuel (re : RE) (s : Str) : Nat := (reSize re + 2) * (s.length + 2)

/-- `pat.match(s)`: anchored at position 0, most-preferred result. -/
def reMatchAt0 (re : RE) (s : Str) : Option (Nat × Caps) :=
  (reRun (reFuel re s) re s 0 []).head?

/-- The search loop: try start positions `i, i+1, ...`. -/
def reSearchGo (re : RE) (s : Str) : Nat → Nat → Option (Nat × Nat × Caps)
  | _, 0 => none
  | i, gas + 1 =>
    match (reRun (reFuel re s) re s i []).head? with
    | some (e, caps) => some (i, e, caps)
    | none => reSearchGo re s (i + 1) gas

/-- `pat.search(s)`: leftmost start position, most-preferred result. -/
def reSearch (re : RE) (s : Str) : Option (Nat × Nat × Caps) :=
  reSearchGo re s 0 (s.length + 1)

/-- `bool(pat.search(s))`. -/
def reTest (re : RE) (s : Str) : Bool := (reSearch re s).isSome

/-- The text of capture group `n` from a search result over `s`. -/
def capStr (s : Str) (caps : Caps) (n : Nat) : Option Str :=
  match caps.find? (fun t => t.1 == n) with
  | some (_, st, en) => some ((s.drop st).take (en - st))
  | none => none

/-- Fold a literal string into a sequence of character nodes. -/
def reLit (w : Str) : RE :=
  w.foldr (fun c acc => RE.seq (RE.chr c) acc) RE.eps

def reLitS (w : String) : RE := reLit (strL w)

/-- `p?` (greedy). -/
def reOpt (a : RE) : RE := RE.rep a 0 (some 1)

/-- `p+` (greedy). -/
def rePlus (a : RE) : RE := RE.rep a 1 none

/-- `p*` (greedy). -/
def reStar (a : RE) : RE := RE.rep a 0 none

/-! ## Site rule table and link classification (lines 330-489) -/

structure SiteRule where
  inc : List RE
  exc : List RE
  hatenaSpecial : Bool

/-- `[^/]` -/
def nonSlash : RE := RE.cls true [(Char.ofNat 47, Char.ofNat 47)]

/-- `[^/?#]` -/
def nonSlashQH : RE :=
  RE.cls true [(Char.ofNat 47, Char.ofNat 47), (Char.ofNat 63, Char.ofNat 63),
    (Char.ofNat 35, Char.ofNat 35)]

/-- `[^?#]` -/
def nonQH : RE :=
  RE.cls true [(Char.ofNat 63, Char.ofNat 63), (Char.ofNat 35, Char.ofNat 35)]

/-- `[0-9a-fA-F]` -/
def hexCls : RE :=
  RE.cls false [(Char.ofNat 48, Char.ofNat 57), (Char.ofNat 97, Char.ofNat 102),
    (Char.ofNat 65, Char.ofNat 70)]

/-- `\d{n}` -/
def dgtN (n : Nat) : RE := RE.rep RE.dgt n (some n)

/-- Right-nested sequence of a list of patterns. -/
def reCat (l : List RE) : RE := l.foldr RE.seq RE.eps

/-- `^/[^/]+/articles/[^/]+/?$` (`ZENN_ARTICLE_RE`, also zenn's first
include pattern). -/
def ZENN_ARTICLE_RE : RE :=
  reCat [RE.bol, RE.chr (Char.ofNat 47), rePlus nonSlash,
    reLitS "/articles/", rePlus nonSlash, reOpt (RE.chr (Char.ofNat 47)),
    RE.eol]

/-- `^/articles/[^/]+/?$` (`ZENN_USERLESS_RE`). -/
def ZENN_USERLESS_RE : RE :=
  reCat [RE.bol, reLitS "/articles/", rePlus nonSlash,
    reOpt (RE.chr (Char.ofNat 47)), RE.eol]

/-- `^/\d{4}/\d{2}/[^/][^?#]*(?:\.html)?/?(?:\?.*)?$` (`KDN_ARTICLE_RE`,
also kdnuggets' include pattern). -/
def KDN_ARTICLE_RE : RE :=
  reCat [RE.bol, RE.chr (Char.ofNat 47), dgtN 4, RE.chr (Char.ofNat 47),
    dgtN 2, RE.chr (Char.ofNat 47), nonSlash, reStar nonQH,
    reOpt (reLitS ".html"), reOpt (RE.chr (Char.ofNat 47)),
    reOpt (RE.seq (RE.chr (Char.ofNat 63)) (reStar RE.anyc)), RE.eol]

/-- `^/tag/|^/tags?/` (the extra kdnuggets branch filter). -/
def KDN_TAG_RE : RE :=
  RE.alt (reCat [RE.bol, reLitS "/tag/"])
    (reCat [RE.bol, reLitS "/tag", reOpt (RE.chr (Char.ofNat 115)),
      RE.chr (Char.ofNat 47)])

/-- `/users?/` -/
def usersRE : RE :=
  reCat [reLitS "/user", reOpt (RE.chr (Char.ofNat 115)),
    RE.chr (Char.ofNat 47)]

/-- `^/users?/` -/
def usersAnchoredRE : RE := RE.seq RE.bol usersRE

/-- `/tags?/` -/
def tagsOptRE : RE :=
  reCat [reLitS "/tag", reOpt (RE.chr (Char.ofNat 115)),
    RE.chr (Char.ofNat 47)]

/-- `/authors?/` -/
def authorsOptRE : RE :=
  reCat [reLitS "/author", reOpt (RE.chr (Char.ofNat 115)),
    RE.chr (Char.ofNat 47)]

/-- `/post-\d+` -/
def POST_RE : RE := reCat [reLitS "/post-", rePlus RE.dgt]

/-- `/atcl/` -/
def ATCL_RE : RE := reLitS "/atcl/"

/-- `[0-9a-fA-F]{12}$` -/
def HEX12_END_RE : RE := RE.seq (RE.rep hexCls 12 (some 12)) RE.eol

/-- `COMMON_EXCLUDES` (line 356). -/
def COMMON_EXCLUDES : List RE :=
  [reLitS "/author/", usersRE, reLitS "/tag/", reLitS "/category/",
   reLitS "/topics/", reLitS "/people/"]

/-- `SITE_RULES` (lines 330-355). -/
def SITE_RULES : List (Str × SiteRule) :=
  [(strL "businessinsider.jp",
    ⟨[POST_RE], [reLitS "/author/", reLitS "/category/", reLitS "/tag/"],
     false⟩),
   (strL "business.nikkei.com",
    ⟨[ATCL_RE], [reLitS "/author/", reLitS "/category/", reLitS "/tag/"],
     false⟩),
   (strL "xtech.nikkei.com",
    ⟨[ATCL_RE], [reLitS "/author/", reLitS "/category/", reLitS "/tag/"],
     false⟩),
   (strL "itmedia.co.jp",
    ⟨[reLitS "/aiplus/articles/"],
     [reLitS "/author/", reLitS "/rsslist", reLitS "/category/",
      reLitS "/tag/"], false⟩),
   (strL "techno-edge.net",
    ⟨[reCat [RE.chr (Char.ofNat 47), dgtN 4, RE.chr (Char.ofNat 47), dgtN 2,
        RE.chr (Char.ofNat 47), dgtN 2, RE.chr (Char.ofNat 47)],
      reLitS "/article/"],
     [reLitS "/tag/", reLitS "/category/", reLitS "/author/"], false⟩),
   (strL "b.hatena.ne.jp", ⟨[], [], true⟩),
   (strL "zenn.dev",
    ⟨[ZENN_ARTICLE_RE, ZENN_USERLESS_RE],
     [usersAnchoredRE, RE.seq RE.bol (reLitS "/topics/"),
      RE.seq RE.bol (reLitS "/books/"), RE.seq RE.bol (reLitS "/scraps/"),
      RE.seq RE.bol tagsOptRE], false⟩),
   (strL "openai.com",
    ⟨[RE.seq RE.bol (reLitS "/news/")],
     [reLitS "/team/", reLitS "/researchers/", reLitS "/about/"], false⟩),
   (strL "news.microsoft.com",
    ⟨[RE.seq RE.bol (reLitS "/source/")],
     [reLitS "/people/", reLitS "/about/"], false⟩),
   (strL "microsoft.com",
    ⟨[RE.seq RE.bol (reLitS "/en-us/ai/blog/")], [], false⟩),
   (strL "huggingface.co", ⟨[reLitS "/blog/"], [authorsOptRE], false⟩),
   (strL "ai-scholar.tech",
    ⟨[reLitS "/ai_news/", reLitS "/ai_trends/", reLitS "/ai_book/",
      reLitS "/ai_scholar/", reLitS "/article/"],
     [reLitS "/category/", reLitS "/tag/", reLitS "/author/"], false⟩),
   (strL "competition-content.signate.jp",
    ⟨[reCat [RE.bol, reLitS "/articles/", rePlus nonSlash,
        reOpt (RE.chr (Char.ofNat 47)), RE.eol]],
     [usersRE, tagsOptRE], false⟩),
   (strL "kaggle.com",
    ⟨[reCat [RE.bol, reLitS "/blog/", rePlus nonSlashQH,
        reOpt (RE.chr (Char.ofNat 47)), RE.eol]], [], false⟩),
   (strL "kdnuggets.com",
    ⟨[KDN_ARTICLE_RE],
     [RE.seq RE.bol (reLitS "/tag/"), RE.seq RE.bol tagsOptRE], false⟩),
   (strL "towardsdatascience.com", ⟨[], [], false⟩),
   (strL "medium.com",
    ⟨[reCat [RE.bol, reLitS "/towards-data-science/", rePlus nonSlash,
        RE.chr (Char.ofNat 45), RE.rep hexCls 12 (some 12), RE.eol],
      reCat [RE.bol, reLitS "/p/", RE.rep hexCls 12 (some 12), RE.eol]],
     [RE.seq RE.bol (reLitS "/tag/"), reLitS "/about/"], false⟩),
   (strL "analyticsvidhya.com",
    ⟨[reCat [RE.bol, reLitS "/blog/", dgtN 4, RE.chr (Char.ofNat 47), dgtN 2,
        RE.chr (Char.ofNat 47), nonSlash, reStar RE.anyc]],
     [reLitS "/category/", reLitS "/tag/"], false⟩),
   (strL "codezine.jp",
    ⟨[reCat [RE.bol, reLitS "/article/detail/", rePlus RE.dgt,
        reLitS ".html", RE.eol]],
     [RE.seq RE.bol (reLitS "/category/"), RE.seq RE.bol (reLitS "/tag/")],
     false⟩),
   (strL "publickey1.jp",
    ⟨[reCat [RE.bol, reLitS "/blog/", dgtN 4, RE.chr (Char.ofNat 47), dgtN 2,
        RE.chr (Char.ofNat 47), nonSlash, reStar RE.anyc, reLitS ".html",
        RE.eol]], [], false⟩),
   (strL "anthropic.com",
    ⟨[RE.seq RE.bol (reLitS "/news/")],
     [reLitS "/careers", reLitS "/policy", reLitS "/research"], false⟩),
   (strL "blog.google",
    ⟨[RE.seq RE.bol (reLitS "/technology/")], [reLitS "/about/"], false⟩),
   (strL "deepmind.google", ⟨[RE.seq RE.bol (reLitS "/blog/")], [], false⟩),
   (strL "research.google", ⟨[RE.seq RE.bol (reLitS "/blog/")], [], false⟩)]

/-- `SITE_RULES.get(host, {})`. -/
def siteRuleFor (host : Str) : SiteRule :=
  match SITE_RULES.find? (fun p => p.1 == host) with
  | some p => p.2
  | none => ⟨[], [], false⟩

/-- `path.strip("/")`. -/
def stripSlashes (s : Str) : Str :=
  ((s.dropWhile (fun c => c.toNat == 47)).reverse.dropWhile
    (fun c => c.toNat == 47)).reverse

/-- `s.count("/")` (single-character needle, so occurrence count is the
character count). -/
def countSlash (s : Str) : Nat :=
  (s.filter (fun c => c.toNat == 47)).length

/-- `p.path or "/"`. -/
def pathOrRoot (p : ParseRes) : Str :=
  if p.path = [] then [Char.ofNat 47] else p.path

/-- `score_link_by_rules` (lines 387-413). -/
def score_link_by_rules (href : Str) (base_host_raw : Str) : Int :=
  let p := pyUrlparse href []
  if ¬ startsWithStr p.scheme (strL "http") then -999
  else
    let path := pathOrRoot p
    let rules := siteRuleFor (norm_host base_host_raw)
    (0 : Int)
      - 100 * ((COMMON_EXCLUDES.filter (fun re => reTest re path)).length : Int)
      + 20 * ((rules.inc.filter (fun re => reTest re path)).length : Int)
      - 100 * ((rules.exc.filter (fun re => reTest re path)).length : Int)
      + (if reTest HEX12_END_RE path then 3 else 0)
      + (min (countSlash (stripSlashes path)) 4 : Nat)

/-- One anchor of a card: its raw `href`, flattened text
(`a.get_text(" ", strip=True)`), class list and optional `rel` list. -/
structure Anchor where
  href : Str
  text : Str
  classes : List Str
  rel : Option (List Str)

/-- A card: the optional `a.entry-link[href]` anchor used by the hatena
branch, and `card.find_all("a", href=True)`. -/
structure Card where
  entryLink : Option Str
  anchors : List Anchor

/-- The keywords penalised in anchor text/class (line 472). -/
def BAD_KEYWORDS : List Str :=
  [strL "author", strL "プロフィール", strL "筆者", strL "投稿者",
   strL "users", strL "タグ", strL "category", strL "topics"]

/-- The headline-marker class keywords rewarded (line 475). -/
def GOOD_CLASS_KEYWORDS : List Str :=
  [strL "title", strL "headline", strL "entry-title", strL "news-title",
   strL "permalink"]

/-- The anchor score of the generic loop (lines 468-479): rule score, bad
keyword penalties on text/class, headline-class bonuses, `rel=permalink`
bonus. -/
def anchorScore (a : Anchor) (href : Str) (base_host_raw : Str) : Int :=
  score_link_by_rules href base_host_raw
    - 30 * ((BAD_KEYWORDS.filter
        (fun kw => containsSub (pyLower a.text) kw ||
          containsSub (pyLower (List.intercalate [Char.ofNat 32] a.classes))
            kw)).length : Int)
    + 10 * ((GOOD_CLASS_KEYWORDS.filter
        (fun g => containsSub
          (pyLower (List.intercalate [Char.ofNat 32] a.classes)) g)).length :
        Int)
    + (match a.rel with
      | some rels =>
        if rels.any (fun x => pyLower x == strL "permalink") then 10 else 0
      | none => 0)

/-- The best-anchor fold of the generic loop (lines 463-482): strictly
higher scores displace the running best; `mailto:`/`tel:`/`#` links are
skipped. -/
def genericBest (anchors : List Anchor) (base_url : Str)
    (base_host_raw : Str) : Option Str × Int :=
  anchors.foldl (fun (best : Option Str × Int) a =>
    let href := normalize_url (urljoin base_url a.href)
    if startsWithStr href (strL "mailto:") ∨ startsWithStr href (strL "tel:")
        ∨ startsWithStr href (strL "#") then best
    else if best.2 < anchorScore a href base_host_raw then
      (some href, anchorScore a href base_host_raw)
    else best)
    (none, -(10 ^ 9 : Int))

/-- The generic scoring path of `pick_article_anchor` (lines 462-489),
including the final common-exclude gate on the selected anchor. -/
def genericPick (anchors : List Anchor) (base_url : Str)
    (base_host_raw : Str) : Option Str :=
  match (genericBest anchors base_url base_host_raw).1 with
  | some h =>
    if COMMON_EXCLUDES.any (fun re => reTest re (pathOrRoot (pyUrlparse h [])))
    then none
    else some h
  | none => none

/-- The strict zenn.dev branch (lines 430-436): the first anchor whose path
matches one of the two slug grammars, else no candidate at all. -/
def zennPick (anchors : List Anchor) (base_url : Str) : Option Str :=
  anchors.findSome? (fun a =>
    if (reMatchAt0 ZENN_ARTICLE_RE (pathOrRoot
          (pyUrlparse (normalize_url (urljoin base_url a.href)) []))).isSome ∨
        (reMatchAt0 ZENN_USERLESS_RE (pathOrRoot
          (pyUrlparse (normalize_url (urljoin base_url a.href)) []))).isSome
    then some (normalize_url (urljoin base_url a.href))
    else none)

/-- The strict kdnuggets.com branch (lines 438-445). -/
def kdnPick (anchors : List Anchor) (base_url : Str) : Option Str :=
  anchors.findSome? (fun a =>
    if (reMatchAt0 KDN_ARTICLE_RE (pathOrRoot
          (pyUrlparse (normalize_url (urljoin base_url a.href)) []))).isSome ∧
        ¬ reTest KDN_TAG_RE (pathOrRoot
          (pyUrlparse (normalize_url (urljoin base_url a.href)) [])) = true
    then some (normalize_url (urljoin base_url a.href))
    else none)

/-- The nikkei `/atcl/` priority branch (lines 447-453); on no hit the
control falls through to generic scoring. -/
def nikkeiPick (anchors : List Anchor) (base_url : Str) : Option Str :=
  anchors.findSome? (fun a =>
    if reTest ATCL_RE (pathOrRoot
          (pyUrlparse (normalize_url (urljoin base_url a.href)) [])) = true ∧
        ¬ COMMON_EXCLUDES.any (fun re => reTest re (pathOrRoot
          (pyUrlparse (normalize_url (urljoin base_url a.href)) []))) = true
    then some (normalize_url (urljoin base_url a.href))
    else none)

/-- The businessinsider `/post-N` priority branch (lines 455-460); on no
hit the control falls through to generic scoring. -/
def biPick (anchors : List Anchor) (base_url : Str) : Option Str :=
  anchors.findSome? (fun a =>
    if reTest POST_RE
        (pyUrlparse (normalize_url (urljoin base_url a.href)) []).path = true
    then some (normalize_url (urljoin base_url a.href))
    else none)

/-- `pick_article_anchor` (lines 415-489), with the base host passed as the
raw netloc of the base URL. -/
def pick_article_anchor_h (card : Card) (base_url : Str)
    (base_host_raw : Str) : Option Str :=
  match (if (siteRuleFor (norm_host base_host_raw)).hatenaSpecial = true
    then card.entryLink else none) with
  | some h => some (normalize_url (urljoin base_url h))
  | none =>
    if card.anchors.isEmpty = true then none
    else if norm_host base_host_raw = strL "zenn.dev" then
      zennPick card.anchors base_url
    else if norm_host base_host_raw = strL "kdnuggets.com" then
      kdnPick card.anchors base_url
    else
      match (if norm_host base_host_raw = strL "business.nikkei.com" ∨
          norm_host base_host_raw = strL "xtech.nikkei.com" then
        nikkeiPick card.anchors base_url else none) with
      | some h => some h
      | none =>
        match (if norm_host base_host_raw = strL "businessinsider.jp" then
          biPick card.anchors base_url else none) with
        | some h => some h
        | none => genericPick card.anchors base_url base_host_raw

/-- `pick_article_anchor` (lines 415-489). -/
def pick_article_anchor (card : Card) (base_url : Str) : Option Str :=
  pick_article_anchor_h card base_url (pyUrlparse base_url []).netloc

/-! ## Temporal parser (lines 235-315)

`dateutil.parser.parse` — the general-purpose first stage — is an external
library and is passed in as an oracle `dtp : Str → Option Int` returning the
JST-normalized instant (`none` models a `ParserError`).  `datetime` values
are seconds since the epoch; `dt.datetime(y,mo,d,hh,mm,0,tzinfo=JST)`
becomes `mkJstDateTime`, with `none` modelling the `ValueError` that the
source catches with `except: pass`. -/

def digitsToNat (s : Str) : Nat :=
  s.foldl (fun acc c => acc * 10 + (c.toNat - 48)) 0

def isLeapYear (y : Int) : Bool :=
  (y % 4 == 0 && y % 100 != 0) || y % 400 == 0

def daysInMonth (y m : Int) : Int :=
  if m = 2 then (if isLeapYear y then 29 else 28)
  else if m = 4 ∨ m = 6 ∨ m = 9 ∨ m = 11 then 30
  else 31

/-- Days from 1970-01-01 of a proleptic-Gregorian civil date
(days-from-civil algorithm, truncating `Int` division as in C). -/
def daysFromCivil (y m d : Int) : Int :=
  let y1 := if m ≤ 2 then y - 1 else y
  let era := (if 0 ≤ y1 then y1 else y1 - 399) / 400
  let yoe := y1 - era * 400
  let mp := (m + 9) % 12
  let doy := (153 * mp + 2) / 5 + d - 1
  let doe := yoe * 365 + yoe / 4 - yoe / 100 + doy
  era * 146097 + doe - 719468

/-- `dt.datetime(y, mo, d, hh, mm, 0, tzinfo=JST)` as epoch seconds;
`none` when the constructor would raise `ValueError`. -/
def mkJstDateTime (y mo d hh mm : Int) : Option Int :=
  if 1 ≤ y ∧ y ≤ 9999 ∧ 1 ≤ mo ∧ mo ≤ 12 ∧ 1 ≤ d ∧ d ≤ daysInMonth y mo ∧
      0 ≤ hh ∧ hh < 24 ∧ 0 ≤ mm ∧ mm < 60 then
    some (daysFromCivil y mo d * 86400 + hh * 3600 + mm * 60 - 9 * 3600)
  else none

/-- A letter of a case-insensitive literal (the `re.I` patterns). -/
def chrCI (c : Char) : RE :=
  if isAsciiAlpha c then
    RE.cls false [(pyLowerChar c, pyLowerChar c),
      (Char.ofNat ((pyLowerChar c).toNat - 32),
       Char.ofNat ((pyLowerChar c).toNat - 32))]
  else RE.chr c

def reLitCI (w : String) : RE :=
  (strL w).foldr (fun c acc => RE.seq (chrCI c) acc) RE.eps

inductive RelUnit where
  | minutes
  | hours
  | days
  | yesterday
deriving DecidableEq

/-- `(\d+)\s*<suffix>` -/
def relNum (suffix : RE) : RE :=
  reCat [RE.grp 1 (rePlus RE.dgt), reStar RE.wsp, suffix]

/-- The `REL` pattern list (lines 235-243), in source order. -/
def REL_LIST : List (RE × RelUnit) :=
  [(relNum (reLitS "分前"), .minutes),
   (relNum (reLitS "時間前"), .hours),
   (relNum (reLitS "日前"), .days),
   (relNum (reCat [reLitCI "min", reOpt (chrCI (Char.ofNat 115)),
      reStar RE.wsp, reLitCI "ago"]), .minutes),
   (relNum (reCat [reLitCI "minute", reOpt (chrCI (Char.ofNat 115)),
      reStar RE.wsp, reLitCI "ago"]), .minutes),
   (relNum (reCat [reLitCI "hour", reOpt (chrCI (Char.ofNat 115)),
      reStar RE.wsp, reLitCI "ago"]), .hours),
   (reLitCI "yesterday", .yesterday)]

/-- The separator class of the numeric date patterns: dash, slash or dot. -/
def dateSep : RE :=
  RE.cls false [(Char.ofNat 45, Char.ofNat 45), (Char.ofNat 47, Char.ofNat 47),
    (Char.ofNat 46, Char.ofNat 46)]

/-- `\d{1,2}` -/
def dgt12 : RE := RE.rep RE.dgt 1 (some 2)

/-- `ABS[0]`: four-digit year, separator, 1-2 digit month, separator, 1-2 digit day. -/
def ABS0_RE : RE :=
  reCat [RE.grp 1 (dgtN 4), dateSep, RE.grp 2 dgt12, dateSep, RE.grp 3 dgt12]

/-- `(\d{4})年(\d{1,2})月(\d{1,2})日` -/
def ABS1_RE : RE :=
  reCat [RE.grp 1 (dgtN 4), reLitS "年", RE.grp 2 dgt12, reLitS "月",
    RE.grp 3 dgt12, reLitS "日"]

/-- `\b(\d{1,2})/(\d{1,2})\b` -/
def ABS2_RE : RE :=
  reCat [RE.wordB, RE.grp 1 dgt12, RE.chr (Char.ofNat 47), RE.grp 2 dgt12,
    RE.wordB]

/-- `[A-Za-z]` -/
def alphaCls : RE :=
  RE.cls false [(Char.ofNat 65, Char.ofNat 90), (Char.ofNat 97, Char.ofNat 122)]

/-- `\b([A-Za-z]{3,9})\s+(\d{1,2}),?\s+(\d{4})` -/
def ABS3_RE : RE :=
  reCat [RE.wordB, RE.grp 1 (RE.rep alphaCls 3 (some 9)), rePlus RE.wsp,
    RE.grp 2 dgt12, reOpt (RE.chr (Char.ofNat 44)), rePlus RE.wsp,
    RE.grp 3 (dgtN 4)]

/-- `\b(\d{1,2})\s+([A-Za-z]{3,9})\s+(\d{4})` -/
def ABS4_RE : RE :=
  reCat [RE.wordB, RE.grp 1 dgt12, rePlus RE.wsp,
    RE.grp 2 (RE.rep alphaCls 3 (some 9)), rePlus RE.wsp, RE.grp 3 (dgtN 4)]

/-- `(\d{4}-\d{2}-\d{2})[ T](\d{2}:\d{2})(:\d{2})?(Z|[+\-]\d{2}:\d{2})?` -/
def ISO_RE : RE :=
  reCat [RE.grp 1 (reCat [dgtN 4, RE.chr (Char.ofNat 45), dgtN 2,
      RE.chr (Char.ofNat 45), dgtN 2]),
    RE.cls false [(Char.ofNat 32, Char.ofNat 32), (Char.ofNat 84, Char.ofNat 84)],
    RE.grp 2 (reCat [dgtN 2, RE.chr (Char.ofNat 58), dgtN 2]),
    reOpt (RE.grp 3 (RE.seq (RE.chr (Char.ofNat 58)) (dgtN 2))),
    reOpt (RE.grp 4 (RE.alt (RE.chr (Char.ofNat 90))
      (reCat [RE.cls false [(Char.ofNat 43, Char.ofNat 43),
          (Char.ofNat 45, Char.ofNat 45)], dgtN 2, RE.chr (Char.ofNat 58),
        dgtN 2])))]

/-- `MONTHS` (lines 251-252): full month names, lowercased. -/
def MONTHS : List (Str × Int) :=
  [(strL "january", 1), (strL "february", 2), (strL "march", 3),
   (strL "april", 4), (strL "may", 5), (strL "june", 6), (strL "july", 7),
   (strL "august", 8), (strL "september", 9), (strL "october", 10),
   (strL "november", 11), (strL "december", 12)]

/-- `MONTHS.get(name.lower(), 0)`. -/
def monthLookup (name : Str) : Int :=
  match MONTHS.find? (fun p => p.1 == pyLower name) with
  | some p => p.2
  | none => 0

/-- `int(m.group(n))` for a digit-only group. -/
def groupInt (s : Str) (caps : Caps) (n : Nat) : Int :=
  Int.ofNat (digitsToNat ((capStr s caps n).getD []))

/-- The hand-rolled stages of `parse_datetime_text` after the `dateutil`
attempt (lines 268-315), on the already-stripped text. -/
def parseStages (nowYear : Int) (s : Str) (base : Int) : Option Int :=
  match REL_LIST.findSome? (fun pr =>
    match reSearch pr.1 s with
    | some (_, _, caps) => some (pr.2, caps)
    | none => none) with
  | some (unit, caps) =>
    match unit with
    | .yesterday => some (base - 86400)
    | .minutes => some (base - groupInt s caps 1 * 60)
    | .hours => some (base - groupInt s caps 1 * 3600)
    | .days => some (base - groupInt s caps 1 * 86400)
  | none =>
    let d0 := match reSearch ABS0_RE s with
      | some (_, _, caps) =>
        mkJstDateTime (groupInt s caps 1) (groupInt s caps 2)
          (groupInt s caps 3) 0 0
      | none => none
    match d0 with
    | some v => some v
    | none =>
      let d1 := match reSearch ABS1_RE s with
        | some (_, _, caps) =>
          mkJstDateTime (groupInt s caps 1) (groupInt s caps 2)
            (groupInt s caps 3) 0 0
        | none => none
      match d1 with
      | some v => some v
      | none =>
        let d2 := match reSearch ABS2_RE s with
          | some (_, _, caps) =>
            mkJstDateTime nowYear (groupInt s caps 1) (groupInt s caps 2) 0 0
          | none => none
        match d2 with
        | some v => some v
        | none =>
          let d3 := match reSearch ABS3_RE s with
            | some (_, _, caps) =>
              let mon := monthLookup ((capStr s caps 1).getD [])
              if mon ≠ 0 then
                mkJstDateTime (groupInt s caps 3) mon (groupInt s caps 2) 0 0
              else none
            | none => none
          match d3 with
          | some v => some v
          | none =>
            let d4 := match reSearch ABS4_RE s with
              | some (_, _, caps) =>
                let mon := monthLookup ((capStr s caps 2).getD [])
                if mon ≠ 0 then
                  mkJstDateTime (groupInt s caps 3) mon (groupInt s caps 1)
                    0 0
                else none
              | none => none
            match d4 with
            | some v => some v
            | none =>
              match reSearch ISO_RE s with
              | some (_, _, caps) =>
                let g1 := (capStr s caps 1).getD []
                let g2 := (capStr s caps 2).getD []
                match splitAllChar g1 (Char.ofNat 45),
                  splitAllChar g2 (Char.ofNat 58) with
                | [ys, ms, ds], [hs, mins] =>
                  mkJstDateTime (Int.ofNat (digitsToNat ys))
                    (Int.ofNat (digitsToNat ms)) (Int.ofNat (digitsToNat ds))
                    (Int.ofNat (digitsToNat hs))
                    (Int.ofNat (digitsToNat mins))
                | _, _ => none
              | none => none

/-- `parse_datetime_text` (lines 254-315): strip, try `dateutil` (the `dtp`
oracle), then the hand-rolled pattern stages. -/
def parse_datetime_text (dtp : Str → Option Int) (nowYear : Int) (s0 : Str)
    (base : Int) : Option Int :=
  let s := pyStrip s0
  if s = [] then none
  else
    match dtp s with
    | some d => some d
    | none => parseStages nowYear s base

/-! ## Feed harvesting (lines 700-723) and the result assembler
(lines 979-1026)

Feed parsing itself (`parse_feed_items`) is network- and XML-bound; its
output item list is the input here, as the source's `collect_from_feed`
consumes it.  The external summarizer and the Content Extractor are oracle
parameters of the assembler slice. -/

structure FeedItem where
  title : Str
  link : Str
  published_raw : Str

/-- A harvested candidate row as built by `collect_from_feed`; `list_time_guess`
keeps the parsed datetime (`none` models the empty string stored when
parsing failed, and `isoformat` is injective on these values). -/
structure Cand where
  source_list : Str
  title : Str
  link : Str
  list_time_guess : Option Int
  list_time_raw : Str

/-- The loop body of `collect_from_feed` (lines 706-720):
`title = (it.get("title") or "").strip()`, `link = normalize_url(...)`,
and `continue` when the title is empty or the link is not http. -/
def feedStep (dtp : Str → Option Int) (nowYear now : Int) (feedUrl : Str)
    (it : FeedItem) : Option Cand :=
  if pyStrip it.title = [] ∨
      ¬ startsWithStr (normalize_url it.link) (strL "http") = true then none
  else
    some ⟨feedUrl, pyStrip it.title, normalize_url it.link,
      parse_datetime_text dtp nowYear it.published_raw now,
      it.published_raw⟩

/-- `collect_from_feed` (lines 700-723) on the parsed item list. -/
def collect_from_feed (dtp : Str → Option Int) (nowYear : Int) (now : Int)
    (feedUrl : Str) (items : List FeedItem) : List Cand :=
  items.filterMap (feedStep dtp nowYear now feedUrl)

/-- The `extract_article` output fields the assembler reads. -/
structure ArtOut where
  text : Str
  published_dt : Option Int
  published_raw : Str
  title_override : Str
  canonical_url : Str

/-- A final row as assembled by the main loop; `published_at` keeps the
datetime (`none` models the empty string). -/
structure ArticleRecord where
  title : Str
  url : Str
  published_at : Option Int
  published_raw : Str
  source_list : Str
  body_chars : Nat
  excerpt : Str
  summary : Str

/-- `CROSS_HOST_ALLOW` (lines 362-364). -/
def CROSS_HOST_ALLOW : List (Str × List Str) :=
  [(strL "towardsdatascience.com",
    [strL "towardsdatascience.com", strL "medium.com"])]

/-- `uh in CROSS_HOST_ALLOW`. -/
def crossHostMember (h : Str) : Bool :=
  CROSS_HOST_ALLOW.any (fun p => p.1 == h)

/-- `CROSS_HOST_ALLOW.get(uh, set())`. -/
def crossHostSet (h : Str) : List Str :=
  match CROSS_HOST_ALLOW.find? (fun p => p.1 == h) with
  | some p => p.2
  | none => []

/-- The canonical-URL adoption step of the main loop (lines 1001-1007):
the extractor's canonical URL replaces the candidate URL only when present
and same-host (after `norm_host`) or an explicit cross-host allow pair. -/
def adopt_canonical (url canonical_url : Str) : Str :=
  if canonical_url ≠ [] then
    if norm_host (pyUrlparse url []).netloc =
        norm_host (pyUrlparse canonical_url []).netloc ∨
      (crossHostMember (norm_host (pyUrlparse url []).netloc) = true ∧
        (crossHostSet (norm_host (pyUrlparse url []).netloc)).contains
          (norm_host (pyUrlparse canonical_url []).netloc) = true) then
      canonical_url
    else url
  else url

/-- `pub_dt = art["published_dt"]; if not pub_dt and it.get("list_time_guess"):
pub_dt = fromisoformat(...)` (lines 989-994): article-level timestamp if
present, else the list-level guess. -/
def effective_pub (it : Cand) (art : ArtOut) : Option Int :=
  match art.published_dt with
  | some d => some d
  | none => it.list_time_guess

/-- The record built by lines 1009-1022 for an accepted candidate. -/
def build_record (summarize : Str → Str → Str → Str) (it : Cand)
    (art : ArtOut) (pub_dt : Option Int) : ArticleRecord :=
  { title := pyStrip
      (if art.title_override ≠ [] then art.title_override else it.title)
    url := adopt_canonical it.link art.canonical_url
    published_at := pub_dt
    published_raw :=
      if art.published_raw ≠ [] then art.published_raw else it.list_time_raw
    source_list := it.source_list
    body_chars := art.text.length
    excerpt := (art.text.take 240).map
      (fun c => if c.toNat == 10 then Char.ofNat 32 else c)
    summary := summarize
      (pyStrip (if art.title_override ≠ [] then art.title_override
        else it.title))
      (adopt_canonical it.link art.canonical_url) art.text }

/-- One iteration of the main result loop (lines 980-1023): `none` is a
`continue` (non-http link, or lookback rejection). -/
def process_candidate (threshold : Int)
    (summarize : Str → Str → Str → Str) (extract : Str → ArtOut)
    (it : Cand) : Option ArticleRecord :=
  if ¬ startsWithStr it.link (strL "http") = true then none
  else if ¬ within_lookback threshold (effective_pub it (extract it.link))
      = true then none
  else
    some (build_record summarize it (extract it.link)
      (effective_pub it (extract it.link)))

/-- The whole result loop: records are appended exactly for the candidates
the loop does not skip. -/
def assemble_results (threshold : Int)
    (summarize : Str → Str → Str → Str) (extract : Str → ArtOut)
    (cands : List Cand) : List ArticleRecord :=
  cands.filterMap (process_candidate threshold summarize extract)

/-! ## Helper lemmas -/

theorem dropWhile_idem (p : Char → Bool) (l : Str) :
    (l.dropWhile p).dropWhile p = l.dropWhile p := by
  induction l with
  | nil => rfl
  | cons c cs ih =>
    by_cases h : p c <;> simp [List.dropWhile_cons, h, ih]

theorem dropWhile_head_not (p : Char → Bool) (l : Str) :
    l.dropWhile p = [] ∨ ∃ h t, l.dropWhile p = h :: t ∧ p h = false := by
  induction l with
  | nil => exact Or.inl rfl
  | cons c cs ih =>
    by_cases h : p c
    · simpa [List.dropWhile_cons, h] using ih
    · exact Or.inr ⟨c, cs, by simp [List.dropWhile_cons, h], by simpa using h⟩

theorem pyStrip_idem (s : Str) : pyStrip (pyStrip s) = pyStrip s := by
  unfold pyStrip
  set a := s.dropWhile isPyWs with ha
  set b := (a.reverse.dropWhile isPyWs).reverse with hb
  have hb2 : b.reverse.dropWhile isPyWs = b.reverse := by
    rw [hb, List.reverse_reverse, dropWhile_idem]
  have hbd : b.dropWhile isPyWs = b := by
    rcases dropWhile_head_not isPyWs a.reverse with h | ⟨hd, tl, hdt, hp⟩
    · rw [hb, h]; rfl
    · -- b = (hd :: tl).reverse ends with hd and starts with the first
      -- character of a, which fails isPyWs unless b is a prefix of a
      -- consisting only of kept characters; argue via prefix of a.
      have hsuff : a.reverse.dropWhile isPyWs <:+ a.reverse :=
        List.dropWhile_suffix _
      have hpre : b <+: a := by
        have h := List.reverse_prefix.mpr hsuff
        rw [List.reverse_reverse] at h
        rw [hb]
        exact h
      rcases hpre with ⟨t, hbt⟩
      cases hab : b with
      | nil => rfl
      | cons x xs =>
        have hax : a = x :: (xs ++ t) := by rw [← hbt, hab]; simp
        have : a.dropWhile isPyWs = a := by rw [ha, dropWhile_idem]
        rw [hax] at this
        by_cases hx : isPyWs x
        · exfalso
          rw [List.dropWhile_cons, if_pos hx] at this
          have hlen := congrArg List.length this
          simp only [List.length_cons] at hlen
          have hle := (List.dropWhile_suffix (l := xs ++ t) isPyWs).length_le
          omega
        · simp [List.dropWhile_cons, hx]
  rw [hbd, hb2, hb, List.reverse_reverse]

theorem normalize_title_pyStrip (t : Str) :
    normalize_title (pyStrip t) = normalize_title t := by
  unfold normalize_title
  rw [pyStrip_idem]

theorem pick_newer_eq_or (a b : DRow) :
    pick_newer_by_time a b = a ∨ pick_newer_by_time a b = b := by
  unfold pick_newer_by_time
  split
  · split
    · exact Or.inr rfl
    · exact Or.inl rfl
  · split
    · exact Or.inl rfl
    · split
      · exact Or.inr rfl
      · exact Or.inl rfl

theorem mem_updateBest (P : DRow → Prop) (best : List (Str × DRow))
    (k : Str) (r : DRow) (hbest : ∀ q ∈ best, P q.2) (hr : P r)
    (hpick : ∀ a b, P a → P b → P (pick_newer_by_time a b)) :
    ∀ p ∈ updateBest best k r, P p.2 := by
  induction best with
  | nil =>
    intro p hp
    simp [updateBest] at hp
    rw [hp]
    exact hr
  | cons hd tl ih =>
    intro p hp
    unfold updateBest at hp
    by_cases hk : hd.1 = k
    · simp only [if_pos hk] at hp
      rcases List.mem_cons.mp hp with h | h
      · rw [h]
        exact hpick _ _ (hbest hd (List.mem_cons_self _ _)) hr
      · exact hbest p (List.mem_cons_of_mem _ h)
    · simp only [if_neg hk] at hp
      rcases List.mem_cons.mp hp with h | h
      · rw [h]; exact hbest hd (List.mem_cons_self _ _)
      · exact ih (fun q hq => hbest q (List.mem_cons_of_mem _ hq)) p h

theorem dedupe_fold_inv (P : DRow → Prop)
    (hpick : ∀ a b, P a → P b → P (pick_newer_by_time a b))
    (hP : ∀ r : DRow, pyStrip r.title ≠ [] → P r) :
    ∀ (rows : List DRow) (best : List (Str × DRow)),
      (∀ q ∈ best, P q.2) → ∀ p ∈ rows.foldl dedupeStep best, P p.2 := by
  intro rows
  induction rows with
  | nil => intro best hbest p hp; exact hbest p hp
  | cons r rs ih =>
    intro best hbest p hp
    simp only [List.foldl_cons] at hp
    refine ih (dedupeStep best r) ?_ p hp
    unfold dedupeStep
    by_cases h : pyStrip r.title = []
    · rw [if_pos h]; exact hbest
    · rw [if_neg h]
      exact mem_updateBest P best _ r hbest (hP r h) hpick

/-! ## Claim theorems -/

/-- Claim C6: the lookback predicate `within_lookback(ts)` is true exactly
when `ts` is present and `ts ≥ referenceNow - lookbackHours`; at the boundary
it is false one minute below the threshold and true one minute above, and it
is always false for a missing (`None`) timestamp. -/
theorem C6_within_lookback_boundary (now lh : Int) :
    (∀ d : Option Int, within_lookback (THRESHOLD now lh) d = true ↔
      ∃ t, d = some t ∧ now - lh * 3600 ≤ t) ∧
    within_lookback (THRESHOLD now lh) (some (now - lh * 3600 - 60)) = false ∧
    within_lookback (THRESHOLD now lh) (some (now - lh * 3600 + 60)) = true ∧
    within_lookback (THRESHOLD now lh) none = false := by
  refine ⟨fun d => ?_, ?_, ?_, rfl⟩
  · cases d with
    | none => simp [within_lookback]
    | some t =>
      simp only [within_lookback, THRESHOLD, decide_eq_true_eq, Option.some.injEq]
      constructor
      · intro h; exact ⟨t, rfl, h⟩
      · rintro ⟨t', rfl, h⟩; exact h
  · simp only [within_lookback, THRESHOLD, decide_eq_false_iff_not]
    omega
  · simp only [within_lookback, THRESHOLD, decide_eq_true_eq]
    omega

theorem stage3Text_mono (inp : ExtractIn) (prev : Str) :
    prev.length ≤ (stage3Text inp prev).length := by
  unfold stage3Text
  split
  · split <;> omega
  · exact le_refl _

theorem stage4Text_mono (inp : ExtractIn) (prev : Str) :
    prev.length ≤ (stage4Text inp prev).length := by
  unfold stage4Text
  split
  · split
    · split <;> omega
    · exact le_refl _
  · exact le_refl _

theorem stage2Text_from_stage1 (inp : ExtractIn) :
    (stage1Text inp).length ≤ (stage2Text inp (stage1Text inp)).length := by
  unfold stage2Text
  by_cases hf : inp.fetched
  · simp [hf]
  · have h1 : stage1Text inp = [] := by unfold stage1Text; simp [hf]
    rw [h1]
    simp

/-- Claim C2: for a fixed input document, the running best text length is
monotonically non-decreasing across the four fallback stages of
`extract_article`, and the final text is at least as long as the running
best after any single stage. -/
theorem C2_extract_text_monotone (inp : ExtractIn) :
    List.Chain' (fun a b : Str => a.length ≤ b.length)
      (extract_text_stages inp) ∧
    ∀ t ∈ extract_text_stages inp,
      t.length ≤ (extract_article_text inp).length := by
  have h01 : ([] : Str).length ≤ (stage1Text inp).length := by simp
  have h12 := stage2Text_from_stage1 inp
  have h23 := stage3Text_mono inp (stage2Text inp (stage1Text inp))
  have h34 := stage4Text_mono inp
    (stage3Text inp (stage2Text inp (stage1Text inp)))
  constructor
  · simp only [extract_text_stages, List.chain'_cons, List.chain'_singleton,
      and_true]
    exact ⟨h01, h12, h23, h34⟩
  · intro t ht
    simp only [extract_text_stages, List.mem_cons, List.not_mem_nil,
      or_false] at ht
    rcases ht with h | h | h | h | h <;> rw [h] <;>
      simp only [extract_article_text] <;> omega

/-- Witness for C2 at a concrete input: the fetch failed and the
`fetch_url`-based stage produced the text "hello world". -/
theorem C2_extract_text_monotone_witness :
    (strL "hello world") ∈
      extract_text_stages ⟨false, none, some (strL "hello world"), [], []⟩ ∧
    (strL "hello world").length ≤
      (extract_article_text
        ⟨false, none, some (strL "hello world"), [], []⟩).length :=
  ⟨by decide,
   (C2_extract_text_monotone ⟨false, none, some (strL "hello world"), [], []⟩).2
     (strL "hello world") (by decide)⟩

/-- Claim C10: `dedupe_by_title_keep_latest` silently drops every row whose
raw title is empty or whitespace-only: no such row appears in its output,
even when it is the only row of the input. -/
theorem C10_dedupe_drops_titleless :
    (∀ rows : List DRow, ∀ r ∈ dedupe_by_title_keep_latest rows,
      pyStrip r.title ≠ []) ∧
    (∀ r : DRow, pyStrip r.title = [] →
      dedupe_by_title_keep_latest [r] = []) := by
  constructor
  · intro rows r hr
    unfold dedupe_by_title_keep_latest at hr
    rcases List.mem_map.mp hr with ⟨p, hp, hpr⟩
    rw [← hpr]
    refine dedupe_fold_inv (fun q => pyStrip q.title ≠ []) ?_
      (fun q hq => hq) rows [] (by simp) p hp
    intro a b ha hb
    rcases pick_newer_eq_or a b with h | h <;> rw [h] <;> assumption
  · intro r h
    simp [dedupe_by_title_keep_latest, dedupeStep, h]

/-- Witness for C10: a whitespace-only-titled row is dropped even as the
sole input row. -/
theorem C10_dedupe_drops_titleless_witness :
    dedupe_by_title_keep_latest [⟨strL "   ", strL "2025-01-01"⟩] = [] :=
  C10_dedupe_drops_titleless.2 ⟨strL "   ", strL "2025-01-01"⟩ (by decide)

/-- Claim C3: on a pair of rows with identical normalized titles (both
non-empty raw titles), `dedupe_by_title_keep_latest` keeps exactly one row:
the one whose time field is present and later (Python string order on the
ISO strings); if only one has a present time, that one; if neither has a
value, the first-seen row.  In particular two candidates with times
`T1 < T2` collapse to the single candidate carrying `T2`. -/
theorem C3_dedupe_pair (a b : DRow)
    (ha : pyStrip a.title ≠ []) (hb : pyStrip b.title ≠ [])
    (hk : normalize_title a.title = normalize_title b.title) :
    dedupe_by_title_keep_latest [a, b] = [pick_newer_by_time a b] ∧
    (a.time ≠ [] → b.time ≠ [] → strLt a.time b.time = true →
      dedupe_by_title_keep_latest [a, b] = [b]) ∧
    (a.time ≠ [] → b.time = [] → dedupe_by_title_keep_latest [a, b] = [a]) ∧
    (a.time = [] → b.time ≠ [] → dedupe_by_title_keep_latest [a, b] = [b]) ∧
    (a.time = [] → b.time = [] → dedupe_by_title_keep_latest [a, b] = [a]) := by
  have hk' : normalize_title (pyStrip a.title) =
      normalize_title (pyStrip b.title) := by
    rw [normalize_title_pyStrip, normalize_title_pyStrip]; exact hk
  have hmain : dedupe_by_title_keep_latest [a, b] = [pick_newer_by_time a b] := by
    simp [dedupe_by_title_keep_latest, dedupeStep, updateBest, ha, hb, hk']
  refine ⟨hmain, ?_, ?_, ?_, ?_⟩
  · intro hta htb hlt
    rw [hmain]
    unfold pick_newer_by_time
    simp [hta, htb, hlt]
  · intro hta htb
    rw [hmain]
    unfold pick_newer_by_time
    simp [hta, htb]
  · intro hta htb
    rw [hmain]
    unfold pick_newer_by_time
    simp [hta, htb]
  · intro hta htb
    rw [hmain]
    unfold pick_newer_by_time
    simp [hta, htb]

/-- Claim C7: the Temporal Parser computes relative expressions as the
reference time minus the stated delta: `parse_datetime_text("3時間前", now)`
equals `now - 3 hours` and `parse_datetime_text("2 hours ago", now)` equals
`now - 2 hours`, provided the general-purpose dateutil stage (attempted
first, here the oracle `dtp`) does not intercept these inputs — which the
library's grammar does not. -/
theorem C7_relative_time (dtp : Str → Option Int) (nowYear base : Int)
    (h1 : dtp (strL "3時間前") = none)
    (h2 : dtp (strL "2 hours ago") = none) :
    parse_datetime_text dtp nowYear (strL "3時間前") base =
      some (base - 3 * 3600) ∧
    parse_datetime_text dtp nowYear (strL "2 hours ago") base =
      some (base - 2 * 3600) := by
  constructor
  · have e1 : parse_datetime_text dtp nowYear (strL "3時間前") base =
        match dtp (strL "3時間前") with
        | some d => some d
        | none => parseStages nowYear (strL "3時間前") base := rfl
    rw [e1, h1]
    rfl
  · have e2 : parse_datetime_text dtp nowYear (strL "2 hours ago") base =
        match dtp (strL "2 hours ago") with
        | some d => some d
        | none => parseStages nowYear (strL "2 hours ago") base := rfl
    rw [e2, h2]
    rfl

/-- Witness for C7 with the trivial oracle (refusing everything, as
dateutil's `ParserError` on these inputs) and `now = 0`. -/
theorem C7_relative_time_witness :
    parse_datetime_text (fun _ => none) 2025 (strL "3時間前") 0 =
      some (0 - 3 * 3600) ∧
    parse_datetime_text (fun _ => none) 2025 (strL "2 hours ago") 0 =
      some (0 - 2 * 3600) :=
  C7_relative_time (fun _ => none) 2025 0 rfl rfl

/-- Witness for C3: two rows titled "AI: News!!" and "ai news" (identical
normalized titles) with times T1 < T2 collapse to the row carrying T2. -/
theorem C3_dedupe_pair_witness :
    dedupe_by_title_keep_latest
      [⟨strL "AI:  News!!", strL "2025-01-01T00:00:00"⟩,
       ⟨strL "ai news", strL "2025-01-02T00:00:00"⟩] =
      [⟨strL "ai news", strL "2025-01-02T00:00:00"⟩] :=
  (C3_dedupe_pair
      ⟨strL "AI:  News!!", strL "2025-01-01T00:00:00"⟩
      ⟨strL "ai news", strL "2025-01-02T00:00:00"⟩
      (by decide) (by decide) (by decide)).2.1
    (by decide) (by decide) (by decide)

/-- Claim C9: `collect_from_feed` emits a candidate only for items with a
non-empty (stripped) title and a normalized link starting with the http
scheme; every emitted candidate's link starts with "http", and an item
whose link is empty or not http-resolvable contributes nothing. -/
theorem C9_feed_mandatory_fields (dtp : Str → Option Int)
    (nowYear now : Int) (feedUrl : Str) (items : List FeedItem) :
    (∀ c ∈ collect_from_feed dtp nowYear now feedUrl items,
      c.title ≠ [] ∧ startsWithStr c.link (strL "http") = true) ∧
    (∀ it : FeedItem,
      pyStrip it.title = [] ∨
        startsWithStr (normalize_url it.link) (strL "http") = false →
      collect_from_feed dtp nowYear now feedUrl [it] = []) := by
  constructor
  · intro c hc
    rcases List.mem_filterMap.mp hc with ⟨it, _, hit⟩
    unfold feedStep at hit
    by_cases hcond : pyStrip it.title = [] ∨
        ¬ startsWithStr (normalize_url it.link) (strL "http") = true
    · rw [if_pos hcond] at hit
      exact absurd hit (by simp)
    · rw [if_neg hcond] at hit
      push_neg at hcond
      cases hit
      exact ⟨hcond.1, hcond.2⟩
  · intro it hbad
    have hcond : pyStrip it.title = [] ∨
        ¬ startsWithStr (normalize_url it.link) (strL "http") = true := by
      rcases hbad with h | h
      · exact Or.inl h
      · exact Or.inr (by simp [h])
    have hnone : feedStep dtp nowYear now feedUrl it = none := by
      unfold feedStep
      exact if_pos hcond
    simp [collect_from_feed, hnone]

/-- Witness for C9: an item whose link is a relative (non-http) URL is
discarded. -/
theorem C9_feed_mandatory_fields_witness :
    collect_from_feed (fun _ => none) 2025 0 (strL "https://f.example/rss")
      [⟨strL "A title", strL "/relative/only", strL ""⟩] = [] :=
  (C9_feed_mandatory_fields (fun _ => none) 2025 0
      (strL "https://f.example/rss")
      [⟨strL "A title", strL "/relative/only", strL ""⟩]).2
    ⟨strL "A title", strL "/relative/only", strL ""⟩ (Or.inr (by decide))

/-- Claim C5: every record appended by the result loop satisfies the
lookback invariant at acceptance time: its `published_at` is present and at
least the threshold, because the loop computes `published_at` as the
article-level timestamp if present, else the list-level guess, and skips
candidates failing `within_lookback`. -/
theorem C5_published_at_invariant (threshold : Int)
    (summarize : Str → Str → Str → Str) (extract : Str → ArtOut)
    (cands : List Cand) :
    ∀ r ∈ assemble_results threshold summarize extract cands,
      ∃ t, r.published_at = some t ∧ threshold ≤ t := by
  intro r hr
  rcases List.mem_filterMap.mp hr with ⟨it, _, hit⟩
  unfold process_candidate at hit
  by_cases h1 : ¬ startsWithStr it.link (strL "http") = true
  · rw [if_pos h1] at hit
    exact absurd hit (by simp)
  · rw [if_neg h1] at hit
    by_cases h2 : ¬ within_lookback threshold
        (effective_pub it (extract it.link)) = true
    · rw [if_pos h2] at hit
      exact absurd hit (by simp)
    · rw [if_neg h2] at hit
      cases hit
      push_neg at h2
      rcases hpub : effective_pub it (extract it.link) with _ | t
      · rw [hpub] at h2
        exact absurd h2 (by simp [within_lookback])
      · rw [hpub] at h2
        refine ⟨t, rfl, ?_⟩
        simpa [within_lookback] using h2

/-- Claim C8: the Result Assembler replaces a candidate's URL with the
extractor's canonical URL only when the canonical URL is present and its
normalized host equals the original URL's normalized host or the two hosts
form an explicit cross-host allow pair; every other host combination keeps
the original URL.  The last conjunct ties the policy to the main loop's
emitted records. -/
theorem C8_canonical_adoption_policy (url canon : Str) :
    (canon = [] → adopt_canonical url canon = url) ∧
    (canon ≠ [] →
      (norm_host (pyUrlparse url []).netloc =
          norm_host (pyUrlparse canon []).netloc ∨
        (crossHostMember (norm_host (pyUrlparse url []).netloc) = true ∧
          (crossHostSet (norm_host (pyUrlparse url []).netloc)).contains
            (norm_host (pyUrlparse canon []).netloc) = true)) →
      adopt_canonical url canon = canon) ∧
    (¬ (norm_host (pyUrlparse url []).netloc =
          norm_host (pyUrlparse canon []).netloc ∨
        (crossHostMember (norm_host (pyUrlparse url []).netloc) = true ∧
          (crossHostSet (norm_host (pyUrlparse url []).netloc)).contains
            (norm_host (pyUrlparse canon []).netloc) = true)) →
      adopt_canonical url canon = url) ∧
    (∀ (threshold : Int) (summarize : Str → Str → Str → Str)
        (extract : Str → ArtOut) (it : Cand) (r : ArticleRecord),
      process_candidate threshold summarize extract it = some r →
      r.url = adopt_canonical it.link (extract it.link).canonical_url) := by
  refine ⟨?_, ?_, ?_, ?_⟩
  · intro h
    unfold adopt_canonical
    rw [if_neg (by simp [h])]
  · intro hne hcond
    unfold adopt_canonical
    rw [if_pos hne, if_pos hcond]
  · intro hcond
    unfold adopt_canonical
    by_cases hne : canon ≠ []
    · rw [if_pos hne, if_neg hcond]
    · rw [if_neg hne]
  · intro threshold summarize extract it r h
    unfold process_candidate at h
    by_cases h1 : ¬ startsWithStr it.link (strL "http") = true
    · rw [if_pos h1] at h
      exact absurd h (by simp)
    · rw [if_neg h1] at h
      by_cases h2 : ¬ within_lookback threshold
          (effective_pub it (extract it.link)) = true
      · rw [if_pos h2] at h
        exact absurd h (by simp)
      · rw [if_neg h2] at h
        cases h
        rfl

/-- Witness for C8: a canonical URL on an unrelated host is rejected and
the original URL kept. -/
theorem C8_canonical_adoption_policy_witness :
    adopt_canonical (strL "https://www.publickey1.jp/blog/25/a.html")
      (strL "https://evil.example/steal") =
      strL "https://www.publickey1.jp/blog/25/a.html" :=
  (C8_canonical_adoption_policy (strL "https://www.publickey1.jp/blog/25/a.html")
      (strL "https://evil.example/steal")).2.2.1 (by decide)

/-- Witness for C5: a concrete in-window candidate is emitted with its
`published_at` above the threshold. -/
theorem C5_published_at_invariant_witness :
    ∃ t, (⟨strL "T", strL "https://a.example/x", some 500, strL "raw",
        strL "https://list.example", 0, [], []⟩ : ArticleRecord).published_at
        = some t ∧ (100 : Int) ≤ t :=
  C5_published_at_invariant 100 (fun _ _ _ => [])
    (fun _ => ⟨[], some 500, strL "raw", [], []⟩)
    [⟨strL "https://list.example", strL "T", strL "https://a.example/x",
      none, strL ""⟩]
    ⟨strL "T", strL "https://a.example/x", some 500, strL "raw",
      strL "https://list.example", 0, [], []⟩
    (List.Mem.head _)

theorem genericPick_no_common_exclude (anchors : List Anchor)
    (base_url base_host_raw href : Str)
    (h : genericPick anchors base_url base_host_raw = some href) :
    ∀ re ∈ COMMON_EXCLUDES,
      reTest re (pathOrRoot (pyUrlparse href [])) = false := by
  rcases hbest : (genericBest anchors base_url base_host_raw).1 with _ | g
  · exfalso
    have h' : (none : Option Str) = some href := by
      rw [← h]
      unfold genericPick
      rw [hbest]
    exact absurd h' (by simp)
  · have h' : (if COMMON_EXCLUDES.any
        (fun re => reTest re (pathOrRoot (pyUrlparse g []))) = true
        then none else some g) = some href := by
      rw [← h]
      unfold genericPick
      rw [hbest]
    by_cases hany : COMMON_EXCLUDES.any
        (fun re => reTest re (pathOrRoot (pyUrlparse g []))) = true
    · rw [if_pos hany] at h'
      exact absurd h' (by simp)
    · rw [if_neg hany] at h'
      cases h'
      intro re hre
      by_cases hval : reTest re (pathOrRoot (pyUrlparse href [])) = true
      · exact absurd (List.any_eq_true.mpr ⟨re, hre, hval⟩) hany
      · simpa using hval

theorem nikkeiPick_no_common_exclude (anchors : List Anchor)
    (base_url href : Str)
    (h : nikkeiPick anchors base_url = some href) :
    ∀ re ∈ COMMON_EXCLUDES,
      reTest re (pathOrRoot (pyUrlparse href [])) = false := by
  induction anchors with
  | nil => exact absurd h (by simp [nikkeiPick])
  | cons a as ih =>
    simp only [nikkeiPick, List.findSome?_cons] at h
    obtain ⟨u, hu⟩ : ∃ u, normalize_url (urljoin base_url a.href) = u :=
      ⟨_, rfl⟩
    rw [hu] at h
    by_cases hc : reTest ATCL_RE (pathOrRoot (pyUrlparse u [])) = true ∧
        ¬ COMMON_EXCLUDES.any
          (fun re => reTest re (pathOrRoot (pyUrlparse u []))) = true
    · rw [if_pos hc] at h
      have h2 : some u = some href := h
      injection h2 with h3
      subst h3
      intro re hre
      by_cases hval : reTest re (pathOrRoot (pyUrlparse u [])) = true
      · exact absurd (List.any_eq_true.mpr ⟨re, hre, hval⟩) hc.2
      · simpa using hval
    · rw [if_neg hc] at h
      have h2 : nikkeiPick as base_url = some href := h
      exact ih h2

theorem pick_h_generic_exclude_gate (card : Card) (base_url bhr href : Str)
    (hh : (siteRuleFor (norm_host bhr)).hatenaSpecial = false)
    (hz : norm_host bhr ≠ strL "zenn.dev")
    (hk : norm_host bhr ≠ strL "kdnuggets.com")
    (hb : norm_host bhr ≠ strL "businessinsider.jp")
    (hpick : pick_article_anchor_h card base_url bhr = some href) :
    ∀ re ∈ COMMON_EXCLUDES,
      reTest re (pathOrRoot (pyUrlparse href [])) = false := by
  unfold pick_article_anchor_h at hpick
  split at hpick
  · rename_i h1 heq
    rw [hh] at heq
    simp at heq
  · rw [if_neg hz, if_neg hk] at hpick
    by_cases he : card.anchors.isEmpty = true
    · rw [if_pos he] at hpick
      exact absurd hpick (by simp)
    · rw [if_neg he] at hpick
      split at hpick
      · rename_i h1 heq
        have hh1 : h1 = href := by injection hpick
        rw [hh1] at heq
        by_cases hn : norm_host bhr = strL "business.nikkei.com" ∨
            norm_host bhr = strL "xtech.nikkei.com"
        · rw [if_pos hn] at heq
          exact nikkeiPick_no_common_exclude card.anchors base_url href heq
        · rw [if_neg hn] at heq
          exact absurd heq (by simp)
      · split at hpick
        · rename_i h1 heq
          rw [if_neg hb] at heq
          exact absurd heq (by simp)
        · exact genericPick_no_common_exclude card.anchors base_url bhr
            href hpick

/-- Claim C1 (amended): the exclusion that forces rejection is the common
exclude list, and it governs both the generic scoring path (the final gate
on the best-scored URL) and the nikkei `/atcl/` priority branch, which the
source gates on `COMMON_EXCLUDES` directly (the nikkei per-host excludes
are a subset of the common list).  So for every base host without a
hatena/zenn/kdnuggets/businessinsider special branch — the two nikkei
hosts included — any URL `pick_article_anchor` returns has a path matching
none of the common exclude patterns.  Per-host exclude patterns only
subtract score on the generic path and do not force rejection, and the
hatena/zenn/kdnuggets/businessinsider branches return without this gate
(see the counterexample). -/
theorem C1_generic_exclude_gate (card : Card) (base_url href : Str)
    (hh : (siteRuleFor
      (norm_host (pyUrlparse base_url []).netloc)).hatenaSpecial = false)
    (hz : norm_host (pyUrlparse base_url []).netloc ≠ strL "zenn.dev")
    (hk : norm_host (pyUrlparse base_url []).netloc ≠ strL "kdnuggets.com")
    (hb : norm_host (pyUrlparse base_url []).netloc ≠
      strL "businessinsider.jp")
    (hpick : pick_article_anchor card base_url = some href) :
    ∀ re ∈ COMMON_EXCLUDES,
      reTest re (pathOrRoot (pyUrlparse href [])) = false :=
  pick_h_generic_exclude_gate card base_url (pyUrlparse base_url []).netloc
    href hh hz hk hb hpick

/-- Witness for the amended C1 at a nikkei host: an `/atcl/` article URL
selected by the priority branch matches no common exclude pattern. -/
theorem C1_generic_exclude_gate_witness :
    COMMON_EXCLUDES.all (fun re => !reTest re (pathOrRoot
      (pyUrlparse (strL "https://xtech.nikkei.com/atcl/nxt/col/x1") [])))
      = true := by
  refine List.all_eq_true.mpr ?_
  intro re hre
  have h := C1_generic_exclude_gate
    ⟨none, [⟨strL "/atcl/nxt/col/x1", strL "T", [], none⟩]⟩
    (strL "https://xtech.nikkei.com/")
    (strL "https://xtech.nikkei.com/atcl/nxt/col/x1")
    (by decide) (by decide) (by decide) (by decide) (by decide) re hre
  simp [h]

/-- Counterexample to C1 as stated: the businessinsider special branch
returns `/author/post-123` although its path matches both the common
exclude `/author/` and the host's own exclude `/author/`; and on the
generic path an itmedia URL matching the per-host exclude `/rsslist` is
still returned (the −100 penalty does not force rejection). -/
theorem C1_exclude_not_dominant :
    pick_article_anchor
        ⟨none, [⟨strL "/author/post-123", strL "Read more", [], none⟩]⟩
        (strL "https://www.businessinsider.jp/category/tech-news/") =
      some (strL "https://www.businessinsider.jp/author/post-123") ∧
    reTest (reLitS "/author/") (strL "/author/post-123") = true ∧
    COMMON_EXCLUDES.any
      (fun re => reTest re (strL "/author/post-123")) = true ∧
    (siteRuleFor (strL "businessinsider.jp")).exc.any
      (fun re => reTest re (strL "/author/post-123")) = true ∧
    pick_article_anchor
        ⟨none, [⟨strL "/aiplus/articles/rsslist/x", strL "Read", [], none⟩]⟩
        (strL "https://www.itmedia.co.jp/aiplus/spv/") =
      some (strL "https://www.itmedia.co.jp/aiplus/articles/rsslist/x") ∧
    (siteRuleFor (strL "itmedia.co.jp")).exc.any
      (fun re => reTest re (strL "/aiplus/articles/rsslist/x")) = true :=
  ⟨rfl, rfl, rfl, rfl, rfl, rfl⟩

/-! ## Infrastructure for C4: string splitters -/

theorem splitFirst_of_not_mem {c : Char} {s : Str} (h : c ∉ s) :
    splitFirst s c = none := by
  induction s with
  | nil => rfl
  | cons x xs ih =>
    have hx : x ≠ c := fun he => h (he ▸ List.mem_cons_self _ _)
    have hxs : c ∉ xs := fun hm => h (List.mem_cons_of_mem _ hm)
    simp [splitFirst, hx, ih hxs]

theorem splitFirst_append {c : Char} {a b : Str} (h : c ∉ a) :
    splitFirst (a ++ c :: b) c = some (a, b) := by
  induction a with
  | nil => simp [splitFirst]
  | cons x xs ih =>
    have hx : x ≠ c := fun he => h (he ▸ List.mem_cons_self _ _)
    have hxs : c ∉ xs := fun hm => h (List.mem_cons_of_mem _ hm)
    simp [splitFirst, hx, ih hxs]

theorem splitFirst_eq_none {s : Str} {c : Char} (h : splitFirst s c = none) :
    c ∉ s := by
  induction s with
  | nil => simp
  | cons x xs ih =>
    by_cases hx : x = c
    · simp [splitFirst, hx] at h
    · simp only [splitFirst, if_neg hx] at h
      intro hm
      rcases List.mem_cons.mp hm with he | hm'
      · exact hx he.symm
      · rcases hsp : splitFirst xs c with _ | p
        · exact ih hsp hm'
        · rw [hsp] at h
          simp at h

theorem splitFirst_eq_some {s : Str} {c : Char} {x y : Str}
    (h : splitFirst s c = some (x, y)) : s = x ++ c :: y ∧ c ∉ x := by
  induction s generalizing x with
  | nil => simp [splitFirst] at h
  | cons a as ih =>
    by_cases ha : a = c
    · simp only [splitFirst, if_pos ha] at h
      cases h
      subst ha
      exact ⟨rfl, by simp⟩
    · simp only [splitFirst, if_neg ha] at h
      rcases hsp : splitFirst as c with _ | p
      · rw [hsp] at h
        simp at h
      · rw [hsp] at h
        rcases p with ⟨px, py⟩
        simp only [Option.some.injEq, Prod.mk.injEq] at h
        rcases h with ⟨hx, hy⟩
        rcases ih (x := px) (by rw [hsp, hy]) with ⟨hs, hmem⟩
        subst hx hy
        refine ⟨by rw [hs]; rfl, ?_⟩
        intro hm
        rcases List.mem_cons.mp hm with he | hm'
        · exact ha he.symm
        · exact hmem hm'

theorem takeUntilAny_append {ds : List Char} {a b : Str}
    (ha : ∀ x ∈ a, ds.contains x = false)
    (hb : ∀ hd, b.head? = some hd → ds.contains hd = true) :
    takeUntilAny (a ++ b) ds = (a, b) := by
  induction a with
  | nil =>
    cases b with
    | nil => rfl
    | cons y ys =>
      have hy := hb y rfl
      show takeUntilAny (y :: ys) ds = ([], y :: ys)
      unfold takeUntilAny
      rw [if_pos hy]
  | cons x xs ih =>
    have hx := ha x (List.mem_cons_self _ _)
    have hxs : ∀ z ∈ xs, ds.contains z = false :=
      fun z hz => ha z (List.mem_cons_of_mem _ hz)
    show takeUntilAny (x :: (xs ++ b)) ds = (x :: xs, b)
    unfold takeUntilAny
    rw [if_neg (by simpa using hx), ih hxs]

theorem takeUntilAny_spec {s : Str} {ds : List Char} {a b : Str}
    (h : takeUntilAny s ds = (a, b)) :
    s = a ++ b ∧ (∀ x ∈ a, ds.contains x = false) ∧
      (∀ hd, b.head? = some hd → ds.contains hd = true) := by
  induction s generalizing a b with
  | nil =>
    simp only [takeUntilAny, Prod.mk.injEq] at h
    rcases h with ⟨h1, h2⟩
    subst h1; subst h2
    exact ⟨rfl, by simp, by simp⟩
  | cons x xs ih =>
    by_cases hx : ds.contains x
    · have h' : takeUntilAny (x :: xs) ds = ([], x :: xs) := by
        unfold takeUntilAny
        rw [if_pos hx]
      rw [h'] at h
      injection h with h1 h2
      subst h1; subst h2
      refine ⟨rfl, by simp, ?_⟩
      intro hd hhd
      simp only [List.head?_cons, Option.some.injEq] at hhd
      subst hhd
      exact hx
    · rcases htk : takeUntilAny xs ds with ⟨a1, b1⟩
      have h' : takeUntilAny (x :: xs) ds = (x :: a1, b1) := by
        unfold takeUntilAny
        rw [if_neg hx, htk]
      rw [h'] at h
      injection h with h1 h2
      subst h1; subst h2
      rcases ih htk with ⟨hs, hmem, hhd⟩
      refine ⟨by rw [hs]; rfl, ?_, hhd⟩
      intro z hz
      rcases List.mem_cons.mp hz with he | hm
      · rw [he]
        exact Bool.eq_false_iff.mpr hx
      · exact hmem z hm

theorem stripTrailingQ_of_last {s : Str}
    (h : ∀ c, s.getLast? = some c → ¬ c.toNat = 63) : stripTrailingQ s = s := by
  unfold stripTrailingQ
  cases hr : s.reverse with
  | nil =>
    have : s = [] := by
      have := congrArg List.reverse hr
      simpa using this
    simp [this]
  | cons x xs =>
    have hx : ¬ x.toNat = 63 := by
      refine h x ?_
      rw [← List.head?_reverse, hr]
      rfl
    rw [List.dropWhile_cons, if_neg (by simpa using hx), ← hr,
      List.reverse_reverse]

theorem stripTrailingQ_append {x y : Str} (h : stripTrailingQ y ≠ []) :
    stripTrailingQ (x ++ y) = x ++ stripTrailingQ y := by
  unfold stripTrailingQ at h ⊢
  rw [List.reverse_append, List.dropWhile_append]
  have hne : ¬ (y.reverse.dropWhile (fun c => c.toNat == 63)).isEmpty = true := by
    intro hemp
    rw [List.isEmpty_iff] at hemp
    rw [hemp] at h
    simp at h
  rw [if_neg hne, List.reverse_append, List.reverse_reverse]

theorem stripTrailingQ_ne_nil {s : Str} {c : Char} (hc : c ∈ s)
    (hq : ¬ c.toNat = 63) : stripTrailingQ s ≠ [] := by
  unfold stripTrailingQ
  intro h
  have h2 : s.reverse.dropWhile (fun c => c.toNat == 63) = [] := by
    have := congrArg List.reverse h
    simpa using this
  rw [List.dropWhile_eq_nil_iff] at h2
  exact hq (by simpa using h2 c (List.mem_reverse.mpr hc))

theorem stripTrailingQ_last_ne {s : Str} :
    ∀ c, (stripTrailingQ s).getLast? = some c → ¬ c.toNat = 63 := by
  intro c hc
  unfold stripTrailingQ at hc
  rw [List.getLast?_reverse] at hc
  rcases dropWhile_head_not (fun c => c.toNat == 63) s.reverse with h | ⟨hd, tl, hdt, hp⟩
  · rw [h] at hc
    simp at hc
  · rw [hdt] at hc
    simp only [List.head?_cons, Option.some.injEq] at hc
    subst hc
    simpa using hp

/-! ## Infrastructure for C4: percent-encoding and UTF-8 roundtrips -/

theorem hexDigitUpper_range {n : Nat} (h : n < 16) :
    (48 ≤ (hexDigitUpper n).toNat ∧ (hexDigitUpper n).toNat ≤ 57) ∨
      (65 ≤ (hexDigitUpper n).toNat ∧ (hexDigitUpper n).toNat ≤ 70) := by
  interval_cases n <;> decide

theorem hexVal_hexDigitUpper {n : Nat} (h : n < 16) :
    hexVal (hexDigitUpper n) = n ∧ isHexDigit (hexDigitUpper n) = true := by
  interval_cases n <;> exact ⟨by decide, by decide⟩

theorem pctDecodeGo_fuel (n : Nat) : ∀ (s : Str) (f g : Nat), s.length ≤ n →
    s.length ≤ f → s.length ≤ g → pctDecodeGo f s = pctDecodeGo g s := by
  induction n with
  | zero =>
    intro s f g hn _ _
    have hs : s = [] := List.eq_nil_of_length_eq_zero (Nat.le_zero.mp hn)
    subst hs
    cases f <;> cases g <;> rfl
  | succ n ih =>
    intro s f g hn hf hg
    cases s with
    | nil => cases f <;> cases g <;> rfl
    | cons c rest =>
      simp only [List.length_cons] at hn hf hg
      cases f with
      | zero => omega
      | succ f' =>
        cases g with
        | zero => omega
        | succ g' =>
          unfold pctDecodeGo
          by_cases h37 : (c.toNat == 37) = true
          · rw [if_pos h37, if_pos h37]
            cases rest with
            | nil =>
              show c.toNat :: pctDecodeGo f' [] = c.toNat :: pctDecodeGo g' []
              have e1 : pctDecodeGo f' [] = [] := by cases f' <;> rfl
              have e2 : pctDecodeGo g' [] = [] := by cases g' <;> rfl
              rw [e1, e2]
            | cons h1 rest2 =>
              cases rest2 with
              | nil =>
                simp only [List.length_cons, List.length_nil] at hn hf hg
                show c.toNat :: pctDecodeGo f' [h1]
                  = c.toNat :: pctDecodeGo g' [h1]
                rw [ih [h1] f' g'
                  (by simp only [List.length_cons, List.length_nil]; omega)
                  (by simp only [List.length_cons, List.length_nil]; omega)
                  (by simp only [List.length_cons, List.length_nil]; omega)]
              | cons h2 r3 =>
                simp only [List.length_cons] at hn hf hg
                show (if (isHexDigit h1 && isHexDigit h2) = true
                    then (hexVal h1 * 16 + hexVal h2) :: pctDecodeGo f' r3
                    else c.toNat :: pctDecodeGo f' (h1 :: h2 :: r3)) =
                  (if (isHexDigit h1 && isHexDigit h2) = true
                    then (hexVal h1 * 16 + hexVal h2) :: pctDecodeGo g' r3
                    else c.toNat :: pctDecodeGo g' (h1 :: h2 :: r3))
                by_cases hhex : (isHexDigit h1 && isHexDigit h2) = true
                · rw [if_pos hhex, if_pos hhex,
                    ih r3 f' g' (by omega) (by omega) (by omega)]
                · rw [if_neg hhex, if_neg hhex,
                    ih (h1 :: h2 :: r3) f' g'
                      (by simp only [List.length_cons]; omega)
                      (by simp only [List.length_cons]; omega)
                      (by simp only [List.length_cons]; omega)]
          · rw [if_neg h37, if_neg h37,
              ih rest f' g' (by omega) (by omega) (by omega)]

theorem pctDecodeBytes_cons {c : Char} {r : Str} (h : ¬ c.toNat = 37) :
    pctDecodeBytes (c :: r) = c.toNat :: pctDecodeBytes r := by
  show pctDecodeGo (r.length + 1) (c :: r) = _
  unfold pctDecodeGo
  rw [if_neg (by simpa using h)]
  rfl

theorem pctDecodeBytes_pct {b : Nat} (hb : b < 256) (r : Str) :
    pctDecodeBytes (pctEncodeByte b ++ r) = b :: pctDecodeBytes r := by
  have hd : b / 16 < 16 := by omega
  have hm : b % 16 < 16 := by omega
  rcases hexVal_hexDigitUpper hd with ⟨hv1, hh1⟩
  rcases hexVal_hexDigitUpper hm with ⟨hv2, hh2⟩
  show pctDecodeGo (r.length + 3)
    (Char.ofNat 37 :: hexDigitUpper (b / 16) :: hexDigitUpper (b % 16) :: r) = _
  unfold pctDecodeGo
  rw [if_pos (by decide)]
  simp only [hh1, hh2, Bool.and_self, if_pos]
  rw [hv1, hv2]
  have harith : b / 16 * 16 + b % 16 = b := by omega
  rw [harith,
    pctDecodeGo_fuel (r.length + 2) r (r.length + 2) r.length (by omega)
      (by omega) (by omega)]
  rfl

theorem utf8EncodeChar_len_pos (c : Char) : 0 < (utf8EncodeChar c).length := by
  simp only [utf8EncodeChar]
  split <;> try simp
  split <;> try simp
  split <;> simp

theorem utf8EncodeChar_lt_256 (c : Char) : ∀ b ∈ utf8EncodeChar c, b < 256 := by
  have hv : c.toNat < 0xD800 ∨ (0xDFFF < c.toNat ∧ c.toNat < 0x110000) := c.valid
  intro b hb
  simp only [utf8EncodeChar] at hb
  split at hb
  · simp at hb; omega
  · split at hb
    · simp at hb
      rcases hb with h | h <;> omega
    · split at hb
      · simp at hb
        rcases hb with h | h | h <;> omega
      · simp at hb
        rcases hb with h | h | h | h <;> omega

theorem utf8DecodeStep_enc (c : Char) (rest : List Nat) :
    utf8DecodeStep (utf8EncodeChar c ++ rest) = (c, (utf8EncodeChar c).length) := by
  have hv : c.toNat < 0xD800 ∨ (0xDFFF < c.toNat ∧ c.toNat < 0x110000) := c.valid
  have hofn : Char.ofNat c.toNat = c := Char.ofNat_toNat c
  by_cases h1 : c.toNat < 0x80
  · have he : utf8EncodeChar c = [c.toNat] := by
      simp only [utf8EncodeChar]
      rw [if_pos h1]
    rw [he]
    show utf8DecodeStep (c.toNat :: rest) = _
    simp only [utf8DecodeStep]
    rw [if_pos h1, hofn]
    rfl
  · by_cases h2 : c.toNat < 0x800
    · have he : utf8EncodeChar c = [0xC0 + c.toNat / 64, 0x80 + c.toNat % 64] := by
        simp only [utf8EncodeChar]
        rw [if_neg h1, if_pos h2]
      rw [he]
      show utf8DecodeStep (_ :: _ :: rest) = _
      simp only [utf8DecodeStep]
      rw [if_neg (by omega), if_pos (by omega), if_pos (by omega)]
      have harg : (0xC0 + c.toNat / 64 - 0xC0) * 64 + (0x80 + c.toNat % 64 - 0x80)
          = c.toNat := by omega
      rw [harg, hofn]
      rfl
    · by_cases h3 : c.toNat < 0x10000
      · have he : utf8EncodeChar c = [0xE0 + c.toNat / 4096,
            0x80 + (c.toNat / 64) % 64, 0x80 + c.toNat % 64] := by
          simp only [utf8EncodeChar]
          rw [if_neg h1, if_neg h2, if_pos h3]
        rw [he]
        show utf8DecodeStep (_ :: _ :: _ :: rest) = _
        simp only [utf8DecodeStep]
        rw [if_neg (by omega), if_neg (by omega), if_pos (by omega),
          if_pos (by constructor; · omega
                     constructor <;> intro hb <;> omega),
          if_pos (by omega)]
        have harg : (0xE0 + c.toNat / 4096 - 0xE0) * 4096 +
            (0x80 + c.toNat / 64 % 64 - 0x80) * 64 +
            (0x80 + c.toNat % 64 - 0x80) = c.toNat := by omega
        rw [harg, hofn]
        rfl
      · have h4 : c.toNat < 0x110000 := by omega
        have he : utf8EncodeChar c = [0xF0 + c.toNat / 262144,
            0x80 + (c.toNat / 4096) % 64, 0x80 + (c.toNat / 64) % 64,
            0x80 + c.toNat % 64] := by
          simp only [utf8EncodeChar]
          rw [if_neg h1, if_neg h2, if_neg h3]
        rw [he]
        show utf8DecodeStep (_ :: _ :: _ :: _ :: rest) = _
        simp only [utf8DecodeStep]
        rw [if_neg (by omega), if_neg (by omega), if_neg (by omega),
          if_pos (by omega),
          if_pos (by constructor; · omega
                     constructor <;> intro hb <;> omega),
          if_pos (by omega), if_pos (by omega)]
        have harg : (0xF0 + c.toNat / 262144 - 0xF0) * 262144 +
            (0x80 + c.toNat / 4096 % 64 - 0x80) * 4096 +
            (0x80 + c.toNat / 64 % 64 - 0x80) * 64 +
            (0x80 + c.toNat % 64 - 0x80) = c.toNat := by omega
        rw [harg, hofn]
        rfl

theorem utf8DecodeGo_encode (s : Str) :
    ∀ f, (utf8Encode s).length ≤ f → utf8DecodeGo f (utf8Encode s) = s := by
  induction s with
  | nil =>
    intro f _
    cases f <;> rfl
  | cons c cs ih =>
    intro f hf
    have hstep := utf8DecodeStep_enc c (utf8Encode cs)
    have hlen : 0 < (utf8EncodeChar c).length := utf8EncodeChar_len_pos c
    have henc : utf8Encode (c :: cs) = utf8EncodeChar c ++ utf8Encode cs := by
      show ((c :: cs).map utf8EncodeChar).flatten = _
      rw [List.map_cons, List.flatten_cons]
      rfl
    rw [henc] at hf ⊢
    obtain ⟨b, bs, hec⟩ : ∃ b bs, utf8EncodeChar c = b :: bs := by
      rcases h9 : utf8EncodeChar c with _ | ⟨b, bs⟩
      · rw [h9] at hlen
        simp at hlen
      · exact ⟨b, bs, rfl⟩
    · rw [hec] at hstep hf ⊢
      simp only [List.cons_append] at hstep hf ⊢
      cases f with
      | zero =>
        simp at hf
      | succ f' =>
        show (utf8DecodeStep (b :: (bs ++ utf8Encode cs))).1 ::
          utf8DecodeGo f'
            ((b :: (bs ++ utf8Encode cs)).drop
              (utf8DecodeStep (b :: (bs ++ utf8Encode cs))).2) = c :: cs
        rw [hstep]
        have hdrop : (b :: (bs ++ utf8Encode cs)).drop (b :: bs).length
            = utf8Encode cs := by
          have : (b :: (bs ++ utf8Encode cs)) = (b :: bs) ++ utf8Encode cs := by
            simp
          rw [this, List.drop_left]
        rw [hdrop, ih f' (by simp at hf ⊢; omega)]

theorem utf8_roundtrip (s : Str) : utf8DecodeReplace (utf8Encode s) = s :=
  utf8DecodeGo_encode s _ le_rfl

theorem isQuoteSafe_range {c : Char} (h : isQuoteSafe c = true) :
    32 < c.toNat ∧ c.toNat < 128 ∧ c.toNat ≠ 37 ∧ c.toNat ≠ 43 ∧
      c.toNat ≠ 38 ∧ c.toNat ≠ 61 ∧ c.toNat ≠ 35 ∧ c.toNat ≠ 63 := by
  unfold isQuoteSafe isAsciiAlpha isAsciiDigit at h
  simp only [Bool.or_eq_true, Bool.and_eq_true, decide_eq_true_eq,
    beq_iff_eq] at h
  rcases h with (((((⟨h1, h2⟩ | ⟨h1, h2⟩) | ⟨h1, h2⟩) | h) | h) | h) | h <;>
    omega

theorem takeRun_all {p : Char → Bool} {s : Str} (h : ∀ c ∈ s, p c = true) :
    takeRun p s = (s, []) := by
  induction s with
  | nil => rfl
  | cons c cs ih =>
    have hc := h c (List.mem_cons_self _ _)
    have hcs : ∀ x ∈ cs, p x = true :=
      fun x hx => h x (List.mem_cons_of_mem _ hx)
    show takeRun p (c :: cs) = _
    unfold takeRun
    rw [if_pos hc, ih hcs]

theorem pyUnquoteGo_nil : ∀ f, pyUnquoteGo f [] = [] := by
  intro f
  cases f <;> rfl

theorem pyUnquote_ascii {s : Str} (h : ∀ c ∈ s, c.toNat < 128) :
    pyUnquote s = utf8DecodeReplace (pctDecodeBytes s) := by
  cases s with
  | nil => rfl
  | cons c cs =>
    have hc := h c (List.mem_cons_self _ _)
    show pyUnquoteGo (cs.length + 1) (c :: cs) = _
    simp only [pyUnquoteGo]
    rw [if_pos hc,
      takeRun_all (fun x hx => by simpa using h x hx),
      pyUnquoteGo_nil, List.append_nil]

theorem replacePlus_eq_self {s : Str} (h : ∀ c ∈ s, c.toNat ≠ 43) :
    replacePlus s = s := by
  induction s with
  | nil => rfl
  | cons c cs ih =>
    have hc := h c (List.mem_cons_self _ _)
    have hcs : ∀ x ∈ cs, x.toNat ≠ 43 :=
      fun x hx => h x (List.mem_cons_of_mem _ hx)
    show (if c.toNat == 43 then Char.ofNat 32 else c) :: replacePlus cs = _
    rw [if_neg (by simpa using hc), ih hcs]

theorem replacePlus_pctChunk (bl : List Nat) (hb : ∀ b ∈ bl, b < 256) :
    replacePlus ((bl.map pctEncodeByte).flatten) =
      (bl.map pctEncodeByte).flatten := by
  apply replacePlus_eq_self
  intro c hc
  obtain ⟨l, hl, hcl⟩ := List.mem_flatten.mp hc
  obtain ⟨b, hbmem, rfl⟩ := List.mem_map.mp hl
  have hb' := hb b hbmem
  have hd : b / 16 < 16 := by omega
  have hm : b % 16 < 16 := by omega
  simp only [pctEncodeByte, List.mem_cons, List.mem_singleton] at hcl
  rcases hcl with rfl | rfl | (rfl | h0)
  · decide
  · rcases hexDigitUpper_range hd with h1 | h1 <;> omega
  · rcases hexDigitUpper_range hm with h1 | h1 <;> omega
  · simp at h0

theorem pctDecodeBytes_chunk (bl : List Nat) (hb : ∀ b ∈ bl, b < 256)
    (r : Str) :
    pctDecodeBytes ((bl.map pctEncodeByte).flatten ++ r) =
      bl ++ pctDecodeBytes r := by
  induction bl with
  | nil => rfl
  | cons b bs ih =>
    have hb0 := hb b (List.mem_cons_self _ _)
    have hbs : ∀ x ∈ bs, x < 256 :=
      fun x hx => hb x (List.mem_cons_of_mem _ hx)
    show pctDecodeBytes ((pctEncodeByte b :: bs.map pctEncodeByte).flatten ++ r)
      = _
    rw [List.flatten_cons, List.append_assoc, pctDecodeBytes_pct hb0, ih hbs]
    rfl

theorem quote_plus_cons (c : Char) (cs : Str) :
    quote_plus (c :: cs) = quoteCharPlus c ++ quote_plus cs := by
  show ((c :: cs).map quoteCharPlus).flatten = _
  rw [List.map_cons, List.flatten_cons]
  rfl

theorem pctDecode_replacePlus_qp (s : Str) :
    pctDecodeBytes (replacePlus (quote_plus s)) = utf8Encode s := by
  induction s with
  | nil => rfl
  | cons c cs ih =>
    rw [quote_plus_cons]
    have hrp : replacePlus (quoteCharPlus c ++ quote_plus cs)
        = replacePlus (quoteCharPlus c) ++ replacePlus (quote_plus cs) :=
      List.map_append _ _ _
    rw [hrp]
    have henc : utf8Encode (c :: cs) = utf8EncodeChar c ++ utf8Encode cs := by
      show ((c :: cs).map utf8EncodeChar).flatten = _
      rw [List.map_cons, List.flatten_cons]
      rfl
    rw [henc]
    by_cases hs : isQuoteSafe c
    · have h1 : quoteCharPlus c = [c] := by
        unfold quoteCharPlus
        rw [if_pos hs]
      rcases isQuoteSafe_range hs with ⟨ha, hb, hc37, hc43, _⟩
      have h2 : replacePlus [c] = [c] := by
        show (if c.toNat == 43 then Char.ofNat 32 else c) :: [] = [c]
        rw [if_neg (by simpa using hc43)]
      have h3 : utf8EncodeChar c = [c.toNat] := by
        simp only [utf8EncodeChar]
        rw [if_pos (by omega)]
      rw [h1, h2, h3]
      show pctDecodeBytes (c :: replacePlus (quote_plus cs)) = _
      rw [pctDecodeBytes_cons hc37, ih]
      rfl
    · by_cases hsp : c.toNat = 32
      · have h1 : quoteCharPlus c = [Char.ofNat 43] := by
          unfold quoteCharPlus
          rw [if_neg (by simpa using hs), if_pos (by simpa using hsp)]
        have h2 : replacePlus [Char.ofNat 43] = [Char.ofNat 32] := by
          show (if (Char.ofNat 43).toNat == 43 then Char.ofNat 32 else _) :: []
            = _
          rw [if_pos (by decide)]
        have h3 : utf8EncodeChar c = [c.toNat] := by
          simp only [utf8EncodeChar]
          rw [if_pos (by omega)]
        rw [h1, h2, h3, hsp]
        show pctDecodeBytes (Char.ofNat 32 :: replacePlus (quote_plus cs)) = _
        rw [pctDecodeBytes_cons (by decide), ih]
        rfl
      · have h1 : quoteCharPlus c
            = ((utf8EncodeChar c).map pctEncodeByte).flatten := by
          unfold quoteCharPlus
          rw [if_neg (by simpa using hs), if_neg (by simpa using hsp)]
        rw [h1, replacePlus_pctChunk _ (utf8EncodeChar_lt_256 c),
          pctDecodeBytes_chunk _ (utf8EncodeChar_lt_256 c), ih]

theorem quote_plus_charset (s : Str) :
    ∀ x ∈ quote_plus s, 32 < x.toNat ∧ x.toNat < 128 ∧ x.toNat ≠ 38 ∧
      x.toNat ≠ 61 ∧ x.toNat ≠ 35 ∧ x.toNat ≠ 63 := by
  intro x hx
  obtain ⟨l, hl, hxl⟩ := List.mem_flatten.mp hx
  obtain ⟨c, hc, rfl⟩ := List.mem_map.mp hl
  unfold quoteCharPlus at hxl
  split at hxl
  · simp only [List.mem_singleton] at hxl
    subst hxl
    rcases isQuoteSafe_range (by assumption) with ⟨h1, h2, h3, h4, h5, h6, h7, h8⟩
    omega
  · split at hxl
    · simp only [List.mem_singleton] at hxl
      subst hxl
      decide
    · obtain ⟨l2, hl2, hxl2⟩ := List.mem_flatten.mp hxl
      obtain ⟨b, hbmem, rfl⟩ := List.mem_map.mp hl2
      have hb' := utf8EncodeChar_lt_256 c b hbmem
      have hd : b / 16 < 16 := by omega
      have hm : b % 16 < 16 := by omega
      simp only [pctEncodeByte, List.mem_cons, List.mem_singleton] at hxl2
      rcases hxl2 with rfl | rfl | (rfl | h0)
      · decide
      · rcases hexDigitUpper_range hd with h1 | h1 <;> omega
      · rcases hexDigitUpper_range hm with h1 | h1 <;> omega
      · simp at h0

theorem qslDecode_qp (s : Str) : qslDecode (quote_plus s) = s := by
  unfold qslDecode
  rw [pyUnquote_ascii, pctDecode_replacePlus_qp, utf8_roundtrip]
  intro c hc
  obtain ⟨d, hd, rfl⟩ := List.mem_map.mp hc
  rcases quote_plus_charset s d hd with ⟨h1, h2, _⟩
  by_cases h43 : d.toNat == 43
  · rw [if_pos h43]
    decide
  · rw [if_neg h43]
    exact h2

theorem splitAllChar_ne_nil (s : Str) (d : Char) : splitAllChar s d ≠ [] := by
  cases s with
  | nil => simp [splitAllChar]
  | cons x xs =>
    show splitAllChar (x :: xs) d ≠ []
    unfold splitAllChar
    by_cases hx : x = d
    · rw [if_pos hx]
      simp
    · rw [if_neg hx]
      rcases h : splitAllChar xs d with _ | ⟨a, rest⟩
      · simp
      · simp

theorem splitAllChar_not_mem {s : Str} {d : Char} (h : d ∉ s) :
    splitAllChar s d = [s] := by
  induction s with
  | nil => rfl
  | cons x xs ih =>
    have hx : x ≠ d := fun he => h (he ▸ List.mem_cons_self _ _)
    have hxs : d ∉ xs := fun hm => h (List.mem_cons_of_mem _ hm)
    show splitAllChar (x :: xs) d = _
    unfold splitAllChar
    rw [if_neg hx, ih hxs]

theorem splitAllChar_append {p q : Str} {d : Char} (h : d ∉ p) :
    splitAllChar (p ++ d :: q) d = p :: splitAllChar q d := by
  induction p with
  | nil =>
    show splitAllChar (d :: q) d = [] :: splitAllChar q d
    rw [splitAllChar, if_pos rfl]
  | cons x xs ih =>
    have hx : x ≠ d := fun he => h (he ▸ List.mem_cons_self _ _)
    have hxs : d ∉ xs := fun hm => h (List.mem_cons_of_mem _ hm)
    show splitAllChar (x :: (xs ++ d :: q)) d = (x :: xs) :: splitAllChar q d
    rw [splitAllChar, if_neg hx, ih hxs]

theorem urlencode_singleton (kv : Str × Str) :
    urlencode [kv] = quote_plus kv.1 ++ [Char.ofNat 61] ++ quote_plus kv.2 := by
  simp [urlencode, List.intercalate, List.intersperse]

theorem urlencode_cons_cons (kv kv2 : Str × Str) (L : List (Str × Str)) :
    urlencode (kv :: kv2 :: L)
      = (quote_plus kv.1 ++ [Char.ofNat 61] ++ quote_plus kv.2)
        ++ [Char.ofNat 38] ++ urlencode (kv2 :: L) := by
  simp [urlencode, List.intercalate, List.intersperse]

theorem urlencode_ne_nil (kv : Str × Str) (L : List (Str × Str)) :
    urlencode (kv :: L) ≠ [] := by
  cases L with
  | nil =>
    rw [urlencode_singleton]
    simp
  | cons kv2 L2 =>
    rw [urlencode_cons_cons]
    simp

theorem part_no_amp (k v : Str) :
    Char.ofNat 38 ∉ quote_plus k ++ Char.ofNat 61 :: quote_plus v := by
  intro hm
  rcases List.mem_append.mp hm with h | h
  · exact (quote_plus_charset k _ h).2.2.1 (by decide)
  · rcases List.mem_cons.mp h with h | h
    · exact absurd (congrArg Char.toNat h) (by decide)
    · exact (quote_plus_charset v _ h).2.2.1 (by decide)

theorem parse_qsl_urlencode (L : List (Str × Str)) :
    parse_qsl (urlencode L) = L := by
  induction L with
  | nil => rfl
  | cons kv L ih =>
    rcases kv with ⟨k, v⟩
    have hpart : splitFirst (quote_plus k ++ Char.ofNat 61 :: quote_plus v)
        (Char.ofNat 61) = some (quote_plus k, quote_plus v) :=
      splitFirst_append (fun hm =>
        (quote_plus_charset k _ hm).2.2.2.1 (by decide))
    have hne : quote_plus k ++ Char.ofNat 61 :: quote_plus v ≠ [] := by simp
    cases L with
    | nil =>
      rw [urlencode_singleton, List.append_assoc]
      show parse_qsl (quote_plus k ++ Char.ofNat 61 :: quote_plus v) = _
      simp only [parse_qsl]
      rw [if_neg hne, splitAllChar_not_mem (part_no_amp k v),
        List.foldr_cons, List.foldr_nil, if_neg hne, hpart]
      show (qslDecode (quote_plus k), qslDecode (quote_plus v)) :: [] = _
      rw [qslDecode_qp, qslDecode_qp]
    | cons kv2 L2 =>
      rw [urlencode_cons_cons]
      have hrw : (quote_plus (k, v).1 ++ [Char.ofNat 61] ++ quote_plus (k, v).2)
          ++ [Char.ofNat 38] ++ urlencode (kv2 :: L2)
          = (quote_plus k ++ Char.ofNat 61 :: quote_plus v)
            ++ Char.ofNat 38 :: urlencode (kv2 :: L2) := by
        simp
      rw [hrw]
      have hne2 : (quote_plus k ++ Char.ofNat 61 :: quote_plus v)
          ++ Char.ofNat 38 :: urlencode (kv2 :: L2) ≠ [] := by simp
      simp only [parse_qsl]
      rw [if_neg hne2, splitAllChar_append (part_no_amp k v), List.foldr_cons,
        if_neg hne, hpart]
      simp only [parse_qsl] at ih
      rw [if_neg (urlencode_ne_nil kv2 L2)] at ih
      show (qslDecode (quote_plus k), qslDecode (quote_plus v)) :: _ = _
      rw [qslDecode_qp, qslDecode_qp, ih]

theorem splitLastChar_of_not_mem {c : Char} {s : Str} (h : c ∉ s) :
    splitLastChar s c = none := by
  unfold splitLastChar
  rw [splitFirst_of_not_mem (fun hm => h (List.mem_reverse.mp hm))]

theorem splitLastChar_append {c : Char} {a b : Str} (h : c ∉ b) :
    splitLastChar (a ++ c :: b) c = some (a, b) := by
  unfold splitLastChar
  have hr : (a ++ c :: b).reverse = b.reverse ++ c :: a.reverse := by
    simp
  rw [hr, splitFirst_append (fun hm => h (List.mem_reverse.mp hm))]
  show some (a.reverse.reverse, b.reverse.reverse) = some (a, b)
  rw [List.reverse_reverse, List.reverse_reverse]

theorem splitLastChar_eq_some {s : Str} {c : Char} {x y : Str}
    (h : splitLastChar s c = some (x, y)) : s = x ++ c :: y ∧ c ∉ y := by
  unfold splitLastChar at h
  rcases hsp : splitFirst s.reverse c with _ | ⟨ra, rb⟩
  · rw [hsp] at h
    simp at h
  · rw [hsp] at h
    have h2 : some (rb.reverse, ra.reverse) = some (x, y) := h
    injection h2 with h2
    injection h2 with h2a h2b
    subst h2a
    subst h2b
    rcases splitFirst_eq_some hsp with ⟨hs, hmem⟩
    constructor
    · have := congrArg List.reverse hs
      simpa using this
    · intro hm
      exact hmem (List.mem_reverse.mp hm)

theorem splitparams_spec {x a b : Str} (h : splitparams x = (a, b)) :
    (b ≠ [] → x = a ++ Char.ofNat 59 :: b) ∧
    (b = [] → a = x ∨
      (x = a ++ [Char.ofNat 59] ∧
        (splitparams a = (a, []) ∨
          a.contains (Char.ofNat 59) = false))) := by
  unfold splitparams at h
  rcases hsl : splitLastChar x (Char.ofNat 47) with _ | ⟨before, lastseg⟩
  · rw [hsl] at h
    rcases hsf : splitFirst x (Char.ofNat 59) with _ | ⟨a1, b1⟩
    · have h2 : (x, ([] : Str)) = (a, b) := by rw [hsf] at h; exact h
      injection h2 with h2a h2b
      subst h2a
      subst h2b
      exact ⟨fun hb => absurd rfl hb, fun _ => Or.inl rfl⟩
    · have h2 : (a1, b1) = (a, b) := by rw [hsf] at h; exact h
      injection h2 with h2a h2b
      subst h2a
      subst h2b
      rcases splitFirst_eq_some hsf with ⟨hx, hmem⟩
      refine ⟨fun _ => hx, fun hb => ?_⟩
      subst hb
      refine Or.inr ⟨by simpa using hx, Or.inr ?_⟩
      simpa using hmem
  · rw [hsl] at h
    have h' : (match splitFirst lastseg (Char.ofNat 59) with
        | none => (x, ([] : Str))
        | some (p, q) => (before ++ [Char.ofNat 47] ++ p, q)) = (a, b) := h
    rcases splitLastChar_eq_some hsl with ⟨hx, hmem47⟩
    rcases hsf : splitFirst lastseg (Char.ofNat 59) with _ | ⟨a1, b1⟩
    · have h2 : (x, ([] : Str)) = (a, b) := by rw [hsf] at h'; exact h'
      injection h2 with h2a h2b
      subst h2a
      subst h2b
      exact ⟨fun hb => absurd rfl hb, fun _ => Or.inl rfl⟩
    · have h2 : (before ++ [Char.ofNat 47] ++ a1, b1) = (a, b) := by
        rw [hsf] at h'
        exact h'
      injection h2 with h2a h2b
      subst h2a
      subst h2b
      rcases splitFirst_eq_some hsf with ⟨hls, hmem59⟩
      constructor
      · intro _
        rw [hx, hls]
        simp
      · intro hb
        subst hb
        have h47a1 : Char.ofNat 47 ∉ a1 := by
          intro hm
          exact hmem47 (by rw [hls]; exact List.mem_append_left _ hm)
        refine Or.inr ⟨by rw [hx, hls]; simp, Or.inl ?_⟩
        have heq : before ++ [Char.ofNat 47] ++ a1
            = before ++ Char.ofNat 47 :: a1 := by simp
        rw [heq]
        unfold splitparams
        rw [splitLastChar_append h47a1]
        show (match splitFirst a1 (Char.ofNat 59) with
          | none => (before ++ Char.ofNat 47 :: a1, ([] : Str))
          | some (a2, b2) => (before ++ [Char.ofNat 47] ++ a2, b2)) = _
        rw [splitFirst_of_not_mem hmem59]

theorem paramsRejoin_idem (sc x : Str) :
    paramsRejoin sc (paramsRejoin sc x) = paramsRejoin sc x := by
  by_cases hc : uses_params.contains sc ∧ x.contains (Char.ofNat 59)
  · rcases hsp : splitparams x with ⟨a, b⟩
    have hg : paramsRejoin sc x
        = if b ≠ [] then a ++ Char.ofNat 59 :: b else a := by
      unfold paramsRejoin
      rw [if_pos hc, hsp]
    rcases splitparams_spec hsp with ⟨h1, h2⟩
    by_cases hb : b = []
    · subst hb
      have hga : paramsRejoin sc x = a := by
        rw [hg]
        simp
      rcases h2 rfl with ha | ⟨hxa, hsub⟩
      · rw [hga, ha]
        exact hga.trans ha
      · rw [hga]
        rcases hsub with hspa | hnc
        · unfold paramsRejoin
          by_cases hca : uses_params.contains sc ∧ a.contains (Char.ofNat 59)
          · rw [if_pos hca, hspa]
            show (if ([] : Str) ≠ [] then a ++ Char.ofNat 59 :: [] else a) = a
            simp
          · rw [if_neg hca]
        · unfold paramsRejoin
          rw [if_neg (by
            rintro ⟨h1', h2'⟩
            rw [hnc] at h2'
            exact Bool.false_ne_true h2')]
    · have hx : x = a ++ Char.ofNat 59 :: b := h1 hb
      have hgx : paramsRejoin sc x = x := by
        rw [hg, if_pos hb, ← hx]
      rw [hgx]
      exact hgx
  · have hid : paramsRejoin sc x = x := by
      unfold paramsRejoin
      rw [if_neg hc]
    rw [hid, hid]

theorem splitLastChar_eq_none {s : Str} {c : Char}
    (h : splitLastChar s c = none) : c ∉ s := by
  unfold splitLastChar at h
  rcases hsp : splitFirst s.reverse c with _ | p
  · intro hm
    exact splitFirst_eq_none hsp (List.mem_reverse.mpr hm)
  · rw [hsp] at h
    rcases p with ⟨ra, rb⟩
    exact absurd h (by simp)

theorem splitparams_comp_nosl {x : Str}
    (hsl : splitLastChar x (Char.ofNat 47) = none) :
    splitparams x = (match splitFirst x (Char.ofNat 59) with
      | none => (x, [])
      | some (p, q) => (p, q)) := by
  unfold splitparams
  rw [hsl]

theorem splitparams_comp_sl {x bef last : Str}
    (hsl : splitLastChar x (Char.ofNat 47) = some (bef, last)) :
    splitparams x = (match splitFirst last (Char.ofNat 59) with
      | none => (x, [])
      | some (p, q) => (bef ++ [Char.ofNat 47] ++ p, q)) := by
  unfold splitparams
  rw [hsl]

theorem paramsRejoin_prefix (sc x : Str) :
    paramsRejoin sc x = x ∨ x = paramsRejoin sc x ++ [Char.ofNat 59] := by
  by_cases hc : uses_params.contains sc ∧ x.contains (Char.ofNat 59)
  · rcases hsp : splitparams x with ⟨a, b⟩
    have hg : paramsRejoin sc x
        = if b ≠ [] then a ++ Char.ofNat 59 :: b else a := by
      unfold paramsRejoin
      rw [if_pos hc, hsp]
    rcases splitparams_spec hsp with ⟨h1, h2⟩
    by_cases hb : b = []
    · subst hb
      have hga : paramsRejoin sc x = a := by
        rw [hg]
        simp
      rcases h2 rfl with ha | ⟨hxa, _⟩
      · exact Or.inl (hga.trans ha)
      · exact Or.inr (by rw [hga, ← hxa])
    · exact Or.inl (by rw [hg, if_pos hb, ← h1 hb])
  · exact Or.inl (by unfold paramsRejoin; rw [if_neg hc])

theorem paramsRejoin_slash (sc z : Str) (h : paramsRejoin sc z = z) :
    paramsRejoin sc (Char.ofNat 47 :: z) = Char.ofNat 47 :: z := by
  by_cases hc : uses_params.contains sc ∧
      (Char.ofNat 47 :: z).contains (Char.ofNat 59)
  · have hzc : z.contains (Char.ofNat 59) = true := by
      rcases hc with ⟨_, hc2⟩
      simpa using hc2
    have hcz : uses_params.contains sc ∧ z.contains (Char.ofNat 59) :=
      ⟨hc.1, hzc⟩
    have h2g : paramsRejoin sc z = (match splitparams z with
        | (a, b) => if b ≠ [] then a ++ Char.ofNat 59 :: b else a) := by
      unfold paramsRejoin
      rw [if_pos hcz]
    have hgz : (match splitparams z with
        | (a, b) => if b ≠ [] then a ++ Char.ofNat 59 :: b else a) = z := by
      rw [← h2g, h]
    rcases hsl : splitLastChar z (Char.ofNat 47) with _ | ⟨bef, last⟩
    · have h47 : Char.ofNat 47 ∉ z := splitLastChar_eq_none hsl
      have hsl2 : splitLastChar (Char.ofNat 47 :: z) (Char.ofNat 47)
          = some ([], z) := by
        have := splitLastChar_append (a := ([] : Str)) h47
        simpa using this
      rcases hsf : splitFirst z (Char.ofNat 59) with _ | ⟨a1, b1⟩
      · have e2 : splitparams (Char.ofNat 47 :: z)
            = (Char.ofNat 47 :: z, []) := by
          rw [splitparams_comp_sl hsl2, hsf]
        unfold paramsRejoin
        rw [if_pos hc, e2]
        show (if ([] : Str) ≠ [] then _ else Char.ofNat 47 :: z) = _
        simp
      · have e1 : splitparams z = (a1, b1) := by
          rw [splitparams_comp_nosl hsl, hsf]
        have e2 : splitparams (Char.ofNat 47 :: z)
            = (Char.ofNat 47 :: a1, b1) := by
          rw [splitparams_comp_sl hsl2, hsf]
          simp
        rw [e1] at hgz
        have hgz2 : (if b1 ≠ [] then a1 ++ Char.ofNat 59 :: b1 else a1)
            = z := hgz
        unfold paramsRejoin
        rw [if_pos hc, e2]
        show (if b1 ≠ [] then (Char.ofNat 47 :: a1) ++ Char.ofNat 59 :: b1
          else Char.ofNat 47 :: a1) = Char.ofNat 47 :: z
        by_cases hb : b1 = []
        · rw [if_neg (by simp [hb])]
          have ha1 : a1 = z := by
            rw [← hgz2, if_neg (by simp [hb])]
          rw [ha1]
        · rw [if_pos hb]
          have ha1 : a1 ++ Char.ofNat 59 :: b1 = z := by
            rw [← hgz2, if_pos hb]
          rw [← ha1]
          rfl
    · rcases splitLastChar_eq_some hsl with ⟨hz, h47last⟩
      have hsl2 : splitLastChar (Char.ofNat 47 :: z) (Char.ofNat 47)
          = some (Char.ofNat 47 :: bef, last) := by
        have := splitLastChar_append (a := Char.ofNat 47 :: bef) h47last
        rw [hz]
        simpa using this
      rcases hsf : splitFirst last (Char.ofNat 59) with _ | ⟨a1, b1⟩
      · have e2 : splitparams (Char.ofNat 47 :: z)
            = (Char.ofNat 47 :: z, []) := by
          rw [splitparams_comp_sl hsl2, hsf]
        unfold paramsRejoin
        rw [if_pos hc, e2]
        show (if ([] : Str) ≠ [] then _ else Char.ofNat 47 :: z) = _
        simp
      · have e1 : splitparams z = (bef ++ [Char.ofNat 47] ++ a1, b1) := by
          rw [splitparams_comp_sl hsl, hsf]
        have e2 : splitparams (Char.ofNat 47 :: z)
            = (Char.ofNat 47 :: (bef ++ [Char.ofNat 47] ++ a1), b1) := by
          rw [splitparams_comp_sl hsl2, hsf]
          simp
        rw [e1] at hgz
        have hgz2 : (if b1 ≠ [] then
            (bef ++ [Char.ofNat 47] ++ a1) ++ Char.ofNat 59 :: b1
          else bef ++ [Char.ofNat 47] ++ a1) = z := hgz
        unfold paramsRejoin
        rw [if_pos hc, e2]
        show (if b1 ≠ [] then
            (Char.ofNat 47 :: (bef ++ [Char.ofNat 47] ++ a1))
              ++ Char.ofNat 59 :: b1
          else Char.ofNat 47 :: (bef ++ [Char.ofNat 47] ++ a1))
          = Char.ofNat 47 :: z
        by_cases hb : b1 = []
        · rw [if_neg (by simp [hb])]
          have ha1 : bef ++ [Char.ofNat 47] ++ a1 = z := by
            rw [← hgz2, if_neg (by simp [hb])]
          rw [ha1]
        · rw [if_pos hb]
          have ha1 : (bef ++ [Char.ofNat 47] ++ a1) ++ Char.ofNat 59 :: b1
              = z := by
            rw [← hgz2, if_pos hb]
          rw [← ha1]
          rfl
  · unfold paramsRejoin
    rw [if_neg hc]

theorem schemeSplit_of_not_like {o : Str} (d : Str)
    (h : schemeLikePre o = false) : schemeSplit o d = (d, o) := by
  unfold schemeSplit
  unfold schemeLikePre at h
  rcases hsp : splitFirst o (Char.ofNat 58) with _ | ⟨pre, rest⟩
  · rfl
  · have h' : (!pre.isEmpty && isAsciiAlpha (pre.headD (Char.ofNat 0)) &&
        pre.all isSchemeChar) = false := by
      rw [hsp] at h
      exact h
    show (if (!pre.isEmpty && isAsciiAlpha (pre.headD (Char.ofNat 0)) &&
        pre.all isSchemeChar) = true then (pyLower pre, rest) else (d, o))
      = (d, o)
    rw [if_neg (by rw [h']; simp)]

theorem schemeSplit_detect {sc : Str} (rest d : Str) (hne : sc ≠ [])
    (hhead : isAsciiAlpha (sc.headD (Char.ofNat 0)) = true)
    (hall : sc.all isSchemeChar = true) :
    schemeSplit (sc ++ Char.ofNat 58 :: rest) d = (pyLower sc, rest) := by
  have h58 : Char.ofNat 58 ∉ sc := by
    intro hm
    rw [List.all_eq_true] at hall
    exact absurd (hall _ hm) (by decide)
  unfold schemeSplit
  rw [splitFirst_append h58]
  show (if (!sc.isEmpty && isAsciiAlpha (sc.headD (Char.ofNat 0)) &&
      sc.all isSchemeChar) = true then (pyLower sc, rest)
    else (d, sc ++ Char.ofNat 58 :: rest)) = (pyLower sc, rest)
  have hemp : sc.isEmpty = false := by
    cases sc
    · exact absurd rfl hne
    · rfl
  rw [if_pos (by rw [hemp, hhead, hall]; rfl)]

theorem schemeLikePre_slash (t : Str) :
    schemeLikePre (Char.ofNat 47 :: t) = false := by
  unfold schemeLikePre
  have h47 : ¬ (Char.ofNat 47 = Char.ofNat 58) := by decide
  rcases hsp : splitFirst t (Char.ofNat 58) with _ | ⟨a, b⟩
  · have he : splitFirst (Char.ofNat 47 :: t) (Char.ofNat 58) = none := by
      unfold splitFirst
      rw [if_neg h47, hsp]
    rw [he]
  · have he : splitFirst (Char.ofNat 47 :: t) (Char.ofNat 58)
        = some (Char.ofNat 47 :: a, b) := by
      unfold splitFirst
      rw [if_neg h47, hsp]
    rw [he]
    show (!(Char.ofNat 47 :: a).isEmpty &&
      isAsciiAlpha ((Char.ofNat 47 :: a).headD (Char.ofNat 0)) &&
      (Char.ofNat 47 :: a).all isSchemeChar) = false
    simp [isAsciiAlpha]

theorem splitFirst_append_left {xs : Str} {c : Char} {pre r : Str} (t : Str)
    (h : splitFirst xs c = some (pre, r)) :
    splitFirst (xs ++ t) c = some (pre, r ++ t) := by
  induction xs generalizing pre with
  | nil => simp [splitFirst] at h
  | cons x xs2 ih =>
    by_cases hx : x = c
    · simp only [splitFirst, if_pos hx] at h
      injection h with h
      injection h with h1 h2
      subst h1
      subst h2
      show splitFirst (x :: (xs2 ++ t)) c = _
      unfold splitFirst
      rw [if_pos hx]
    · simp only [splitFirst, if_neg hx] at h
      rcases hsp : splitFirst xs2 c with _ | ⟨a1, b1⟩
      · rw [hsp] at h
        simp at h
      · rw [hsp] at h
        have h2 : (some (x :: a1, b1) : Option (Str × Str)) = some (pre, r) := h
        injection h2 with h2
        injection h2 with h2a h2b
        subst h2a
        subst h2b
        show splitFirst (x :: (xs2 ++ t)) c = _
        unfold splitFirst
        rw [if_neg hx, ih hsp]

theorem schemeLikePre_append {pp : Str} {d : Char} (t : Str)
    (h : schemeLikePre pp = false)
    (hd : d.toNat = 63 ∨ d.toNat = 35) :
    schemeLikePre (pp ++ d :: t) = false := by
  have hd58 : d ≠ Char.ofNat 58 := by
    intro he
    rcases hd with h1 | h1 <;> rw [he] at h1 <;> exact absurd h1 (by decide)
  have hdsch : isSchemeChar d = false := by
    rcases hd with h1 | h1 <;>
      · simp [isSchemeChar, isAsciiAlpha, isAsciiDigit]
        omega
  unfold schemeLikePre at h ⊢
  rcases hsp : splitFirst pp (Char.ofNat 58) with _ | ⟨pre, r⟩
  · have h58 : Char.ofNat 58 ∉ pp := splitFirst_eq_none hsp
    rcases hsp2 : splitFirst (pp ++ d :: t) (Char.ofNat 58) with _ | ⟨pre2, r2⟩
    · rfl
    · rcases splitFirst_eq_some hsp2 with ⟨he, _⟩
      have hdpre : d ∈ pre2 := by
        rcases List.append_eq_append_iff.mp he with
          ⟨a9, ha1, ha2⟩ | ⟨c9, hc1, hc2⟩
        · cases a9 with
          | nil =>
            exfalso
            have h2 : d :: t = Char.ofNat 58 :: r2 := by simpa using ha2
            injection h2 with h2a _
            exact hd58 h2a
          | cons a0 a9t =>
            have h2 : d :: t = a0 :: (a9t ++ Char.ofNat 58 :: r2) := by
              simpa using ha2
            injection h2 with h2a _
            rw [ha1, ← h2a]
            exact List.mem_append_right _ (List.mem_cons_self _ _)
        · exfalso
          cases c9 with
          | nil =>
            have h2 : Char.ofNat 58 :: r2 = d :: t := by simpa using hc2
            injection h2 with h2a _
            exact hd58 h2a.symm
          | cons c0 c9t =>
            have h2 : Char.ofNat 58 :: r2 = c0 :: (c9t ++ d :: t) := by
              simpa using hc2
            injection h2 with h2a _
            apply h58
            rw [hc1, ← h2a]
            exact List.mem_append_right _ (List.mem_cons_self _ _)
      have hall : pre2.all isSchemeChar = false := by
        rw [List.all_eq_false]
        exact ⟨d, hdpre, by simp [hdsch]⟩
      show (!pre2.isEmpty && isAsciiAlpha (pre2.headD (Char.ofNat 0)) &&
        pre2.all isSchemeChar) = false
      rw [hall]
      simp
  · rw [hsp] at h
    rw [splitFirst_append_left (d :: t) hsp]
    exact h

theorem removeUnsafe_append (a b : Str) :
    removeUnsafe (a ++ b) = removeUnsafe a ++ removeUnsafe b :=
  List.filter_append a b

theorem removeUnsafe_eq_self {s : Str}
    (h : ∀ c ∈ s, c.toNat ≠ 9 ∧ c.toNat ≠ 10 ∧ c.toNat ≠ 13) :
    removeUnsafe s = s := by
  apply List.filter_eq_self.mpr
  intro c hc
  rcases h c hc with ⟨h9, h10, h13⟩
  simp only [Bool.not_eq_eq_eq_not, Bool.not_true, Bool.or_eq_false_iff,
    beq_eq_false_iff_ne, ne_eq]
  exact ⟨⟨h9, h13⟩, h10⟩

theorem lstripC0_eq_self {s : Str}
    (h : s = [] ∨ 32 < (s.headD (Char.ofNat 0)).toNat) :
    lstripC0 s = s := by
  rcases h with h | h
  · subst h
    rfl
  · cases s with
    | nil => rfl
    | cons c cs =>
      unfold lstripC0
      rw [List.dropWhile_cons, if_neg (by simp at h ⊢; omega)]

theorem pyUrlsplit_comp' {url0 sc rest nl rest2 rest3 fr pa q : Str}
    (h1 : schemeSplit (removeUnsafe (lstripC0 url0)) [] = (sc, rest))
    (h2 : (if startsWithStr rest (strL "//") = true then
        takeUntilAny (rest.drop 2)
          [Char.ofNat 47, Char.ofNat 63, Char.ofNat 35]
      else ([], rest)) = (nl, rest2))
    (h3 : splitFirst rest2 (Char.ofNat 35) = some (rest3, fr) ∨
          (splitFirst rest2 (Char.ofNat 35) = none ∧ rest3 = rest2 ∧ fr = []))
    (h4 : splitFirst rest3 (Char.ofNat 63) = some (pa, q) ∨
          (splitFirst rest3 (Char.ofNat 63) = none ∧ pa = rest3 ∧ q = [])) :
    pyUrlsplit url0 [] = ⟨sc, nl, pa, q, fr⟩ := by
  have hd0 : removeUnsafe (stripC0 []) = ([] : Str) := rfl
  by_cases hsw : startsWithStr rest (strL "//") = true
  · rw [if_pos hsw] at h2
    rcases h3 with h3 | ⟨h3, hr3, hfr⟩
    · rcases h4 with h4 | ⟨h4, hpa, hq⟩
      · simp only [pyUrlsplit, hd0, h1, hsw, if_true, h2, h3, h4]
      · subst hpa
        subst hq
        simp only [pyUrlsplit, hd0, h1, hsw, if_true, h2, h3, h4]
    · subst hr3
      subst hfr
      rcases h4 with h4 | ⟨h4, hpa, hq⟩
      · simp only [pyUrlsplit, hd0, h1, hsw, if_true, h2, h3, h4]
      · subst hpa
        subst hq
        simp only [pyUrlsplit, hd0, h1, hsw, if_true, h2, h3, h4]
  · rw [if_neg hsw] at h2
    have hsw' : startsWithStr rest (strL "//") = false :=
      Bool.eq_false_iff.mpr hsw
    injection h2 with h2a h2b
    subst h2a
    subst h2b
    rcases h3 with h3 | ⟨h3, hr3, hfr⟩
    · rcases h4 with h4 | ⟨h4, hpa, hq⟩
      · simp only [pyUrlsplit, hd0, h1, hsw', if_false, h3, h4,
          Bool.false_eq_true]
      · subst hpa
        subst hq
        simp only [pyUrlsplit, hd0, h1, hsw', if_false, h3, h4,
          Bool.false_eq_true]
    · subst hr3
      subst hfr
      rcases h4 with h4 | ⟨h4, hpa, hq⟩
      · simp only [pyUrlsplit, hd0, h1, hsw', if_false, h3, h4,
          Bool.false_eq_true]
      · subst hpa
        subst hq
        simp only [pyUrlsplit, hd0, h1, hsw', if_false, h3, h4,
          Bool.false_eq_true]

theorem pyUrlsplit_comp {url0 sc rest nl rest2 rest3 fr pa q : Str}
    (h0 : removeUnsafe (lstripC0 url0) = url0)
    (h1 : schemeSplit url0 [] = (sc, rest))
    (h2 : (if startsWithStr rest (strL "//") = true then
        takeUntilAny (rest.drop 2)
          [Char.ofNat 47, Char.ofNat 63, Char.ofNat 35]
      else ([], rest)) = (nl, rest2))
    (h3 : splitFirst rest2 (Char.ofNat 35) = some (rest3, fr) ∨
          (splitFirst rest2 (Char.ofNat 35) = none ∧ rest3 = rest2 ∧ fr = []))
    (h4 : splitFirst rest3 (Char.ofNat 63) = some (pa, q) ∨
          (splitFirst rest3 (Char.ofNat 63) = none ∧ pa = rest3 ∧ q = [])) :
    pyUrlsplit url0 [] = ⟨sc, nl, pa, q, fr⟩ := by
  refine pyUrlsplit_comp' ?_ h2 h3 h4
  rw [h0]
  exact h1

theorem pyUrlsplit_dissect (u : Str) :
    ∃ sc1 rest nl1 rest2 rest3 fr1 pa1 Q1,
      pyUrlsplit u [] = ⟨sc1, nl1, pa1, Q1, fr1⟩ ∧
      schemeSplit (removeUnsafe (lstripC0 u)) [] = (sc1, rest) ∧
      ((startsWithStr rest (strL "//") = true ∧
        takeUntilAny (rest.drop 2) [Char.ofNat 47, Char.ofNat 63,
          Char.ofNat 35] = (nl1, rest2)) ∨
       (startsWithStr rest (strL "//") = false ∧ nl1 = [] ∧ rest2 = rest)) ∧
      (splitFirst rest2 (Char.ofNat 35) = some (rest3, fr1) ∨
        (splitFirst rest2 (Char.ofNat 35) = none ∧ rest3 = rest2 ∧
          fr1 = [])) ∧
      (splitFirst rest3 (Char.ofNat 63) = some (pa1, Q1) ∨
        (splitFirst rest3 (Char.ofNat 63) = none ∧ pa1 = rest3 ∧
          Q1 = [])) := by
  rcases hss : schemeSplit (removeUnsafe (lstripC0 u)) [] with ⟨sc1, rest⟩
  by_cases hsw : startsWithStr rest (strL "//") = true
  · rcases htk : takeUntilAny (rest.drop 2)
        [Char.ofNat 47, Char.ofNat 63, Char.ofNat 35] with ⟨nl1, rest2⟩
    rcases hf : splitFirst rest2 (Char.ofNat 35) with _ | ⟨rest3, fr1⟩
    · rcases hq : splitFirst rest2 (Char.ofNat 63) with _ | ⟨pa1, Q1⟩
      · exact ⟨sc1, rest, nl1, rest2, rest2, [], rest2, [],
          pyUrlsplit_comp' hss (by rw [if_pos hsw]; exact htk)
            (Or.inr ⟨hf, rfl, rfl⟩) (Or.inr ⟨hq, rfl, rfl⟩),
          rfl, Or.inl ⟨hsw, htk⟩, Or.inr ⟨hf, rfl, rfl⟩,
          Or.inr ⟨hq, rfl, rfl⟩⟩
      · exact ⟨sc1, rest, nl1, rest2, rest2, [], pa1, Q1,
          pyUrlsplit_comp' hss (by rw [if_pos hsw]; exact htk)
            (Or.inr ⟨hf, rfl, rfl⟩) (Or.inl hq),
          rfl, Or.inl ⟨hsw, htk⟩, Or.inr ⟨hf, rfl, rfl⟩, Or.inl hq⟩
    · rcases hq : splitFirst rest3 (Char.ofNat 63) with _ | ⟨pa1, Q1⟩
      · exact ⟨sc1, rest, nl1, rest2, rest3, fr1, rest3, [],
          pyUrlsplit_comp' hss (by rw [if_pos hsw]; exact htk)
            (Or.inl hf) (Or.inr ⟨hq, rfl, rfl⟩),
          rfl, Or.inl ⟨hsw, htk⟩, Or.inl hf, Or.inr ⟨hq, rfl, rfl⟩⟩
      · exact ⟨sc1, rest, nl1, rest2, rest3, fr1, pa1, Q1,
          pyUrlsplit_comp' hss (by rw [if_pos hsw]; exact htk)
            (Or.inl hf) (Or.inl hq),
          rfl, Or.inl ⟨hsw, htk⟩, Or.inl hf, Or.inl hq⟩
  · have hsw' : startsWithStr rest (strL "//") = false :=
      Bool.eq_false_iff.mpr hsw
    rcases hf : splitFirst rest (Char.ofNat 35) with _ | ⟨rest3, fr1⟩
    · rcases hq : splitFirst rest (Char.ofNat 63) with _ | ⟨pa1, Q1⟩
      · exact ⟨sc1, rest, [], rest, rest, [], rest, [],
          pyUrlsplit_comp' hss (by rw [if_neg hsw])
            (Or.inr ⟨hf, rfl, rfl⟩) (Or.inr ⟨hq, rfl, rfl⟩),
          rfl, Or.inr ⟨hsw', rfl, rfl⟩, Or.inr ⟨hf, rfl, rfl⟩,
          Or.inr ⟨hq, rfl, rfl⟩⟩
      · exact ⟨sc1, rest, [], rest, rest, [], pa1, Q1,
          pyUrlsplit_comp' hss (by rw [if_neg hsw])
            (Or.inr ⟨hf, rfl, rfl⟩) (Or.inl hq),
          rfl, Or.inr ⟨hsw', rfl, rfl⟩, Or.inr ⟨hf, rfl, rfl⟩, Or.inl hq⟩
    · rcases hq : splitFirst rest3 (Char.ofNat 63) with _ | ⟨pa1, Q1⟩
      · exact ⟨sc1, rest, [], rest, rest3, fr1, rest3, [],
          pyUrlsplit_comp' hss (by rw [if_neg hsw])
            (Or.inl hf) (Or.inr ⟨hq, rfl, rfl⟩),
          rfl, Or.inr ⟨hsw', rfl, rfl⟩, Or.inl hf, Or.inr ⟨hq, rfl, rfl⟩⟩
      · exact ⟨sc1, rest, [], rest, rest3, fr1, pa1, Q1,
          pyUrlsplit_comp' hss (by rw [if_neg hsw])
            (Or.inl hf) (Or.inl hq),
          rfl, Or.inr ⟨hsw', rfl, rfl⟩, Or.inl hf, Or.inl hq⟩

theorem unsplit_shape (sc nl pp q fr : Str) :
    pyUrlunsplit sc nl pp q fr
      = (if sc ≠ [] then sc ++ [Char.ofNat 58] else [])
        ++ (if nl ≠ [] ∨ (sc ≠ [] ∧ uses_netloc.contains sc ∧
              ¬ startsWithStr pp (strL "//")) then
            strL "//" ++ nl ++ (if pp ≠ [] ∧ ¬ startsWithStr pp (strL "/")
              then Char.ofNat 47 :: pp else pp)
          else pp)
        ++ (if q ≠ [] then Char.ofNat 63 :: q else [])
        ++ (if fr ≠ [] then Char.ofNat 35 :: fr else []) := by
  unfold pyUrlunsplit
  split_ifs <;> simp

theorem pyUrlunsplit_clean (sc nl pp q fr : Str)
    (hsc : removeUnsafe sc = sc) (hnl : removeUnsafe nl = nl)
    (hpp : removeUnsafe pp = pp) (hq : removeUnsafe q = q)
    (hfr : removeUnsafe fr = fr) :
    removeUnsafe (pyUrlunsplit sc nl pp q fr)
      = pyUrlunsplit sc nl pp q fr := by
  have h58 : removeUnsafe [Char.ofNat 58] = [Char.ofNat 58] := by decide
  have h63 : removeUnsafe [Char.ofNat 63] = [Char.ofNat 63] := by decide
  have h35 : removeUnsafe [Char.ofNat 35] = [Char.ofNat 35] := by decide
  have hsl : removeUnsafe (strL "//") = strL "//" := by decide
  have h47 : removeUnsafe (Char.ofNat 47 :: pp) = Char.ofNat 47 :: pp := by
    show List.filter _ (Char.ofNat 47 :: pp) = _
    rw [List.filter_cons_of_pos (by decide)]
    show Char.ofNat 47 :: removeUnsafe pp = _
    rw [hpp]
  unfold pyUrlunsplit
  split_ifs <;>
    simp only [removeUnsafe_append, hsc, hnl, hpp, hq, hfr, h58, h63, h35,
      hsl, h47]

theorem lstripC0_cons_of {c : Char} (t : Str) (h : 32 < c.toNat) :
    lstripC0 (c :: t) = c :: t := by
  unfold lstripC0
  rw [List.dropWhile_cons, if_neg (by simp; omega)]

theorem strL_slash2 : strL "//" = [Char.ofNat 47, Char.ofNat 47] := by decide

theorem strL_slash1 : strL "/" = [Char.ofNat 47] := by decide

theorem startsWithStr_nilr (t : Str) : startsWithStr t [] = true := by
  cases t <;> rfl

theorem startsWith_slash2 (t : Str) :
    startsWithStr (Char.ofNat 47 :: Char.ofNat 47 :: t) (strL "//")
      = true := by
  rw [strL_slash2]
  show ((Char.ofNat 47 == Char.ofNat 47) &&
    ((Char.ofNat 47 == Char.ofNat 47) && startsWithStr t [])) = true
  rw [startsWithStr_nilr]
  decide

theorem startsWith2_cons47 (pp : Str) :
    startsWithStr (Char.ofNat 47 :: pp) (strL "//")
      = startsWithStr pp (strL "/") := by
  rw [strL_slash2, strL_slash1]
  show ((Char.ofNat 47 == Char.ofNat 47) &&
    startsWithStr pp [Char.ofNat 47]) = startsWithStr pp [Char.ofNat 47]
  simp

theorem startsWith2_append {pp tail : Str}
    (h : startsWithStr pp (strL "//") = false)
    (htail : ∀ hd, tail.head? = some hd → hd.toNat = 63 ∨ hd.toNat = 35) :
    startsWithStr (pp ++ tail) (strL "//") = false := by
  have hne47 : ∀ d : Char, d.toNat = 63 ∨ d.toNat = 35 →
      (d == Char.ofNat 47) = false := by
    intro d hd
    rw [beq_eq_false_iff_ne]
    intro he
    rcases hd with h1 | h1 <;> rw [he] at h1 <;> exact absurd h1 (by decide)
  rw [strL_slash2] at h ⊢
  cases pp with
  | nil =>
    rw [List.nil_append]
    cases tail with
    | nil => rfl
    | cons d t2 =>
      have hd := hne47 d (htail d rfl)
      show ((d == Char.ofNat 47) &&
        startsWithStr t2 [Char.ofNat 47]) = false
      rw [hd]
      rfl
  | cons c cs =>
    cases cs with
    | nil =>
      show ((c == Char.ofNat 47) &&
        startsWithStr tail [Char.ofNat 47]) = false
      have htt : startsWithStr tail [Char.ofNat 47] = false := by
        cases tail with
        | nil => rfl
        | cons d t2 =>
          have hd := hne47 d (htail d rfl)
          show ((d == Char.ofNat 47) && startsWithStr t2 []) = false
          rw [hd]
          rfl
      rw [htt, Bool.and_false]
    | cons c2 cs2 =>
      show ((c == Char.ofNat 47) &&
        ((c2 == Char.ofNat 47) && startsWithStr (cs2 ++ tail) [])) = false
      have h' : ((c == Char.ofNat 47) &&
          ((c2 == Char.ofNat 47) && startsWithStr cs2 [])) = false := h
      rw [startsWithStr_nilr] at h' ⊢
      exact h'

theorem qf_head (q fr : Str) :
    ∀ hd, ((if q ≠ [] then Char.ofNat 63 :: q else [])
      ++ (if fr ≠ [] then Char.ofNat 35 :: fr else [])).head? = some hd →
      hd.toNat = 63 ∨ hd.toNat = 35 := by
  intro hd hhd
  by_cases hq : q = []
  · rw [if_neg (by simp [hq]), List.nil_append] at hhd
    by_cases hfr : fr = []
    · rw [if_neg (by simp [hfr])] at hhd
      simp at hhd
    · rw [if_pos hfr] at hhd
      simp only [List.head?_cons, Option.some.injEq] at hhd
      subst hhd
      right
      decide
  · rw [if_pos hq] at hhd
    simp only [List.cons_append, List.head?_cons, Option.some.injEq] at hhd
    subst hhd
    left
    decide

theorem split35_or (X fr : Str) (hX : Char.ofNat 35 ∉ X) :
    splitFirst (X ++ (if fr ≠ [] then Char.ofNat 35 :: fr else []))
        (Char.ofNat 35) = some (X, fr) ∨
      (splitFirst (X ++ (if fr ≠ [] then Char.ofNat 35 :: fr else []))
        (Char.ofNat 35) = none ∧
        X = X ++ (if fr ≠ [] then Char.ofNat 35 :: fr else []) ∧ fr = []) := by
  by_cases hfr : fr = []
  · right
    rw [if_neg (by simp [hfr])]
    refine ⟨?_, by simp, hfr⟩
    rw [List.append_nil]
    exact splitFirst_of_not_mem hX
  · left
    rw [if_pos hfr]
    exact splitFirst_append hX

theorem split63_or (X q : Str) (hX : Char.ofNat 63 ∉ X) :
    splitFirst (X ++ (if q ≠ [] then Char.ofNat 63 :: q else []))
        (Char.ofNat 63) = some (X, q) ∨
      (splitFirst (X ++ (if q ≠ [] then Char.ofNat 63 :: q else []))
        (Char.ofNat 63) = none ∧
        X = X ++ (if q ≠ [] then Char.ofNat 63 :: q else []) ∧ q = []) := by
  by_cases hq : q = []
  · right
    rw [if_neg (by simp [hq])]
    refine ⟨?_, by simp, hq⟩
    rw [List.append_nil]
    exact splitFirst_of_not_mem hX
  · left
    rw [if_pos hq]
    exact splitFirst_append hX

theorem char_toNat_inj {c d : Char} (h : c.toNat = d.toNat) : c = d := by
  have h2 : c.val = d.val := by
    have h3 : c.val.toNat = d.val.toNat := h
    exact UInt32.toNat.inj h3
  exact Char.ext h2

theorem isSchemeChar_range {c : Char} (h : isSchemeChar c = true) :
    32 < c.toNat ∧ c.toNat < 128 ∧ c.toNat ≠ 58 ∧ c.toNat ≠ 9 ∧
      c.toNat ≠ 10 ∧ c.toNat ≠ 13 ∧ c.toNat ≠ 63 ∧ c.toNat ≠ 35 ∧
      c.toNat ≠ 47 := by
  unfold isSchemeChar isAsciiAlpha isAsciiDigit at h
  simp only [Bool.or_eq_true, Bool.and_eq_true, decide_eq_true_eq,
    beq_iff_eq] at h
  rcases h with ((((⟨h1, h2⟩ | ⟨h1, h2⟩) | ⟨h1, h2⟩) | h1) | h1) | h1 <;>
    exact ⟨by omega, by omega, by omega, by omega, by omega, by omega,
      by omega, by omega, by omega⟩

theorem isAsciiAlpha_gt32 {c : Char} (h : isAsciiAlpha c = true) :
    32 < c.toNat := by
  unfold isAsciiAlpha at h
  simp only [Bool.or_eq_true, Bool.and_eq_true, decide_eq_true_eq] at h
  rcases h with ⟨h1, _⟩ | ⟨h1, _⟩ <;> omega

theorem unsplit_resplit (sc nl pp q fr : Str)
    (Hsc : sc = [] ∨ (sc ≠ [] ∧ isAsciiAlpha (sc.headD (Char.ofNat 0)) = true ∧
      sc.all isSchemeChar = true ∧ pyLower sc = sc))
    (Hnl : ∀ c ∈ nl, c.toNat ≠ 47 ∧ c.toNat ≠ 63 ∧ c.toNat ≠ 35 ∧
      c.toNat ≠ 9 ∧ c.toNat ≠ 10 ∧ c.toNat ≠ 13)
    (Hpp : ∀ c ∈ pp, c.toNat ≠ 63 ∧ c.toNat ≠ 35 ∧ c.toNat ≠ 9 ∧
      c.toNat ≠ 10 ∧ c.toNat ≠ 13)
    (Hq : ∀ c ∈ q, c.toNat ≠ 35 ∧ c.toNat ≠ 9 ∧ c.toNat ≠ 10 ∧ c.toNat ≠ 13)
    (Hfr : ∀ c ∈ fr, c.toNat ≠ 9 ∧ c.toNat ≠ 10 ∧ c.toNat ≠ 13)
    (HschemeFail : sc = [] → schemeLikePre pp = false)
    (Hslash : nl = [] → startsWithStr pp (strL "//") = false)
    (Hhead : sc = [] → nl = [] →
      pp = [] ∨ 32 < (pp.headD (Char.ofNat 0)).toNat) :
    ∃ pp2, (pp2 = pp ∨ pp2 = Char.ofNat 47 :: pp) ∧
      pyUrlsplit (pyUrlunsplit sc nl pp q fr) [] = ⟨sc, nl, pp2, q, fr⟩ ∧
      pyUrlunsplit sc nl pp2 q fr = pyUrlunsplit sc nl pp q fr := by
  have hshape := unsplit_shape sc nl pp q fr
  have hscRU : removeUnsafe sc = sc := by
    rcases Hsc with h | ⟨hne, hhd, hall, hlow⟩
    · subst h
      rfl
    · refine removeUnsafe_eq_self (fun c hc => ?_)
      rw [List.all_eq_true] at hall
      rcases isSchemeChar_range (hall c hc) with ⟨_, _, _, h9, h10, h13, _⟩
      exact ⟨h9, h10, h13⟩
  have hnlRU : removeUnsafe nl = nl :=
    removeUnsafe_eq_self (fun c hc => ⟨(Hnl c hc).2.2.2.1,
      (Hnl c hc).2.2.2.2.1, (Hnl c hc).2.2.2.2.2⟩)
  have hppRU : removeUnsafe pp = pp :=
    removeUnsafe_eq_self (fun c hc => ⟨(Hpp c hc).2.2.1, (Hpp c hc).2.2.2.1,
      (Hpp c hc).2.2.2.2⟩)
  have hqRU : removeUnsafe q = q :=
    removeUnsafe_eq_self (fun c hc => ⟨(Hq c hc).2.1, (Hq c hc).2.2.1,
      (Hq c hc).2.2.2⟩)
  have hfrRU : removeUnsafe fr = fr := removeUnsafe_eq_self Hfr
  have hoRU : removeUnsafe (pyUrlunsplit sc nl pp q fr)
      = pyUrlunsplit sc nl pp q fr :=
    pyUrlunsplit_clean sc nl pp q fr hscRU hnlRU hppRU hqRU hfrRU
  have hpp63 : Char.ofNat 63 ∉ pp := fun hm => (Hpp _ hm).1 (by decide)
  have hpp35 : Char.ofNat 35 ∉ pp := fun hm => (Hpp _ hm).2.1 (by decide)
  have hq35 : Char.ofNat 35 ∉ q := fun hm => (Hq _ hm).1 (by decide)
  have hnlfree : ∀ x ∈ nl,
      ([Char.ofNat 47, Char.ofNat 63, Char.ofNat 35] : List Char).contains x
        = false := by
    intro x hx
    rcases Hnl x hx with ⟨a47, a63, a35, _⟩
    have hnm : ¬ x ∈ ([Char.ofNat 47, Char.ofNat 63, Char.ofNat 35]
        : List Char) := by
      intro hm
      simp only [List.mem_cons, List.not_mem_nil, or_false] at hm
      rcases hm with rfl | rfl | rfl
      · exact a47 (by decide)
      · exact a63 (by decide)
      · exact a35 (by decide)
    simpa using hnm
  have hq35' : Char.ofNat 35 ∉ (if q ≠ [] then Char.ofNat 63 :: q
      else []) := by
    by_cases hq0 : q = []
    · rw [if_neg (by simp [hq0])]
      simp
    · rw [if_pos hq0]
      intro hm
      rcases List.mem_cons.mp hm with he | hm2
      · exact absurd he (by decide)
      · exact hq35 hm2
  by_cases hC : nl ≠ [] ∨ (sc ≠ [] ∧ uses_netloc.contains sc ∧
      ¬ startsWithStr pp (strL "//"))
  · -- netloc-rooted rendering
    obtain ⟨pp2, hor, hmid, hcons⟩ :
        ∃ pp2, (pp2 = pp ∨ pp2 = Char.ofNat 47 :: pp) ∧
          (if pp ≠ [] ∧ ¬ startsWithStr pp (strL "/") then
            Char.ofNat 47 :: pp else pp) = pp2 ∧
          (pp2 = [] ∨ ∃ t, pp2 = Char.ofNat 47 :: t) := by
      by_cases hpre : pp ≠ [] ∧ ¬ startsWithStr pp (strL "/")
      · exact ⟨Char.ofNat 47 :: pp, Or.inr rfl, if_pos hpre,
          Or.inr ⟨pp, rfl⟩⟩
      · refine ⟨pp, Or.inl rfl, if_neg hpre, ?_⟩
        by_cases h0 : pp = []
        · exact Or.inl h0
        · right
          have hst : startsWithStr pp (strL "/") = true := by
            by_contra hco
            exact hpre ⟨h0, hco⟩
          cases pp with
          | nil => exact absurd rfl h0
          | cons c cs =>
            rw [strL_slash1] at hst
            have hst2 : ((c == Char.ofNat 47) && startsWithStr cs [])
                = true := hst
            rw [startsWithStr_nilr, Bool.and_true] at hst2
            exact ⟨cs, by rw [beq_iff_eq.mp hst2]⟩
    have hpp2_35 : Char.ofNat 35 ∉ pp2 := by
      intro hm
      rcases hor with h | h
      · rw [h] at hm
        exact hpp35 hm
      · rw [h] at hm
        rcases List.mem_cons.mp hm with he | hm2
        · exact absurd he (by decide)
        · exact hpp35 hm2
    have hpp2_63 : Char.ofNat 63 ∉ pp2 := by
      intro hm
      rcases hor with h | h
      · rw [h] at hm
        exact hpp63 hm
      · rw [h] at hm
        rcases List.mem_cons.mp hm with he | hm2
        · exact absurd he (by decide)
        · exact hpp63 hm2
    have h35X : Char.ofNat 35 ∉ pp2 ++ (if q ≠ [] then Char.ofNat 63 :: q
        else []) := by
      intro hm
      rcases List.mem_append.mp hm with hm | hm
      · exact hpp2_35 hm
      · exact hq35' hm
    have hb : ∀ hd, ((pp2 ++ (if q ≠ [] then Char.ofNat 63 :: q else []))
        ++ (if fr ≠ [] then Char.ofNat 35 :: fr else [])).head? = some hd →
        ([Char.ofNat 47, Char.ofNat 63, Char.ofNat 35]
          : List Char).contains hd = true := by
      intro hd hhd
      rcases hcons with hnil | ⟨t, hppt⟩
      · rw [hnil, List.nil_append] at hhd
        rcases qf_head q fr hd hhd with h63 | h35
        · have he : hd = Char.ofNat 63 := char_toNat_inj (by rw [h63]; decide)
          rw [he]
          decide
        · have he : hd = Char.ofNat 35 := char_toNat_inj (by rw [h35]; decide)
          rw [he]
          decide
      · rw [hppt] at hhd
        simp only [List.cons_append, List.head?_cons,
          Option.some.injEq] at hhd
        rw [← hhd]
        decide
    have h2core : takeUntilAny (nl ++ ((pp2 ++ (if q ≠ [] then
        Char.ofNat 63 :: q else [])) ++ (if fr ≠ [] then
        Char.ofNat 35 :: fr else [])))
        [Char.ofNat 47, Char.ofNat 63, Char.ofNat 35]
        = (nl, (pp2 ++ (if q ≠ [] then Char.ofNat 63 :: q else []))
          ++ (if fr ≠ [] then Char.ofNat 35 :: fr else [])) :=
      takeUntilAny_append hnlfree hb
    have h3 := split35_or (pp2 ++ (if q ≠ [] then Char.ofNat 63 :: q
      else [])) fr h35X
    have h4 := split63_or pp2 q hpp2_63
    have hrender : pyUrlunsplit sc nl pp2 q fr
        = pyUrlunsplit sc nl pp q fr := by
      rw [unsplit_shape sc nl pp2 q fr, hshape]
      have hC2 : nl ≠ [] ∨ (sc ≠ [] ∧ uses_netloc.contains sc ∧
          ¬ startsWithStr pp2 (strL "//")) := by
        rcases hC with h | ⟨ha, hb', hc'⟩
        · exact Or.inl h
        · refine Or.inr ⟨ha, hb', ?_⟩
          rcases hor with h | h
          · rw [h]
            exact hc'
          · rw [h, startsWith2_cons47]
            intro hco
            by_cases hpre : pp ≠ [] ∧ ¬ startsWithStr pp (strL "/")
            · exact hpre.2 hco
            · rw [if_neg hpre] at hmid
              have hself : pp = Char.ofNat 47 :: pp := hmid.trans h
              exact absurd hself (by simp)
      rw [if_pos hC2, if_pos hC]
      have hpre2 : ¬ (pp2 ≠ [] ∧ ¬ startsWithStr pp2 (strL "/")) := by
        rintro ⟨hne2, hsw2⟩
        rcases hcons with hnil | ⟨t, hppt⟩
        · exact hne2 hnil
        · apply hsw2
          rw [hppt, strL_slash1]
          show ((Char.ofNat 47 == Char.ofNat 47) && startsWithStr t [])
            = true
          rw [startsWithStr_nilr]
          decide
      rw [if_neg hpre2, hmid]
    rcases Hsc with hsc0 | ⟨hscne, hschd, hscall, hsclow⟩
    · subst hsc0
      have ho2 : pyUrlunsplit [] nl pp q fr = Char.ofNat 47 :: Char.ofNat 47
          :: (nl ++ ((pp2 ++ (if q ≠ [] then Char.ofNat 63 :: q else []))
          ++ (if fr ≠ [] then Char.ofNat 35 :: fr else []))) := by
        rw [hshape, if_pos hC, hmid, if_neg (by simp), strL_slash2]
        simp
      have h1 : schemeSplit (pyUrlunsplit [] nl pp q fr) []
          = ([], Char.ofNat 47 :: Char.ofNat 47 :: (nl ++ ((pp2 ++
            (if q ≠ [] then Char.ofNat 63 :: q else []))
            ++ (if fr ≠ [] then Char.ofNat 35 :: fr else [])))) := by
        rw [ho2]
        exact schemeSplit_of_not_like _ (schemeLikePre_slash _)
      have h0 : removeUnsafe (lstripC0 (pyUrlunsplit [] nl pp q fr))
          = pyUrlunsplit [] nl pp q fr := by
        rw [ho2, lstripC0_cons_of _ (by decide), ← ho2]
        exact hoRU
      have h2 : (if startsWithStr (Char.ofNat 47 :: Char.ofNat 47 ::
            (nl ++ ((pp2 ++ (if q ≠ [] then Char.ofNat 63 :: q else []))
              ++ (if fr ≠ [] then Char.ofNat 35 :: fr else []))))
            (strL "//") = true then
          takeUntilAny ((Char.ofNat 47 :: Char.ofNat 47 ::
            (nl ++ ((pp2 ++ (if q ≠ [] then Char.ofNat 63 :: q else []))
              ++ (if fr ≠ [] then Char.ofNat 35 :: fr else [])))).drop 2)
            [Char.ofNat 47, Char.ofNat 63, Char.ofNat 35]
        else ([], Char.ofNat 47 :: Char.ofNat 47 ::
            (nl ++ ((pp2 ++ (if q ≠ [] then Char.ofNat 63 :: q else []))
              ++ (if fr ≠ [] then Char.ofNat 35 :: fr else [])))))
          = (nl, (pp2 ++ (if q ≠ [] then Char.ofNat 63 :: q else []))
            ++ (if fr ≠ [] then Char.ofNat 35 :: fr else [])) := by
        rw [if_pos (startsWith_slash2 _)]
        exact h2core
      exact ⟨pp2, hor, pyUrlsplit_comp h0 h1 h2 h3 h4, hrender⟩
    · obtain ⟨c0, cs0, hsc_cons⟩ : ∃ c0 cs0, sc = c0 :: cs0 := by
        cases sc with
        | nil => exact absurd rfl hscne
        | cons a b => exact ⟨a, b, rfl⟩
      have ho2 : pyUrlunsplit sc nl pp q fr = sc ++ Char.ofNat 58 ::
          (Char.ofNat 47 :: Char.ofNat 47 :: (nl ++ ((pp2 ++
            (if q ≠ [] then Char.ofNat 63 :: q else []))
          ++ (if fr ≠ [] then Char.ofNat 35 :: fr else [])))) := by
        rw [hshape, if_pos hC, hmid, if_pos hscne, strL_slash2]
        simp
      have h1 : schemeSplit (pyUrlunsplit sc nl pp q fr) []
          = (sc, Char.ofNat 47 :: Char.ofNat 47 :: (nl ++ ((pp2 ++
            (if q ≠ [] then Char.ofNat 63 :: q else []))
            ++ (if fr ≠ [] then Char.ofNat 35 :: fr else [])))) := by
        rw [ho2, schemeSplit_detect _ _ hscne hschd hscall, hsclow]
      have h0 : removeUnsafe (lstripC0 (pyUrlunsplit sc nl pp q fr))
          = pyUrlunsplit sc nl pp q fr := by
        have hc32 : 32 < c0.toNat := by
          have := isAsciiAlpha_gt32 hschd
          rw [hsc_cons] at this
          simpa using this
        have hocons : pyUrlunsplit sc nl pp q fr = c0 :: (cs0 ++
            Char.ofNat 58 :: (Char.ofNat 47 :: Char.ofNat 47 :: (nl ++
            ((pp2 ++ (if q ≠ [] then Char.ofNat 63 :: q else []))
            ++ (if fr ≠ [] then Char.ofNat 35 :: fr else []))))) := by
          rw [ho2, hsc_cons]
          simp
        rw [hocons, lstripC0_cons_of _ hc32, ← hocons]
        exact hoRU
      have h2 : (if startsWithStr (Char.ofNat 47 :: Char.ofNat 47 ::
            (nl ++ ((pp2 ++ (if q ≠ [] then Char.ofNat 63 :: q else []))
              ++ (if fr ≠ [] then Char.ofNat 35 :: fr else []))))
            (strL "//") = true then
          takeUntilAny ((Char.ofNat 47 :: Char.ofNat 47 ::
            (nl ++ ((pp2 ++ (if q ≠ [] then Char.ofNat 63 :: q else []))
              ++ (if fr ≠ [] then Char.ofNat 35 :: fr else [])))).drop 2)
            [Char.ofNat 47, Char.ofNat 63, Char.ofNat 35]
        else ([], Char.ofNat 47 :: Char.ofNat 47 ::
            (nl ++ ((pp2 ++ (if q ≠ [] then Char.ofNat 63 :: q else []))
              ++ (if fr ≠ [] then Char.ofNat 35 :: fr else [])))))
          = (nl, (pp2 ++ (if q ≠ [] then Char.ofNat 63 :: q else []))
            ++ (if fr ≠ [] then Char.ofNat 35 :: fr else [])) := by
        rw [if_pos (startsWith_slash2 _)]
        exact h2core
      exact ⟨pp2, hor, pyUrlsplit_comp h0 h1 h2 h3 h4, hrender⟩
  · -- plain-path rendering
    have hnl0 : nl = [] := by
      by_contra hco
      exact hC (Or.inl hco)
    subst hnl0
    have hswpp : startsWithStr pp (strL "//") = false := Hslash rfl
    have h35X : Char.ofNat 35 ∉ pp ++ (if q ≠ [] then Char.ofNat 63 :: q
        else []) := by
      intro hm
      rcases List.mem_append.mp hm with hm | hm
      · exact hpp35 hm
      · exact hq35' hm
    have h3 := split35_or (pp ++ (if q ≠ [] then Char.ofNat 63 :: q
      else [])) fr h35X
    have h4 := split63_or pp q hpp63
    have hswR : startsWithStr ((pp ++ (if q ≠ [] then Char.ofNat 63 :: q
        else [])) ++ (if fr ≠ [] then Char.ofNat 35 :: fr else []))
        (strL "//") = false := by
      rw [List.append_assoc]
      exact startsWith2_append hswpp (qf_head q fr)
    have hrender : pyUrlunsplit sc [] pp q fr = pyUrlunsplit sc [] pp q fr :=
      rfl
    rcases Hsc with hsc0 | ⟨hscne, hschd, hscall, hsclow⟩
    · subst hsc0
      have ho2 : pyUrlunsplit [] [] pp q fr = (pp ++ (if q ≠ [] then
          Char.ofNat 63 :: q else [])) ++ (if fr ≠ [] then
          Char.ofNat 35 :: fr else []) := by
        rw [hshape, if_neg hC, if_neg (by simp)]
        simp
      have hfail : schemeLikePre ((pp ++ (if q ≠ [] then Char.ofNat 63 :: q
          else [])) ++ (if fr ≠ [] then Char.ofNat 35 :: fr else []))
          = false := by
        by_cases hq0 : q = []
        · rw [if_neg (by simp [hq0]), List.append_nil]
          by_cases hfr0 : fr = []
          · rw [if_neg (by simp [hfr0]), List.append_nil]
            exact HschemeFail rfl
          · rw [if_pos hfr0]
            exact schemeLikePre_append _ (HschemeFail rfl) (Or.inr (by decide))
        · rw [if_pos hq0]
          have hre : (pp ++ Char.ofNat 63 :: q) ++ (if fr ≠ [] then
              Char.ofNat 35 :: fr else []) = pp ++ Char.ofNat 63 ::
              (q ++ (if fr ≠ [] then Char.ofNat 35 :: fr else [])) := by
            simp
          rw [hre]
          exact schemeLikePre_append _ (HschemeFail rfl) (Or.inl (by decide))
      have h1 : schemeSplit (pyUrlunsplit [] [] pp q fr) []
          = ([], (pp ++ (if q ≠ [] then Char.ofNat 63 :: q else []))
            ++ (if fr ≠ [] then Char.ofNat 35 :: fr else [])) := by
        rw [ho2]
        exact schemeSplit_of_not_like _ hfail
      have h0 : removeUnsafe (lstripC0 (pyUrlunsplit [] [] pp q fr))
          = pyUrlunsplit [] [] pp q fr := by
        have hlst : lstripC0 (pyUrlunsplit [] [] pp q fr)
            = pyUrlunsplit [] [] pp q fr := by
          rcases Hhead rfl rfl with hpp0 | hpphd
          · subst hpp0
            rw [ho2, List.nil_append]
            by_cases hq0 : q = []
            · rw [if_neg (by simp [hq0]), List.nil_append]
              by_cases hfr0 : fr = []
              · rw [if_neg (by simp [hfr0])]
                rfl
              · rw [if_pos hfr0, lstripC0_cons_of _ (by decide)]
            · rw [if_pos hq0]
              rw [List.cons_append, lstripC0_cons_of _ (by decide)]
          · obtain ⟨cp, cps, hppc⟩ : ∃ cp cps, pp = cp :: cps := by
              cases pp with
              | nil => exact absurd hpphd (by decide)
              | cons a b => exact ⟨a, b, rfl⟩
            rw [hppc] at hpphd
            simp only [List.headD_cons] at hpphd
            rw [ho2, hppc]
            simp only [List.cons_append]
            rw [lstripC0_cons_of _ hpphd]
        rw [hlst]
        exact hoRU
      have h2 : (if startsWithStr ((pp ++ (if q ≠ [] then Char.ofNat 63 :: q
            else [])) ++ (if fr ≠ [] then Char.ofNat 35 :: fr else []))
            (strL "//") = true then
          takeUntilAny (((pp ++ (if q ≠ [] then Char.ofNat 63 :: q else []))
              ++ (if fr ≠ [] then Char.ofNat 35 :: fr else [])).drop 2)
            [Char.ofNat 47, Char.ofNat 63, Char.ofNat 35]
        else ([], (pp ++ (if q ≠ [] then Char.ofNat 63 :: q else []))
            ++ (if fr ≠ [] then Char.ofNat 35 :: fr else [])))
          = ([], (pp ++ (if q ≠ [] then Char.ofNat 63 :: q else []))
            ++ (if fr ≠ [] then Char.ofNat 35 :: fr else [])) := by
        rw [if_neg (by rw [hswR]; simp)]
      exact ⟨pp, Or.inl rfl, pyUrlsplit_comp h0 h1 h2 h3 h4, rfl⟩
    · obtain ⟨c0, cs0, hsc_cons⟩ : ∃ c0 cs0, sc = c0 :: cs0 := by
        cases sc with
        | nil => exact absurd rfl hscne
        | cons a b => exact ⟨a, b, rfl⟩
      have ho2 : pyUrlunsplit sc [] pp q fr = sc ++ Char.ofNat 58 ::
          ((pp ++ (if q ≠ [] then Char.ofNat 63 :: q else []))
          ++ (if fr ≠ [] then Char.ofNat 35 :: fr else [])) := by
        rw [hshape, if_neg hC, if_pos hscne]
        simp
      have h1 : schemeSplit (pyUrlunsplit sc [] pp q fr) []
          = (sc, (pp ++ (if q ≠ [] then Char.ofNat 63 :: q else []))
            ++ (if fr ≠ [] then Char.ofNat 35 :: fr else [])) := by
        rw [ho2, schemeSplit_detect _ _ hscne hschd hscall, hsclow]
      have h0 : removeUnsafe (lstripC0 (pyUrlunsplit sc [] pp q fr))
          = pyUrlunsplit sc [] pp q fr := by
        have hc32 : 32 < c0.toNat := by
          have := isAsciiAlpha_gt32 hschd
          rw [hsc_cons] at this
          simpa using this
        have hocons : pyUrlunsplit sc [] pp q fr = c0 :: (cs0 ++
            Char.ofNat 58 :: ((pp ++ (if q ≠ [] then Char.ofNat 63 :: q
            else [])) ++ (if fr ≠ [] then Char.ofNat 35 :: fr
            else []))) := by
          rw [ho2, hsc_cons]
          simp
        rw [hocons, lstripC0_cons_of _ hc32, ← hocons]
        exact hoRU
      have h2 : (if startsWithStr ((pp ++ (if q ≠ [] then Char.ofNat 63 :: q
            else [])) ++ (if fr ≠ [] then Char.ofNat 35 :: fr else []))
            (strL "//") = true then
          takeUntilAny (((pp ++ (if q ≠ [] then Char.ofNat 63 :: q else []))
              ++ (if fr ≠ [] then Char.ofNat 35 :: fr else [])).drop 2)
            [Char.ofNat 47, Char.ofNat 63, Char.ofNat 35]
        else ([], (pp ++ (if q ≠ [] then Char.ofNat 63 :: q else []))
            ++ (if fr ≠ [] then Char.ofNat 35 :: fr else [])))
          = ([], (pp ++ (if q ≠ [] then Char.ofNat 63 :: q else []))
            ++ (if fr ≠ [] then Char.ofNat 35 :: fr else [])) := by
        rw [if_neg (by rw [hswR]; simp)]
      exact ⟨pp, Or.inl rfl, pyUrlsplit_comp h0 h1 h2 h3 h4, rfl⟩

theorem stripTrailingQ_idem (s : Str) :
    stripTrailingQ (stripTrailingQ s) = stripTrailingQ s := by
  unfold stripTrailingQ
  rw [List.reverse_reverse, dropWhile_idem]

theorem mem_stripTrailingQ {c : Char} {s : Str} (h : c ∈ stripTrailingQ s) :
    c ∈ s := by
  unfold stripTrailingQ at h
  rw [List.mem_reverse] at h
  exact List.mem_reverse.mp ((List.dropWhile_sublist _).subset h)

theorem mem_of_getLast {l : Str} {c : Char} (h : l.getLast? = some c) :
    c ∈ l := by
  rcases List.getLast?_eq_some_iff.mp h with ⟨ys, rfl⟩
  simp

theorem getLast?_append_char {X y : Str} {P : Char → Prop}
    (hy : ∀ c, y.getLast? = some c → P c)
    (hX : ∀ c, X.getLast? = some c → P c) :
    ∀ c, (X ++ y).getLast? = some c → P c := by
  intro c hc
  by_cases hy0 : y = []
  · subst hy0
    rw [List.append_nil] at hc
    exact hX c hc
  · rw [List.getLast?_append_of_ne_nil X hy0] at hc
    exact hy c hc

theorem startsWith_append_of {a p : Str} (t : Str)
    (h : startsWithStr a p = true) : startsWithStr (a ++ t) p = true := by
  induction a generalizing p with
  | nil =>
    cases p with
    | nil => exact startsWithStr_nilr t
    | cons x xs => exact absurd h (by simp [startsWithStr])
  | cons c cs ih =>
    cases p with
    | nil => exact startsWithStr_nilr _
    | cons x xs =>
      have h2 : ((c == x) && startsWithStr cs xs) = true := h
      rw [Bool.and_eq_true] at h2
      show ((c == x) && startsWithStr (cs ++ t) xs) = true
      rw [h2.1, ih h2.2, Bool.and_self]

theorem schemeLikePre_of_append_false {a t : Str}
    (h : schemeLikePre (a ++ t) = false) : schemeLikePre a = false := by
  unfold schemeLikePre at h ⊢
  rcases hsp : splitFirst a (Char.ofNat 58) with _ | ⟨pre, r⟩
  · rfl
  · rw [splitFirst_append_left t hsp] at h
    have h2 : (!pre.isEmpty && isAsciiAlpha (pre.headD (Char.ofNat 0)) &&
        pre.all isSchemeChar) = false := h
    exact h2

theorem schemeLikePre_head_nonalpha {a : Str}
    (h : a = [] ∨ isAsciiAlpha (a.headD (Char.ofNat 0)) = false) :
    schemeLikePre a = false := by
  rcases h with h | h
  · subst h
    rfl
  · cases a with
    | nil => rfl
    | cons c cs =>
      simp only [List.headD_cons] at h
      unfold schemeLikePre
      by_cases hc : c = Char.ofNat 58
      · subst hc
        have he : splitFirst (Char.ofNat 58 :: cs) (Char.ofNat 58)
            = some ([], cs) := by
          unfold splitFirst
          rw [if_pos rfl]
        rw [he]
        rfl
      · rcases hsp : splitFirst cs (Char.ofNat 58) with _ | ⟨a1, b1⟩
        · have he : splitFirst (c :: cs) (Char.ofNat 58) = none := by
            unfold splitFirst
            rw [if_neg hc, hsp]
          rw [he]
        · have he : splitFirst (c :: cs) (Char.ofNat 58)
              = some (c :: a1, b1) := by
            unfold splitFirst
            rw [if_neg hc, hsp]
          rw [he]
          show (!(c :: a1).isEmpty &&
            isAsciiAlpha ((c :: a1).headD (Char.ofNat 0)) &&
            (c :: a1).all isSchemeChar) = false
          simp only [List.headD_cons, h]
          simp

theorem schemeSplit_nil {url r : Str} (h : schemeSplit url [] = ([], r)) :
    r = url ∧ schemeLikePre url = false := by
  unfold schemeSplit at h
  unfold schemeLikePre
  rcases hsp : splitFirst url (Char.ofNat 58) with _ | ⟨pre, rest⟩
  · rw [hsp] at h
    have h2 : (([], url) : Str × Str) = ([], r) := h
    injection h2 with _ h2b
    exact ⟨h2b.symm, rfl⟩
  · rw [hsp] at h
    by_cases hcond : (!pre.isEmpty && isAsciiAlpha (pre.headD (Char.ofNat 0))
        && pre.all isSchemeChar) = true
    · exfalso
      have h2 : (pyLower pre, rest) = (([] : Str), r) := by
        rw [← h]
        show _ = (if (!pre.isEmpty && isAsciiAlpha (pre.headD (Char.ofNat 0))
          && pre.all isSchemeChar) = true then (pyLower pre, rest)
          else ([], url))
        rw [if_pos hcond]
      injection h2 with h2a _
      have hpre0 : pre = [] := by
        have hlen := congrArg List.length h2a
        simp only [List.length_nil] at hlen
        unfold pyLower at hlen
        rw [List.length_map] at hlen
        exact List.eq_nil_of_length_eq_zero hlen
      rw [hpre0] at hcond
      exact absurd hcond (by decide)
    · have h2 : (([], url) : Str × Str) = ([], r) := by
        rw [← h]
        show _ = (if (!pre.isEmpty && isAsciiAlpha (pre.headD (Char.ofNat 0))
          && pre.all isSchemeChar) = true then (pyLower pre, rest)
          else ([], url))
        rw [if_neg hcond]
      injection h2 with _ h2b
      rw [Bool.eq_false_iff]
      exact ⟨h2b.symm, hcond⟩

theorem mem_removeUnsafe {c : Char} {s : Str} (h : c ∈ removeUnsafe s) :
    c ∈ s ∧ c.toNat ≠ 9 ∧ c.toNat ≠ 10 ∧ c.toNat ≠ 13 := by
  unfold removeUnsafe at h
  rcases List.mem_filter.mp h with ⟨hm, hp⟩
  simp only [Bool.not_eq_eq_eq_not, Bool.not_true, Bool.or_eq_false_iff,
    beq_eq_false_iff_ne, ne_eq] at hp
  exact ⟨hm, hp.1.1, hp.2, hp.1.2⟩

theorem char_toNat_ofNat {n : Nat} (h : n.isValidChar) :
    (Char.ofNat n).toNat = n := by
  unfold Char.ofNat
  rw [dif_pos h]
  unfold Char.ofNatAux Char.toNat
  have hlt : n < 2 ^ 32 := by
    rcases h with h | ⟨h1, h2⟩ <;> omega
  simp [UInt32.toNat, Nat.mod_eq_of_lt hlt]

theorem pyLowerChar_cases (c : Char) :
    pyLowerChar c = c ∨
      (65 ≤ c.toNat ∧ c.toNat ≤ 90 ∧
        (pyLowerChar c).toNat = c.toNat + 32) := by
  unfold pyLowerChar
  by_cases h : (decide (65 ≤ c.toNat) && decide (c.toNat ≤ 90)) = true
  · right
    rw [if_pos h]
    simp only [Bool.and_eq_true, decide_eq_true_eq] at h
    refine ⟨h.1, h.2, ?_⟩
    have hv : (c.toNat + 32).isValidChar := Or.inl (by omega)
    exact char_toNat_ofNat hv
  · left
    rw [if_neg h]

theorem pyLowerChar_id_of {d : Char} (h : ¬ (65 ≤ d.toNat ∧ d.toNat ≤ 90)) :
    pyLowerChar d = d := by
  unfold pyLowerChar
  rw [if_neg (by simpa using h)]

theorem pyLowerChar_schemeChar {c : Char} (h : isSchemeChar c = true) :
    isSchemeChar (pyLowerChar c) = true := by
  rcases pyLowerChar_cases c with he | ⟨h1, h2, h3⟩
  · rw [he]
    exact h
  · unfold isSchemeChar isAsciiAlpha isAsciiDigit
    simp only [Bool.or_eq_true, Bool.and_eq_true, decide_eq_true_eq,
      beq_iff_eq]
    left
    left
    left
    left
    right
    exact ⟨by omega, by omega⟩

theorem pyLowerChar_alpha {c : Char} (h : isAsciiAlpha c = true) :
    isAsciiAlpha (pyLowerChar c) = true := by
  rcases pyLowerChar_cases c with he | ⟨h1, h2, h3⟩
  · rw [he]
    exact h
  · unfold isAsciiAlpha
    simp only [Bool.or_eq_true, Bool.and_eq_true, decide_eq_true_eq]
    right
    exact ⟨by omega, by omega⟩

theorem pyLowerChar_idem (c : Char) :
    pyLowerChar (pyLowerChar c) = pyLowerChar c := by
  rcases pyLowerChar_cases c with he | ⟨h1, h2, h3⟩
  · rw [he]
    exact he
  · exact pyLowerChar_id_of (by omega)

theorem pyLower_idem (s : Str) : pyLower (pyLower s) = pyLower s := by
  unfold pyLower
  rw [List.map_map]
  apply List.map_congr_left
  intro a _
  exact pyLowerChar_idem a

theorem pyLower_valid {pre : Str} (hne : pre ≠ [])
    (hhd : isAsciiAlpha (pre.headD (Char.ofNat 0)) = true)
    (hall : pre.all isSchemeChar = true) :
    pyLower pre ≠ [] ∧
      isAsciiAlpha ((pyLower pre).headD (Char.ofNat 0)) = true ∧
      (pyLower pre).all isSchemeChar = true := by
  obtain ⟨c, cs, rfl⟩ : ∃ c cs, pre = c :: cs := by
    cases pre with
    | nil => exact absurd rfl hne
    | cons a b => exact ⟨a, b, rfl⟩
  rw [List.all_eq_true] at hall
  refine ⟨by simp [pyLower], ?_, ?_⟩
  · show isAsciiAlpha ((pyLowerChar c :: pyLower cs).headD (Char.ofNat 0))
      = true
    simp only [List.headD_cons]
    simp only [List.headD_cons] at hhd
    exact pyLowerChar_alpha hhd
  · rw [List.all_eq_true]
    intro x hx
    rcases List.mem_map.mp hx with ⟨y, hy, rfl⟩
    exact pyLowerChar_schemeChar (hall y hy)

theorem schemeSplit_cases {url s r : Str} (h : schemeSplit url [] = (s, r)) :
    (s = [] ∧ r = url ∧ schemeLikePre url = false) ∨
    (∃ pre, splitFirst url (Char.ofNat 58) = some (pre, r) ∧
      s = pyLower pre ∧ pre ≠ [] ∧
      isAsciiAlpha (pre.headD (Char.ofNat 0)) = true ∧
      pre.all isSchemeChar = true) := by
  unfold schemeSplit at h
  rcases hsp : splitFirst url (Char.ofNat 58) with _ | ⟨pre, rest⟩
  · rw [hsp] at h
    have h2 : (([] : Str), url) = (s, r) := h
    injection h2 with h2a h2b
    refine Or.inl ⟨h2a.symm, h2b.symm, ?_⟩
    unfold schemeLikePre
    rw [hsp]
  · rw [hsp] at h
    by_cases hcond : (!pre.isEmpty && isAsciiAlpha (pre.headD (Char.ofNat 0))
        && pre.all isSchemeChar) = true
    · have h2 : (pyLower pre, rest) = (s, r) := by
        rw [← h]
        show _ = (if (!pre.isEmpty &&
          isAsciiAlpha (pre.headD (Char.ofNat 0)) &&
          pre.all isSchemeChar) = true then (pyLower pre, rest)
          else ([], url))
        rw [if_pos hcond]
      injection h2 with h2a h2b
      subst h2a
      subst h2b
      simp only [Bool.and_eq_true, Bool.not_eq_true'] at hcond
      refine Or.inr ⟨pre, rfl, rfl, ?_, hcond.1.2, hcond.2⟩
      intro he
      exact absurd hcond.1.1 (by rw [he]; decide)
    · have h2 : (([] : Str), url) = (s, r) := by
        rw [← h]
        show _ = (if (!pre.isEmpty &&
          isAsciiAlpha (pre.headD (Char.ofNat 0)) &&
          pre.all isSchemeChar) = true then (pyLower pre, rest)
          else ([], url))
        rw [if_neg hcond]
      injection h2 with h2a h2b
      refine Or.inl ⟨h2a.symm, h2b.symm, ?_⟩
      unfold schemeLikePre
      rw [hsp]
      exact Bool.eq_false_iff.mpr hcond

theorem url1_head (u : Str) :
    removeUnsafe (lstripC0 u) = [] ∨
      32 < ((removeUnsafe (lstripC0 u)).headD (Char.ofNat 0)).toNat := by
  rcases dropWhile_head_not (fun c => decide (c.toNat ≤ 32)) u
    with hnil | ⟨hd, tl, hdt, hp⟩
  · left
    show removeUnsafe (u.dropWhile fun c => decide (c.toNat ≤ 32)) = []
    rw [hnil]
    rfl
  · right
    show 32 < ((removeUnsafe (u.dropWhile fun c => decide (c.toNat ≤ 32))).headD
      (Char.ofNat 0)).toNat
    rw [hdt]
    have hgt : 32 < hd.toNat := by
      simp only [decide_eq_false_iff_not] at hp
      omega
    have hru : removeUnsafe (hd :: tl) = hd :: removeUnsafe tl := by
      show List.filter _ (hd :: tl) = _
      rw [List.filter_cons_of_pos (by simp; omega)]
      rfl
    rw [hru]
    simpa using hgt

theorem contains3_toNat {x : Char}
    (hx : ([Char.ofNat 47, Char.ofNat 63, Char.ofNat 35]
      : List Char).contains x = false) :
    x.toNat ≠ 47 ∧ x.toNat ≠ 63 ∧ x.toNat ≠ 35 := by
  have hnm : ¬ x ∈ ([Char.ofNat 47, Char.ofNat 63, Char.ofNat 35]
      : List Char) := by
    simpa using hx
  refine ⟨?_, ?_, ?_⟩ <;> intro he <;> apply hnm
  · rw [char_toNat_inj (he.trans (by decide : (47 : Nat)
      = (Char.ofNat 47).toNat))]
    decide
  · rw [char_toNat_inj (he.trans (by decide : (63 : Nat)
      = (Char.ofNat 63).toNat))]
    decide
  · rw [char_toNat_inj (he.trans (by decide : (35 : Nat)
      = (Char.ofNat 35).toNat))]
    decide

theorem not_mem_toNat {x : Str} {c : Char} {n : Nat}
    (h : Char.ofNat n ∉ x) (hc : c ∈ x) (hn : (Char.ofNat n).toNat = n) :
    c.toNat ≠ n := by
  intro he
  exact h (by rw [← char_toNat_inj (he.trans hn.symm)]; exact hc)

theorem urlsplit_inv {u sc nl pa Q fr : Str}
    (h : pyUrlsplit u [] = ⟨sc, nl, pa, Q, fr⟩) :
    (sc = [] ∨ (sc ≠ [] ∧ isAsciiAlpha (sc.headD (Char.ofNat 0)) = true ∧
      sc.all isSchemeChar = true ∧ pyLower sc = sc)) ∧
    (∀ c ∈ nl, c.toNat ≠ 47 ∧ c.toNat ≠ 63 ∧ c.toNat ≠ 35 ∧ c.toNat ≠ 9 ∧
      c.toNat ≠ 10 ∧ c.toNat ≠ 13) ∧
    (∀ c ∈ pa, c.toNat ≠ 63 ∧ c.toNat ≠ 35 ∧ c.toNat ≠ 9 ∧ c.toNat ≠ 10 ∧
      c.toNat ≠ 13) ∧
    (∀ c ∈ Q, c.toNat ≠ 35 ∧ c.toNat ≠ 9 ∧ c.toNat ≠ 10 ∧ c.toNat ≠ 13) ∧
    (∀ c ∈ fr, c.toNat ≠ 9 ∧ c.toNat ≠ 10 ∧ c.toNat ≠ 13) ∧
    (sc = [] → schemeLikePre pa = false) ∧
    (sc = [] → nl = [] → pa = [] ∨ 32 < (pa.headD (Char.ofNat 0)).toNat) := by
  obtain ⟨sc1, rest, nl1, rest2, rest3, fr1, pa1, Q1, hsp, hss, hnlor, hfor,
    hqor⟩ := pyUrlsplit_dissect u
  rw [h] at hsp
  injection hsp with e1 e2 e3 e4 e5
  subst e1
  subst e2
  subst e3
  subst e4
  subst e5
  have hurl1 : ∀ c ∈ removeUnsafe (lstripC0 u),
      c.toNat ≠ 9 ∧ c.toNat ≠ 10 ∧ c.toNat ≠ 13 :=
    fun c hc => (mem_removeUnsafe hc).2
  have hrest_sub : ∀ c ∈ rest, c ∈ removeUnsafe (lstripC0 u) := by
    rcases schemeSplit_cases hss with ⟨_, hrest, _⟩ | ⟨pre, hspf, _⟩
    · rw [hrest]
      exact fun c hc => hc
    · rcases splitFirst_eq_some hspf with ⟨hu, _⟩
      rw [hu]
      intro c hc
      exact List.mem_append_right _ (List.mem_cons_of_mem _ hc)
  have hrest2_sub : ∀ c ∈ rest2, c ∈ rest := by
    rcases hnlor with ⟨_, htk⟩ | ⟨_, _, hr2⟩
    · rcases takeUntilAny_spec htk with ⟨hd2, _, _⟩
      intro c hc
      have hc2 : c ∈ List.drop 2 rest := by
        rw [hd2]
        exact List.mem_append_right _ hc
      exact List.drop_subset 2 rest hc2
    · rw [hr2]
      exact fun c hc => hc
  obtain ⟨t1, hd1⟩ : ∃ t1, rest2 = rest3 ++ t1 := by
    rcases hfor with hf | ⟨_, hr3, _⟩
    · rcases splitFirst_eq_some hf with ⟨he, _⟩
      exact ⟨Char.ofNat 35 :: fr, he⟩
    · exact ⟨[], by rw [hr3, List.append_nil]⟩
  obtain ⟨t2, hd2⟩ : ∃ t2, rest3 = pa ++ t2 := by
    rcases hqor with hq | ⟨_, hpa, _⟩
    · rcases splitFirst_eq_some hq with ⟨he, _⟩
      exact ⟨Char.ofNat 63 :: Q, he⟩
    · exact ⟨[], by rw [hpa, List.append_nil]⟩
  have h35r3 : Char.ofNat 35 ∉ rest3 := by
    rcases hfor with hf | ⟨hfn, hr3, _⟩
    · exact (splitFirst_eq_some hf).2
    · rw [hr3]
      exact splitFirst_eq_none hfn
  have h63pa : Char.ofNat 63 ∉ pa := by
    rcases hqor with hq | ⟨hqn, hpa, _⟩
    · exact (splitFirst_eq_some hq).2
    · rw [hpa]
      exact splitFirst_eq_none hqn
  have hpa_sub : ∀ c ∈ pa, c ∈ rest3 := by
    intro c hc
    rw [hd2]
    exact List.mem_append_left _ hc
  have hr3_sub : ∀ c ∈ rest3, c ∈ rest2 := by
    intro c hc
    rw [hd1]
    exact List.mem_append_left _ hc
  have hQ_sub : ∀ c ∈ Q, c ∈ rest3 := by
    rcases hqor with hq | ⟨_, _, hq0⟩
    · rcases splitFirst_eq_some hq with ⟨he, _⟩
      rw [he]
      intro c hc
      exact List.mem_append_right _ (List.mem_cons_of_mem _ hc)
    · rw [hq0]
      intro c hc
      cases hc
  have hfr_sub : ∀ c ∈ fr, c ∈ rest2 := by
    rcases hfor with hf | ⟨_, _, hf0⟩
    · rcases splitFirst_eq_some hf with ⟨he, _⟩
      rw [he]
      intro c hc
      exact List.mem_append_right _ (List.mem_cons_of_mem _ hc)
    · rw [hf0]
      intro c hc
      cases hc
  have hclean2 : ∀ c ∈ rest2, c.toNat ≠ 9 ∧ c.toNat ≠ 10 ∧ c.toNat ≠ 13 :=
    fun c hc => hurl1 c (hrest_sub c (hrest2_sub c hc))
  refine ⟨?_, ?_, ?_, ?_, ?_, ?_, ?_⟩
  · rcases schemeSplit_cases hss with ⟨hs0, _, _⟩ | ⟨pre, _, hsl, hpre_ne,
      hpre_hd, hpre_all⟩
    · exact Or.inl hs0
    · right
      rcases pyLower_valid hpre_ne hpre_hd hpre_all with ⟨hv1, hv2, hv3⟩
      subst hsl
      exact ⟨hv1, hv2, hv3, pyLower_idem pre⟩
  · rcases hnlor with ⟨_, htk⟩ | ⟨_, hnl0, _⟩
    · rcases takeUntilAny_spec htk with ⟨hd0, hmem, _⟩
      intro c hc
      rcases contains3_toNat (hmem c hc) with ⟨a47, a63, a35⟩
      have hcu : c ∈ rest := List.drop_subset 2 rest
        (by rw [hd0]; exact List.mem_append_left _ hc)
      rcases hurl1 c (hrest_sub c hcu) with ⟨a9, a10, a13⟩
      exact ⟨a47, a63, a35, a9, a10, a13⟩
    · intro c hc
      rw [hnl0] at hc
      cases hc
  · intro c hc
    have hc3 : c ∈ rest3 := hpa_sub c hc
    rcases hclean2 c (hr3_sub c hc3) with ⟨a9, a10, a13⟩
    exact ⟨not_mem_toNat h63pa hc (by decide),
      not_mem_toNat h35r3 hc3 (by decide), a9, a10, a13⟩
  · intro c hc
    have hc3 : c ∈ rest3 := hQ_sub c hc
    rcases hclean2 c (hr3_sub c hc3) with ⟨a9, a10, a13⟩
    exact ⟨not_mem_toNat h35r3 hc3 (by decide), a9, a10, a13⟩
  · intro c hc
    rcases hclean2 c (hfr_sub c hc) with ⟨a9, a10, a13⟩
    exact ⟨a9, a10, a13⟩
  · intro hs0
    rcases schemeSplit_cases hss with ⟨_, hrest, hlike⟩ | ⟨pre, _, hsl,
      hpre_ne, _, _⟩
    · rcases hnlor with ⟨hsw, htk⟩ | ⟨_, _, hr2⟩
      · cases hpa : pa with
        | nil => rfl
        | cons c l =>
          rcases takeUntilAny_spec htk with ⟨_, _, hhd⟩
          have hhd3 : rest3.head? = some c := by
            rw [hd2, hpa]
            rfl
          have hhd2 : rest2.head? = some c := by
            rw [hd1]
            rw [List.head?_append_of_ne_nil rest3 (by
              rw [hd2, hpa]; simp)]
            exact hhd3
          have hcm := hhd c hhd2
          have hcm2 : c ∈ ([Char.ofNat 47, Char.ofNat 63, Char.ofNat 35]
              : List Char) := by
            simpa using hcm
          apply schemeLikePre_head_nonalpha
          right
          simp only [List.headD_cons]
          simp only [List.mem_cons, List.not_mem_nil, or_false] at hcm2
          rcases hcm2 with rfl | rfl | rfl <;> decide
      · have hup : removeUnsafe (lstripC0 u) = pa ++ (t2 ++ t1) := by
          rw [← hrest, ← hr2, hd1, hd2, List.append_assoc]
        have hlike2 : schemeLikePre (pa ++ (t2 ++ t1)) = false := by
          rw [← hup]
          exact hlike
        exact schemeLikePre_of_append_false hlike2
    · exfalso
      apply hpre_ne
      have hlen := congrArg List.length hsl
      rw [hs0] at hlen
      simp only [List.length_nil] at hlen
      unfold pyLower at hlen
      rw [List.length_map] at hlen
      exact List.eq_nil_of_length_eq_zero hlen.symm
  · intro hs0 hnl0
    rcases hnlor with ⟨hsw, htk⟩ | ⟨_, _, hr2⟩
    · cases hpa : pa with
      | nil => exact Or.inl rfl
      | cons c l =>
        rcases takeUntilAny_spec htk with ⟨_, _, hhd⟩
        have hhd2 : rest2.head? = some c := by
          rw [hd1, List.head?_append_of_ne_nil rest3 (by
            rw [hd2, hpa]; simp), hd2, hpa]
          rw [List.head?_append_of_ne_nil (c :: l) (by simp)]
          rfl
        have hcm := hhd c hhd2
        have hcm2 : c ∈ ([Char.ofNat 47, Char.ofNat 63, Char.ofNat 35]
            : List Char) := by
          simpa using hcm
        right
        simp only [List.headD_cons]
        simp only [List.mem_cons, List.not_mem_nil, or_false] at hcm2
        rcases hcm2 with rfl | rfl | rfl <;> decide
    · cases hpa : pa with
      | nil => exact Or.inl rfl
      | cons c l =>
        right
        simp only [List.headD_cons]
        rcases schemeSplit_cases hss with ⟨_, hrest, _⟩ | ⟨pre, _, hsl,
          hpre_ne, _, _⟩
        · have hup : removeUnsafe (lstripC0 u) = (c :: l) ++ (t2 ++ t1) := by
            rw [← hrest, ← hr2, hd1, hd2, hpa, List.append_assoc]
          rcases url1_head u with hnil | hgt
          · rw [hup] at hnil
            simp at hnil
          · rw [hup] at hgt
            simpa using hgt
        · exfalso
          apply hpre_ne
          have hlen := congrArg List.length hsl
          rw [hs0] at hlen
          simp only [List.length_nil] at hlen
          unfold pyLower at hlen
          rw [List.length_map] at hlen
          exact List.eq_nil_of_length_eq_zero hlen.symm

theorem keyFilter_idem (l : List (Str × Str)) :
    keyFilter (keyFilter l) = keyFilter l := by
  unfold keyFilter
  rw [List.filter_filter, List.filter_filter, List.filter_filter,
    List.filter_filter]
  apply List.filter_congr
  intro x _
  cases h1 : isTrackingKey x.1 <;>
    by_cases h2 : pyLower x.1 = strL "sk" <;> simp [h1, h2]

theorem query_stable (X : List (Str × Str)) :
    urlencode (keyFilter (parse_qsl (urlencode (keyFilter X))))
      = urlencode (keyFilter X) := by
  rw [parse_qsl_urlencode, keyFilter_idem]

theorem qp_part_charset (k v : Str) :
    ∀ x ∈ quote_plus k ++ [Char.ofNat 61] ++ quote_plus v,
      32 < x.toNat ∧ x.toNat < 128 ∧ x.toNat ≠ 35 ∧ x.toNat ≠ 63 := by
  intro x hx
  rcases List.mem_append.mp hx with hx | hx
  · rcases List.mem_append.mp hx with hx | hx
    · rcases quote_plus_charset k x hx with ⟨a, b, _, _, c, d⟩
      exact ⟨a, b, c, d⟩
    · simp only [List.mem_singleton] at hx
      subst hx
      exact ⟨by decide, by decide, by decide, by decide⟩
  · rcases quote_plus_charset v x hx with ⟨a, b, _, _, c, d⟩
    exact ⟨a, b, c, d⟩

theorem urlencode_charset (L : List (Str × Str)) :
    ∀ x ∈ urlencode L, 32 < x.toNat ∧ x.toNat < 128 ∧ x.toNat ≠ 35 ∧
      x.toNat ≠ 63 := by
  induction L with
  | nil =>
    intro x hx
    simp [urlencode, List.intercalate] at hx
  | cons kv L ih =>
    cases L with
    | nil =>
      rw [urlencode_singleton]
      exact qp_part_charset kv.1 kv.2
    | cons kv2 L2 =>
      rw [urlencode_cons_cons]
      intro x hx
      rcases List.mem_append.mp hx with hx | hx
      · rcases List.mem_append.mp hx with hx | hx
        · exact qp_part_charset kv.1 kv.2 x hx
        · simp only [List.mem_singleton] at hx
          subst hx
          exact ⟨by decide, by decide, by decide, by decide⟩
      · exact ih x hx

theorem strip_unsplit (sc nl pp q fr : Str)
    (Hsc : ∀ c ∈ sc, c.toNat ≠ 63)
    (Hnl : ∀ c ∈ nl, c.toNat ≠ 63)
    (Hpp : ∀ c ∈ pp, c.toNat ≠ 63)
    (Hq : ∀ c ∈ q, c.toNat ≠ 63)
    (Hfr : fr ≠ [] → stripTrailingQ fr ≠ []) :
    stripTrailingQ (pyUrlunsplit sc nl pp q fr)
      = pyUrlunsplit sc nl pp q (stripTrailingQ fr) := by
  have hAmem : ∀ c ∈ (if sc ≠ [] then sc ++ [Char.ofNat 58] else []),
      ¬ c.toNat = 63 := by
    intro c hm
    by_cases hsc0 : sc ≠ []
    · rw [if_pos hsc0] at hm
      rcases List.mem_append.mp hm with hm | hm
      · exact Hsc c hm
      · simp only [List.mem_singleton] at hm
        subst hm
        decide
    · rw [if_neg hsc0] at hm
      cases hm
  have hBmem : ∀ c ∈ (if nl ≠ [] ∨ (sc ≠ [] ∧ uses_netloc.contains sc ∧
        ¬ startsWithStr pp (strL "//")) then
        strL "//" ++ nl ++ (if pp ≠ [] ∧ ¬ startsWithStr pp (strL "/")
          then Char.ofNat 47 :: pp else pp)
      else pp), ¬ c.toNat = 63 := by
    intro c hm
    by_cases hcond : nl ≠ [] ∨ (sc ≠ [] ∧ uses_netloc.contains sc ∧
        ¬ startsWithStr pp (strL "//"))
    · rw [if_pos hcond] at hm
      rcases List.mem_append.mp hm with hm | hm
      · rcases List.mem_append.mp hm with hm | hm
        · rw [strL_slash2] at hm
          simp only [List.mem_cons, List.not_mem_nil, or_false] at hm
          rcases hm with rfl | rfl <;> decide
        · exact Hnl c hm
      · by_cases hpc : pp ≠ [] ∧ ¬ startsWithStr pp (strL "/")
        · rw [if_pos hpc] at hm
          rcases List.mem_cons.mp hm with rfl | hm
          · decide
          · exact Hpp c hm
        · rw [if_neg hpc] at hm
          exact Hpp c hm
    · rw [if_neg hcond] at hm
      exact Hpp c hm
  by_cases hfr0 : fr = []
  · subst hfr0
    have h0 : stripTrailingQ ([] : Str) = [] := rfl
    rw [h0]
    apply stripTrailingQ_of_last
    rw [unsplit_shape]
    have hD : (if ([] : Str) ≠ [] then Char.ofNat 35 :: ([] : Str) else [])
        = ([] : Str) := by simp
    rw [hD, List.append_nil]
    apply getLast?_append_char
    · intro c hcl
      by_cases hq0 : q ≠ []
      · rw [if_pos hq0] at hcl
        obtain ⟨d, ds, rfl⟩ : ∃ d ds, q = d :: ds := by
          cases q with
          | nil => exact absurd rfl hq0
          | cons d ds => exact ⟨d, ds, rfl⟩
        rw [List.getLast?_cons_cons] at hcl
        exact Hq c (mem_of_getLast hcl)
      · rw [if_neg hq0] at hcl
        simp at hcl
    · apply getLast?_append_char
      · exact fun c hcl => hBmem c (mem_of_getLast hcl)
      · exact fun c hcl => hAmem c (mem_of_getLast hcl)
  · have hsf : stripTrailingQ fr ≠ [] := Hfr hfr0
    rw [unsplit_shape sc nl pp q fr,
      unsplit_shape sc nl pp q (stripTrailingQ fr)]
    rw [if_pos hfr0, if_pos hsf]
    have e1 : stripTrailingQ ([Char.ofNat 35] ++ fr)
        = [Char.ofNat 35] ++ stripTrailingQ fr := stripTrailingQ_append hsf
    have e2 : stripTrailingQ
        (((if sc ≠ [] then sc ++ [Char.ofNat 58] else [])
          ++ (if nl ≠ [] ∨ (sc ≠ [] ∧ uses_netloc.contains sc ∧
                ¬ startsWithStr pp (strL "//")) then
              strL "//" ++ nl ++ (if pp ≠ [] ∧ ¬ startsWithStr pp (strL "/")
                then Char.ofNat 47 :: pp else pp)
            else pp)
          ++ (if q ≠ [] then Char.ofNat 63 :: q else []))
          ++ ([Char.ofNat 35] ++ fr))
        = ((if sc ≠ [] then sc ++ [Char.ofNat 58] else [])
          ++ (if nl ≠ [] ∨ (sc ≠ [] ∧ uses_netloc.contains sc ∧
                ¬ startsWithStr pp (strL "//")) then
              strL "//" ++ nl ++ (if pp ≠ [] ∧ ¬ startsWithStr pp (strL "/")
                then Char.ofNat 47 :: pp else pp)
            else pp)
          ++ (if q ≠ [] then Char.ofNat 63 :: q else []))
          ++ ([Char.ofNat 35] ++ stripTrailingQ fr) := by
      rw [stripTrailingQ_append (by rw [e1]; simp), e1]
    exact e2

theorem normalize_decomp {u sc nl pa q fr : Str}
    (h : pyUrlsplit u [] = ⟨sc, nl, pa, q, fr⟩) :
    normalize_url u
      = stripTrailingQ (pyUrlunsplit sc nl (paramsRejoin sc pa)
          (urlencode (keyFilter (parse_qsl q))) fr) := by
  by_cases hc : uses_params.contains sc ∧ pa.contains (Char.ofNat 59)
  · rcases hsp : splitparams pa with ⟨a, b⟩
    have hp : pyUrlparse u [] = ⟨sc, nl, a, b, q, fr⟩ := by
      simp only [pyUrlparse, h]
      rw [if_pos hc, hsp]
    have hpr : paramsRejoin sc pa
        = if b ≠ [] then a ++ Char.ofNat 59 :: b else a := by
      unfold paramsRejoin
      rw [if_pos hc, hsp]
    have hpath : (if b ≠ [] then a ++ [Char.ofNat 59] ++ b else a)
        = paramsRejoin sc pa := by
      rw [hpr]
      by_cases hb : b ≠ []
      · rw [if_pos hb, if_pos hb, List.append_assoc]
        rfl
      · rw [if_neg hb, if_neg hb]
    simp only [normalize_url, hp, pyUrlunparse]
    rw [hpath]
  · have hp : pyUrlparse u [] = ⟨sc, nl, pa, [], q, fr⟩ := by
      simp only [pyUrlparse, h]
      rw [if_neg hc]
    have hpr : paramsRejoin sc pa = pa := by
      unfold paramsRejoin
      rw [if_neg hc]
    simp only [normalize_url, hp, pyUrlunparse, hpr]
    rw [if_neg (by simp)]

/-- Counterexample to C4 as stated: `normalize_url` is not idempotent.  A
fragment consisting only of `?` is eaten by the trailing-`?` strip, leaving
a bare `#` that the next pass drops; and with an empty netloc a path
beginning `//` loses two slashes per pass. -/
theorem C4_not_idempotent :
    normalize_url (normalize_url (strL "http://x#?")) ≠
      normalize_url (strL "http://x#?") ∧
    normalize_url (strL "http://x#?") = strL "http://x#" ∧
    normalize_url (strL "http://x#") = strL "http://x" ∧
    normalize_url (normalize_url (strL "/////y")) ≠
      normalize_url (strL "/////y") ∧
    normalize_url (strL "/////y") = strL "///y" ∧
    normalize_url (strL "///y") = strL "/y" := by
  refine ⟨?_, rfl, rfl, ?_, rfl, rfl⟩ <;> decide

/-- C4: `normalize_url` is idempotent — as amended, on every URL outside
the two failure classes exhibited by the counterexample: (i) the fragment
of `urlsplit u` must not be a non-empty string consisting entirely of `?`
(those fragments are eaten by the trailing-`?` strip, leaving a bare `#`
that the second pass drops), and (ii) the netloc must be non-empty or the
path must not begin with `//` (otherwise `urlunsplit`'s output re-parses
with two path slashes absorbed into a netloc).  For every `u` satisfying
these two side conditions, `normalize_url (normalize_url u) =
normalize_url u`. -/
theorem C4_idempotent_amended (u : Str)
    (h1 : (pyUrlsplit u []).fragment.all (fun c => c.toNat == 63) = false ∨
      (pyUrlsplit u []).fragment = [])
    (h2 : (pyUrlsplit u []).netloc ≠ [] ∨
      startsWithStr (pyUrlsplit u []).path (strL "//") = false) :
    normalize_url (normalize_url u) = normalize_url u := by
  obtain ⟨sc, nl, pa, q, fr, hsp⟩ :
      ∃ sc nl pa q fr, pyUrlsplit u [] = ⟨sc, nl, pa, q, fr⟩ :=
    ⟨_, _, _, _, _, rfl⟩
  rw [hsp] at h1 h2
  have h1' : fr.all (fun c => c.toNat == 63) = false ∨ fr = [] := h1
  have h2' : nl ≠ [] ∨ startsWithStr pa (strL "//") = false := h2
  obtain ⟨Hv, HnlI, HpaI, HqI, HfrI, HslI, HhdI⟩ := urlsplit_inv hsp
  obtain ⟨pp, hppdef⟩ : ∃ pp, paramsRejoin sc pa = pp := ⟨_, rfl⟩
  obtain ⟨Q2, hQdef⟩ : ∃ x, urlencode (keyFilter (parse_qsl q)) = x :=
    ⟨_, rfl⟩
  obtain ⟨fr2, hfrdef⟩ : ∃ x, stripTrailingQ fr = x := ⟨_, rfl⟩
  have hpr := paramsRejoin_prefix sc pa
  rw [hppdef] at hpr
  have Hpp_sub : ∀ c ∈ pp, c ∈ pa := by
    rcases hpr with h | h
    · rw [← h]
      exact fun c hc => hc
    · intro c hc
      rw [h]
      exact List.mem_append_left _ hc
  have Hsc63 : ∀ c ∈ sc, c.toNat ≠ 63 := by
    intro c hc
    rcases Hv with hs0 | ⟨_, _, hall, _⟩
    · rw [hs0] at hc
      cases hc
    · simp only [List.all_eq_true] at hall
      exact (isSchemeChar_range (hall c hc)).2.2.2.2.2.2.1
  have Hnl63 : ∀ c ∈ nl, c.toNat ≠ 63 := fun c hc => (HnlI c hc).2.1
  have Hpp63 : ∀ c ∈ pp, c.toNat ≠ 63 :=
    fun c hc => (HpaI c (Hpp_sub c hc)).1
  have HQ63 : ∀ c ∈ Q2, c.toNat ≠ 63 := by
    intro c hc
    rw [← hQdef] at hc
    exact (urlencode_charset _ c hc).2.2.2
  have Hfrs : fr ≠ [] → stripTrailingQ fr ≠ [] := by
    intro hfrne hst
    unfold stripTrailingQ at hst
    have hrev : fr.reverse.dropWhile (fun c => c.toNat == 63) = [] := by
      have := congrArg List.reverse hst
      simpa using this
    rw [List.dropWhile_eq_nil_iff] at hrev
    rcases h1' with hall | hnil
    · have hat : fr.all (fun c => c.toNat == 63) = true := by
        rw [List.all_eq_true]
        intro x hx
        exact hrev x (List.mem_reverse.mpr hx)
      rw [hat] at hall
      cases hall
    · exact hfrne hnil
  have hnd := normalize_decomp hsp
  rw [hppdef, hQdef] at hnd
  have hsu1 := strip_unsplit sc nl pp Q2 fr Hsc63 Hnl63 Hpp63 HQ63 Hfrs
  rw [hfrdef] at hsu1
  have hfu : normalize_url u = pyUrlunsplit sc nl pp Q2 fr2 :=
    hnd.trans hsu1
  have HQc : ∀ c ∈ Q2, c.toNat ≠ 35 ∧ c.toNat ≠ 9 ∧ c.toNat ≠ 10 ∧
      c.toNat ≠ 13 := by
    intro c hc
    rw [← hQdef] at hc
    rcases urlencode_charset _ c hc with ⟨hgt, hlt, h35, _⟩
    exact ⟨h35, by omega, by omega, by omega⟩
  have Hppc : ∀ c ∈ pp, c.toNat ≠ 63 ∧ c.toNat ≠ 35 ∧ c.toNat ≠ 9 ∧
      c.toNat ≠ 10 ∧ c.toNat ≠ 13 := fun c hc => HpaI c (Hpp_sub c hc)
  have Hfrc : ∀ c ∈ fr2, c.toNat ≠ 9 ∧ c.toNat ≠ 10 ∧ c.toNat ≠ 13 := by
    intro c hc
    rw [← hfrdef] at hc
    exact HfrI c (mem_stripTrailingQ hc)
  have HschemeFail : sc = [] → schemeLikePre pp = false := by
    intro hs0
    rcases hpr with h | h
    · rw [h]
      exact HslI hs0
    · exact schemeLikePre_of_append_false (by rw [← h]; exact HslI hs0)
  have Hslash : nl = [] → startsWithStr pp (strL "//") = false := by
    intro hnl0
    have hpa0 : startsWithStr pa (strL "//") = false := by
      rcases h2' with hno | hs
      · exact absurd hnl0 hno
      · exact hs
    cases hb : startsWithStr pp (strL "//") with
    | false => rfl
    | true =>
      exfalso
      rcases hpr with h | h
      · rw [← h, hb] at hpa0
        cases hpa0
      · have hap := startsWith_append_of [Char.ofNat 59] hb
        rw [← h] at hap
        rw [hap] at hpa0
        cases hpa0
  have Hhead : sc = [] → nl = [] →
      pp = [] ∨ 32 < (pp.headD (Char.ofNat 0)).toNat := by
    intro hs0 hnl0
    rcases HhdI hs0 hnl0 with hpa0 | hgt
    · left
      rw [← hppdef, hpa0]
      simp [paramsRejoin]
    · rcases hpr with h | h
      · rw [h]
        right
        exact hgt
      · cases hpp0 : pp with
        | nil => exact Or.inl rfl
        | cons d ds =>
          right
          rw [h, hpp0] at hgt
          simpa using hgt
  obtain ⟨pp2, hpp2or, hresplit, hrerender⟩ :=
    unsplit_resplit sc nl pp Q2 fr2 Hv HnlI Hppc HQc Hfrc HschemeFail
      Hslash Hhead
  have hresplit2 : pyUrlsplit (normalize_url u) [] = ⟨sc, nl, pp2, Q2, fr2⟩ := by
    rw [hfu]
    exact hresplit
  have hpr_idem : paramsRejoin sc pp = pp := by
    rw [← hppdef]
    exact paramsRejoin_idem sc pa
  have hprj2 : paramsRejoin sc pp2 = pp2 := by
    rcases hpp2or with rfl | rfl
    · exact hpr_idem
    · exact paramsRejoin_slash sc pp hpr_idem
  have hqs2 : urlencode (keyFilter (parse_qsl Q2)) = Q2 := by
    rw [← hQdef]
    exact query_stable (parse_qsl q)
  have hnd2 := normalize_decomp hresplit2
  rw [hprj2, hqs2, hrerender] at hnd2
  have hfr2i : stripTrailingQ fr2 = fr2 := by
    rw [← hfrdef, stripTrailingQ_idem]
  have hsu2 := strip_unsplit sc nl pp Q2 fr2 Hsc63 Hnl63 Hpp63 HQ63
    (fun h => by rw [hfr2i]; exact h)
  rw [hfr2i] at hsu2
  exact (hnd2.trans hsu2).trans hfu.symm

/-- Witness for the amended C4 theorem at a concrete URL with a scheme,
netloc, params, a query with tracking keys, a percent-escape and a
fragment. -/
theorem C4_idempotent_amended_witness :
    normalize_url (normalize_url
        (strL "https://Ex.com/a;p?utm_source=x&q=a%20b&sk=1#frag"))
      = normalize_url
        (strL "https://Ex.com/a;p?utm_source=x&q=a%20b&sk=1#frag") :=
  C4_idempotent_amended _ (by decide) (by decide)

end News


